import Mathlib

/-!
Shallow embedding of the `ugit` content-addressable version-control core
(`ugit/data.py`, `ugit/base.py`, `ugit/diff.py`) and proofs about it.

Modelling conventions:
* Python `bytes` and `str` are both modelled as `List Nat` (named `Str` below):
  a byte string is its list of byte values, a text string its list of Unicode
  code points.  Every string handled by the tree/commit codecs is produced by
  `str` formatting and round-trips through UTF-8 `encode`/`decode`, which is a
  bijection onto its image, so the two readings agree on everything the code
  does with them (concatenation, splitting on ASCII delimiters, lexicographic
  comparison — UTF-8 byte order equals code-point order).
* The filesystem state is explicit: the object directory, the ref files, the
  index file and the working directory each become an association list keyed
  by name, with Python's dict/file-overwrite semantics (`setv` replaces an
  existing binding in place, else appends — insertion order preserved, as for
  Python dicts and directory listings in creation order).
* `hashlib.sha1` is implemented concretely (`sha1hex`).  Definitions that must
  hold for *any* collision-free digest are parameterized by the digest
  function `h`, mirroring the spec's remark that the digest is substitutable.
* Python exceptions (`FileNotFoundError`, `ValueError`, `TypeError`,
  `AttributeError`) are modelled by `Option`/result types: `none` means the
  call raised.  Unbounded recursion (symbolic-ref cycles, cyclic tree graphs)
  is modelled with an explicit recursion-depth argument (`fuel`); exhausting
  the fuel also yields `none` / a failure flag.
-/

/-- A Python string / byte string: its list of code points (byte values). -/
abbrev Str := List Nat

/-- Code points of a Lean string literal, used to transliterate the Python
string literals appearing in the source. -/
def strB (s : String) : Str := s.data.map Char.toNat

/-- Dictionary / file lookup in an association list (first binding wins,
as in a filesystem where each name is unique). -/
def lookupA {α : Type} : List (Str × α) → Str → Option α
  | [], _ => none
  | (k', v) :: rest, k => if k' = k then some v else lookupA rest k

/-- Python dict assignment `d[k] = v` / overwriting a file: replace the
binding in place if the key exists, else append (insertion order kept). -/
def setv {α : Type} (k : Str) (v : α) : List (Str × α) → List (Str × α)
  | [] => [(k, v)]
  | (k', v') :: rest => if k' = k then (k, v) :: rest else (k', v') :: setv k v rest

/-- Deleting a file / dict entry by key. -/
def removeKey {α : Type} (k : Str) : List (Str × α) → List (Str × α)
  | [] => []
  | (k', v') :: rest => if k' = k then rest else (k', v') :: removeKey k rest

/- ## SHA-1 (`hashlib.sha1(...).hexdigest()`), over byte lists -/

/-- Left rotation of a 32-bit word. -/
def rotl32 (n x : Nat) : Nat := ((x <<< n) % 4294967296) ||| (x >>> (32 - n))

/-- The SHA-1 round function (`Ch`, `Parity`, `Maj`, `Parity`). -/
def sha1F (i b c d : Nat) : Nat :=
  if i < 20 then (b &&& c) ||| ((b ^^^ 4294967295) &&& d)
  else if i < 40 then b ^^^ c ^^^ d
  else if i < 60 then (b &&& c) ||| (b &&& d) ||| (c &&& d)
  else b ^^^ c ^^^ d

/-- The SHA-1 round constants. -/
def sha1K (i : Nat) : Nat :=
  if i < 20 then 1518500249
  else if i < 40 then 1859775393
  else if i < 60 then 2400959708
  else 3395469782

/-- Big-endian 32-bit words from a byte list. -/
def bytesToWords : List Nat → List Nat
  | b0 :: b1 :: b2 :: b3 :: rest =>
      (((b0 * 256 + b1) * 256 + b2) * 256 + b3) :: bytesToWords rest
  | _ => []

/-- Message-schedule extension; `acc` holds the words produced so far in
reverse, so `acc.getD 2 0` is `w[i-3]`, etc. -/
def extendW (acc : List Nat) : Nat → List Nat
  | 0 => acc.reverse
  | n + 1 =>
      extendW
        (rotl32 1 (acc.getD 2 0 ^^^ acc.getD 7 0 ^^^ acc.getD 13 0 ^^^ acc.getD 15 0) :: acc) n

/-- The 80 compression rounds of one SHA-1 block. -/
def sha1Rounds (st : Nat × Nat × Nat × Nat × Nat) (ws : List Nat) :
    Nat × Nat × Nat × Nat × Nat :=
  ws.enum.foldl
    (fun st iw =>
      match st, iw with
      | (a, b, c, d, e), (i, w) =>
        ((rotl32 5 a + sha1F i b c d + e + sha1K i + w) % 4294967296,
         a, rotl32 30 b, c, d))
    st

/-- Process the padded message 64 bytes at a time.  The first argument is a
recursion bound; each step strictly shortens the byte list by 64, so any bound
at least the message length is exact. -/
def sha1Chunks : Nat → Nat × Nat × Nat × Nat × Nat → List Nat → Nat × Nat × Nat × Nat × Nat
  | 0, st, _ => st
  | _, st, [] => st
  | fuel + 1, st, b :: bs =>
      let chunk := b :: bs.take 63
      let rest := bs.drop 63
      let ws := extendW (bytesToWords chunk).reverse 64
      match st, sha1Rounds st ws with
      | (h0, h1, h2, h3, h4), (a, b', c, d, e) =>
        sha1Chunks fuel
          ((h0 + a) % 4294967296, (h1 + b') % 4294967296, (h2 + c) % 4294967296,
           (h3 + d) % 4294967296, (h4 + e) % 4294967296) rest

/-- Merkle–Damgård padding: `0x80`, zeros to 56 mod 64, 8-byte big-endian
bit length. -/
def sha1Pad (msg : List Nat) : List Nat :=
  let len := msg.length
  let k := (119 - len % 64) % 64
  let lenBits := len * 8
  msg ++ [128] ++ List.replicate k 0 ++
    (List.range 8).map (fun i => (lenBits >>> (8 * (7 - i))) % 256)

/-- Big-endian bytes of one 32-bit word. -/
def word4 (w : Nat) : List Nat :=
  [(w >>> 24) % 256, (w >>> 16) % 256, (w >>> 8) % 256, w % 256]

/-- The 20-byte SHA-1 digest of a byte list. -/
def sha1Bytes (msg : List Nat) : List Nat :=
  let padded := sha1Pad msg
  match sha1Chunks padded.length
      (1732584193, 4023233417, 2562383102, 271733878, 3285377520) padded with
  | (h0, h1, h2, h3, h4) => [h0, h1, h2, h3, h4].flatMap word4

/-- A nibble as a lowercase hexadecimal character code. -/
def hexDigit (n : Nat) : Nat := if n < 10 then 48 + n else 87 + n

/-- A byte as two lowercase hexadecimal character codes. -/
def byteHex (b : Nat) : List Nat := [hexDigit ((b >>> 4) % 16), hexDigit (b % 16)]

/-- `hashlib.sha1(msg).hexdigest()`: the 40-character lowercase hex digest. -/
def sha1hex (msg : List Nat) : List Nat := (sha1Bytes msg).flatMap byteHex

set_option maxRecDepth 40000 in
/-- Sanity check of the digest against the FIPS 180 test vector for "abc". -/
example : sha1hex (strB "abc") = strB "a9993e364706816aba3e25717850c26c9cd0d89d" := by decide

/- ## Object store (`data.py`): `hash_object`, `get_object` -/

/-- The object directory `.ugit/objects`: one entry per oid, holding the raw
file bytes `type || 0x00 || payload`. -/
abbrev Store := List (Str × Str)

/-- `data.hash_object(data, type_)`, parameterized by the digest function `h`
(the source uses `hashlib.sha1`; instantiate `h := sha1hex`).  Computes
`obj = type_.encode() + b'\x00' + data`, names it by its digest and writes the
file — unconditionally, but writing identical bytes to the same name leaves
the store as if written once. -/
def hash_object (h : Str → Str) (store : Store) (dat : Str) (type_ : Str) : Str × Store :=
  let obj := type_ ++ [0] ++ dat
  let oid := h obj
  (oid, setv oid obj store)

/-- `data.get_object(oid, expected)`: read the object file, split at the first
null byte into type and content, and check the type when `expected` is given.
`none` models both `FileNotFoundError` and the `ValueError` type mismatch. -/
def get_object (store : Store) (oid : Str) (expected : Option Str) : Option Str :=
  match lookupA store oid with
  | none => none
  | some obj =>
    let ty := obj.takeWhile (fun c => c ≠ 0)
    let content := (obj.dropWhile (fun c => c ≠ 0)).drop 1
    match expected with
    | some e => if ty = e then some content else none
    | none => some content

/- ## Reference store (`data.py`): `update_ref`, `get_ref`, `iter_refs` -/

/-- The ref files under `.ugit/`, keyed by ref name (`HEAD`,
`refs/heads/...`, ...), each holding its raw text content. -/
abbrev Refs := List (Str × Str)

/-- `data.RefValue(symbolic, value)`; `value = none` models Python `None`
(ref file absent). -/
structure RefValue where
  symbolic : Bool
  value : Option Str
deriving DecidableEq, Repr

/-- Python `str.strip()` on the characters the code can meet here (ASCII
whitespace and the common Unicode line separators). -/
def pstrip (l : Str) : Str :=
  let ws : List Nat := [9, 10, 11, 12, 13, 28, 29, 30, 32, 133, 160]
  ((l.dropWhile (fun c => c ∈ ws)).reverse.dropWhile (fun c => c ∈ ws)).reverse

/-- `data._get_ref_internal(ref, deref)`: read the ref file, strip it, and if
the value is a nonempty `ref:`-tagged pointer, either follow it (`deref`) or
report the target.  The source recurses with no cycle guard; `fuel` bounds the
recursion depth, and `none` models the unbounded recursion on a cyclic chain. -/
def getRefInternal (refs : Refs) (deref : Bool) : Nat → Str → Option (Str × RefValue)
  | 0, _ => none
  | fuel + 1, ref =>
    let value0 : Option Str := (lookupA refs ref).map pstrip
    match value0 with
    | some v =>
      if v ≠ [] ∧ (strB "ref:").isPrefixOf v then
        let target := pstrip (v.drop 4)
        if deref then getRefInternal refs deref fuel target
        else some (ref, ⟨true, some target⟩)
      else some (ref, ⟨false, some v⟩)
    | none => some (ref, ⟨false, none⟩)

/-- `data.get_ref(ref, deref)`. -/
def get_ref (refs : Refs) (deref : Bool) (fuel : Nat) (ref : Str) : Option RefValue :=
  (getRefInternal refs deref fuel ref).map (fun p => p.2)

/-- `data.update_ref(ref, value, deref)`: resolve the name to write exactly as
`_get_ref_internal` does, encode a symbolic value with the `ref: ` tag, and
overwrite that one file.  A direct value of `None` would crash Python's
`f.write` (`none` here); a symbolic `None` would format as the literal string
`None`, which no caller does. -/
def update_ref (refs : Refs) (deref : Bool) (fuel : Nat) (ref : Str) (v : RefValue) :
    Option Refs :=
  (getRefInternal refs deref fuel ref).bind fun p =>
    let content? : Option Str :=
      if v.symbolic then some (strB "ref: " ++ (v.value.getD (strB "None")))
      else v.value
    content?.map fun content => setv p.1 content refs

/-- Modelled from the spec: §4.2 "`delete_ref(name, deref)` removes a ref
file, with the same dereference choice."  `base.py` imports `data.delete_ref`
but the provided `data.py` does not define it; we resolve the target name
exactly as `update_ref` does and remove that one file. -/
def delete_ref (refs : Refs) (deref : Bool) (fuel : Nat) (ref : Str) : Option Refs :=
  (getRefInternal refs deref fuel ref).map fun p => removeKey p.1 refs

/-- `data.iter_refs(prefix, deref)`: the candidate names are `HEAD` plus every
file under `.ugit/refs` (our ref keys starting with `refs/`, in store order,
standing for the `os.walk` enumeration); every candidate — including `HEAD` —
is kept only if its name starts with the prefix, and is paired with its
`get_ref` resolution under the given `deref` flag. -/
def iter_refs (refs : Refs) (pre : Str) (deref : Bool) (fuel : Nat) :
    List (Str × Option RefValue) :=
  let names := strB "HEAD" :: (refs.map Prod.fst).filter (fun n => (strB "refs/").isPrefixOf n)
  (names.filter (fun n => pre.isPrefixOf n)).map fun n => (n, get_ref refs deref fuel n)

/- ## `base.get_oid` -/

/-- Python `string.hexdigits` membership: `0-9a-fA-F`. -/
def isHexDigitP (c : Nat) : Bool :=
  (48 ≤ c && c ≤ 57) || (97 ≤ c && c ≤ 102) || (65 ≤ c && c ≤ 70)

/-- Result of `base.get_oid`: a resolved value (possibly Python `None`), the
`ValueError: Unknown name`, or exhaustion of the ref-resolution fuel. -/
inductive OidRes where
  | ok (v : Option Str)
  | unknownName
  | fuelOut
deriving DecidableEq, Repr

/-- Truthiness of a candidate ref for `get_oid`: its non-dereferenced value
(`get_ref(ref, deref=False).value`) is a nonempty string.  With `deref=False`
the resolver never recurses, so fuel 1 is exact. -/
def refHasValue (refs : Refs) (r : Str) : Bool :=
  match getRefInternal refs false 1 r with
  | some (_, rv) => match rv.value with
    | some v => v ≠ []
    | none => false
  | none => false

/-- The `@` alias: `if name == '@': name = 'HEAD'`. -/
def atName (name0 : Str) : Str := if name0 = strB "@" then strB "HEAD" else name0

/-- The `refs_to_try` candidate list of `base.get_oid`. -/
def oidCands (name : Str) : List Str :=
  [name, strB "refs/" ++ name, strB "refs/tags/" ++ name, strB "refs/heads/" ++ name]

/-- The final fallback test of `base.get_oid`: 40 characters, all of them in
`string.hexdigits`. -/
def isHex40 (name : Str) : Bool := name.length = 40 && name.all isHexDigitP

/-- `base.get_oid(name)`: rewrite `@` to `HEAD`, try the four candidate ref
names in order, return the dereferenced value of the first whose ref holds a
value; otherwise accept `name` itself exactly when it is 40 hex digits, and
fail with `Unknown name` otherwise. -/
def get_oid (refs : Refs) (fuel : Nat) (name0 : Str) : OidRes :=
  let name := atName name0
  match (oidCands name).find? (refHasValue refs) with
  | some r =>
    match get_ref refs true fuel r with
    | some rv => .ok rv.value
    | none => .fuelOut
  | none =>
    if isHex40 name then .ok (some name) else .unknownName

/- ## Tree codec (`base.py`): `write_tree`, `get_tree` -/

/-- Python `s.split('/')` (single-character separator): always returns at
least one piece; empty pieces are kept. -/
def splitSep (sep : Nat) : Str → List Str
  | [] => [[]]
  | c :: rest =>
    if c = sep then [] :: splitSep sep rest
    else
      match splitSep sep rest with
      | [] => [[c]]
      | p :: ps => (c :: p) :: ps

/-- The nested name-keyed structure `write_tree` builds from the index:
a Python value that is either a blob oid (`str`) or a dict of entries. -/
inductive Node where
  | blob (oid : Str)
  | dir (es : List (Str × Node))

/-- Python `d.setdefault(k, default)`: return the existing value, or bind the
key to the default at the end of the dict. -/
def setdefaultD {α : Type} (k : Str) (dflt : α) (d : List (Str × α)) :
    α × List (Str × α) :=
  match lookupA d k with
  | some v => (v, d)
  | none => (dflt, d ++ [(k, dflt)])

/-- One iteration of the index loop in `base.write_tree`: walk `dirpath` with
`setdefault`, then assign the filename.  Walking into an existing blob value
crashes Python (`str` has no `setdefault` / item assignment): `none`.
Assigning a filename that currently names a subdict silently replaces the
whole subdict, exactly as `current[filename] = oid` does. -/
def insertPath (d : List (Str × Node)) (dirpath : List Str) (filename oid : Str) :
    Option (List (Str × Node)) :=
  match dirpath with
  | [] => some (setv filename (Node.blob oid) d)
  | dn :: rest =>
    match setdefaultD dn (Node.dir []) d with
    | (Node.blob _, _) => none
    | (Node.dir cd, d') =>
      (insertPath cd rest filename oid).map fun cd' => setv dn (Node.dir cd') d'

/-- The `index_as_tree` construction of `base.write_tree`: fold the index in
insertion order, splitting each path on `/`. -/
def buildIndexTree (index : List (Str × Str)) : Option (List (Str × Node)) :=
  index.foldl
    (fun acc pv =>
      acc.bind fun d =>
        let parts := splitSep 47 pv.1
        insertPath d parts.dropLast (parts.getLastD []) pv.2)
    (some [])

/-- Three-way comparison of code-point lists, matching Python `str`
comparison. -/
def cmpStr : Str → Str → Ordering
  | [], [] => .eq
  | [], _ :: _ => .lt
  | _ :: _, [] => .gt
  | a :: as, b :: bs => if a < b then .lt else if b < a then .gt else cmpStr as bs

/-- Python tuple comparison on `(name, oid, type_)` entries, as used by
`sorted(entries)`. -/
def leEntry (x y : Str × Str × Str) : Bool :=
  match cmpStr x.1 y.1 with
  | .lt => true
  | .gt => false
  | .eq =>
    match cmpStr x.2.1 y.2.1 with
    | .lt => true
    | .gt => false
    | .eq =>
      match cmpStr x.2.2 y.2.2 with
      | .gt => false
      | _ => true

/-- Insert into a sorted list, before the first element not smaller. -/
def ordInsert {α : Type} (le : α → α → Bool) (a : α) : List α → List α
  | [] => [a]
  | b :: l => if le a b then a :: b :: l else b :: ordInsert le a l

/-- Stable insertion sort; for the total order `leEntry` it returns exactly
what Python's stable `sorted` returns. -/
def insSort {α : Type} (le : α → α → Bool) : List α → List α
  | [] => []
  | a :: l => ordInsert le a (insSort le l)

/-- `base.write_tree`'s inner `write_tree_recursive(tree_dict)`: write the
subtrees bottom-up, then serialize the entry list sorted as
`"{type_} {oid} {name}\n"` lines and store it as a `tree` object.  The first
argument bounds the dict-nesting depth; `write_tree` passes one more than the
deepest path in the index, which a lemma shows is never exhausted. -/
def writeTreeRec (h : Str → Str) : Nat → List (Str × Node) → Store → Str × Store
  | 0, _, store => ([], store)
  | fuel + 1, es, store =>
    let (entries, store1) := es.foldl
      (fun (acc : List (Str × Str × Str) × Store) e =>
        match e.2 with
        | Node.blob oid => (acc.1 ++ [(e.1, oid, strB "blob")], acc.2)
        | Node.dir cd =>
          let (o, st') := writeTreeRec h fuel cd acc.2
          (acc.1 ++ [(e.1, o, strB "tree")], st'))
      (([] : List (Str × Str × Str)), store)
    let tree := (insSort leEntry entries).flatMap
      (fun t => t.2.2 ++ [32] ++ t.2.1 ++ [32] ++ t.1 ++ [10])
    hash_object h store1 tree (strB "tree")

/-- The entry-collecting fold step inside `writeTreeRec`, factored out under
its own name for the correctness proofs: `writeTreeRec`'s body folds exactly
this function (the two are definitionally equal). -/
def wtStep (h : Str → Str) (fuel : Nat) :
    List (Str × Str × Str) × Store → Str × Node → List (Str × Str × Str) × Store :=
  fun acc e =>
    match e.2 with
    | Node.blob oid => (acc.1 ++ [(e.1, oid, strB "blob")], acc.2)
    | Node.dir cd =>
      let (o, st') := writeTreeRec h fuel cd acc.2
      (acc.1 ++ [(e.1, o, strB "tree")], st')

/-- The deepest path of the index, in `/`-separated segments: a fuel bound
for `writeTreeRec`. -/
def maxSegs (index : List (Str × Str)) : Nat :=
  index.foldl (fun m pv => max m (splitSep 47 pv.1).length) 0

/-- `base.write_tree()`: build the nested structure from the index (the
`data.get_index()` mapping, threaded explicitly) and serialize it bottom-up;
`none` when the index-loop crashes on colliding paths. -/
def write_tree (h : Str → Str) (index : List (Str × Str)) (store : Store) :
    Option (Str × Store) :=
  (buildIndexTree index).map fun d => writeTreeRec h (maxSegs index + 1) d store

/-- A Python `str.splitlines()` line boundary (code points expressible in
this model). -/
def isLB (c : Nat) : Bool :=
  c = 10 || c = 11 || c = 12 || c = 13 || c = 28 || c = 29 || c = 30 ||
    c = 133 || c = 8232 || c = 8233

/-- Python `str.splitlines()`: split at every line boundary, with `\r\n`
counted once; no trailing empty line. -/
def splitlinesP : Str → List Str
  | [] => []
  | [c] => if isLB c then [[]] else [[c]]
  | c :: c2 :: rest =>
    if c = 13 ∧ c2 = 10 then [] :: splitlinesP rest
    else if isLB c then [] :: splitlinesP (c2 :: rest)
    else
      match splitlinesP (c2 :: rest) with
      | [] => [[c]]
      | p :: ps => (c :: p) :: ps

/-- Python `s.split(' ', 1)` when it must yield two parts — `none` when the
line has no space (the tuple unpacking raises `ValueError`). -/
def split1 : Str → Option (Str × Str)
  | [] => none
  | c :: rest =>
    if c = 32 then some ([], rest)
    else (split1 rest).map fun p => (c :: p.1, p.2)

/-- Python `s.split(' ', 2)` when it must yield three parts. -/
def split2 (l : Str) : Option (Str × Str × Str) :=
  (split1 l).bind fun p => (split1 p.2).map fun q => (p.1, q.1, q.2)

/-- `base._iter_tree_entries(oid)`: nothing for a falsy oid; otherwise read
the `tree` object and parse each line as `type oid name`. -/
def iterTreeEntries (store : Store) (oid : Str) : Option (List (Str × Str × Str)) :=
  if oid = [] then some []
  else
    match get_object store oid (some (strB "tree")) with
    | none => none
    | some content => (splitlinesP content).mapM split2

/-- `base.get_tree(oid, base_path)`: parse the tree object and fold its
entries into a flat path-to-oid dict, rejecting entry names containing `/` or
equal to `.` or `..` and unknown entry types, and recursing into subtrees.
The fuel bounds the nesting depth (the source would recurse forever on a
cyclic object graph). -/
def get_tree (store : Store) : Nat → Str → Str → Option (List (Str × Str))
  | 0, _, _ => none
  | fuel + 1, oid, basePath =>
    match iterTreeEntries store oid with
    | none => none
    | some entries =>
      entries.foldl
        (fun acc ent =>
          acc.bind fun result =>
            if 47 ∈ ent.2.2 then none
            else if ent.2.2 = [46, 46] ∨ ent.2.2 = [46] then none
            else
              let path := basePath ++ ent.2.2
              if ent.1 = strB "blob" then some (setv path ent.2.1 result)
              else if ent.1 = strB "tree" then
                (get_tree store fuel ent.2.1 (path ++ [47])).map fun sub =>
                  sub.foldl (fun r pv => setv pv.1 pv.2 r) result
              else none)
        (some [])

/- ## Commit graph (`base.py`): `get_commit`, `iter_commits_and_parents` -/

/-- `base.Commit = namedtuple('Commit', ['tree', 'parents', 'message'])`. -/
structure Commit where
  tree : Str
  parents : List Str
  message : Str
deriving DecidableEq, Repr

/-- Python `'\n'.join(lines)`. -/
def joinSep (sep : Nat) : List Str → Str
  | [] => []
  | [x] => x
  | x :: xs => x ++ sep :: joinSep sep xs

/-- One header line of `base.get_commit`'s loop: split on the first space,
record a `tree` or `parent` key, fail on anything else. -/
def commitHeaderStep (acc : Option (Option Str × List Str)) (line : Str) :
    Option (Option Str × List Str) :=
  acc.bind fun tp =>
    (split1 line).bind fun kv =>
      if kv.1 = strB "tree" then some (some kv.2, tp.2)
      else if kv.1 = strB "parent" then some (tp.1, tp.2 ++ [kv.2])
      else none

/-- `base.get_commit(oid)`: read the `commit` object, parse `tree `/`parent `
header lines up to the first blank line (`itertools.takewhile` consumes the
blank), fail on an unknown key or a keyless line, and join the remaining
lines as the message.  An absent `tree` header leaves Python's `tree` name
unbound (`NameError`): `none`. -/
def get_commit (store : Store) (oid : Str) : Option Commit :=
  match get_object store oid (some (strB "commit")) with
  | none => none
  | some content =>
    let lines := splitlinesP content
    let headers := lines.takeWhile (fun l => l ≠ [])
    let msgLines := (lines.dropWhile (fun l => l ≠ [])).drop 1
    (headers.foldl commitHeaderStep (some ((none : Option Str), ([] : List Str)))).bind
      fun tp => tp.1.map fun tr => ⟨tr, tp.2, joinSep 10 msgLines⟩

/-- `base.iter_commits_and_parents(oids)`: pop the front of the deque, skip
falsy or already-visited oids, otherwise yield the oid, then push its first
parent to the front and append the remaining parents to the back.  Returns
the yields in order plus a flag: `false` when `get_commit` raised on a yielded
oid (the generator dies *after* yielding it) or when the step bound ran out
with work remaining. -/
def iter_commits_and_parents (store : Store) : Nat → List Str → List Str → List Str × Bool
  | 0, queue, _ => ([], queue.isEmpty)
  | _ + 1, [], _ => ([], true)
  | fuel + 1, oid :: rest, visited =>
    if oid = [] ∨ visited.contains oid then iter_commits_and_parents store fuel rest visited
    else
      match get_commit store oid with
      | none => ([oid], false)
      | some c =>
        let next := iter_commits_and_parents store fuel
          (c.parents.take 1 ++ rest ++ c.parents.drop 1) (oid :: visited)
        (oid :: next.1, next.2)

/- ## Merge engine (`base.py`, `diff.py`) -/

/-- `base.get_merge_base(oid1, oid2)`: materialize the full ancestor set of
`oid1`, then scan the ancestor traversal of `oid2` lazily and return its
first member that is also an ancestor of `oid1`; `some none` is Python's
implicit `None` (no common ancestor).  The scan is lazy exactly as in the
source: a hit among the yields produced before a traversal failure still
returns, while a failure reached before any hit propagates. -/
def get_merge_base (store : Store) (fuel : Nat) (oid1 oid2 : Str) : Option (Option Str) :=
  match iter_commits_and_parents store fuel [oid1] [] with
  | (_, false) => none
  | (ys1, true) =>
    let r2 := iter_commits_and_parents store fuel [oid2] []
    match r2.1.find? (fun o => ys1.contains o) with
    | some o => some (some o)
    | none => if r2.2 then some none else none

/-- The whole on-disk repository state: object store, ref files, the index
(`data.get_index`), and the non-ignored working-directory files. -/
structure State where
  objects : Store
  refs : Refs
  index : List (Str × Str)
  working : List (Str × Str)
deriving DecidableEq, Repr

/-- Modelled from the spec: §3 "Index: a mapping from working-relative path
to blob oid" and §4.3/4.4, which read it through `data.get_index()`.
`base.py` opens the index with `data.get_index()` but the provided `data.py`
does not define it; in this model it is the index component of the state. -/
def get_index (st : State) : List (Str × Str) := st.index

/-- `base._checkout_index(index)`: `_empty_current_directory()` removes every
non-ignored working file, then each blob is written at its path (`none` when
`get_object` raises mid-way). -/
def checkoutIndex (objects : Store) (index : List (Str × Str)) :
    Option (List (Str × Str)) :=
  index.foldl
    (fun acc pv =>
      acc.bind fun w =>
        (get_object objects pv.2 (some (strB "blob"))).map fun content =>
          setv pv.1 content w)
    (some [])

/-- `base.read_tree(tree_oid, update_working)`: replace the index wholesale
by the expanded tree, and only if `update_working` also materialize it into
the working directory. -/
def read_tree (st : State) (fuel : Nat) (treeOid : Str) (updateWorking : Bool) :
    Option State :=
  (get_tree st.objects fuel treeOid []).bind fun t =>
    if updateWorking then
      (checkoutIndex st.objects t).map fun w => { st with index := t, working := w }
    else some { st with index := t }

/-- `diff.compare_trees`: the defaultdict keys in first-seen order across the
given trees. -/
def compareTreesPaths (trees : List (List (Str × Str))) : List Str :=
  trees.foldl
    (fun acc t =>
      t.foldl (fun acc2 pv => if acc2.contains pv.1 then acc2 else acc2 ++ [pv.1]) acc)
    []

/-- The blob contents handed to `diff3`: a falsy oid leaves its temp file
empty, a truthy one is read from the object store (no type check). -/
def readBlobOpt (objects : Store) (o : Option Str) : Option Str :=
  match o with
  | some oid => if oid ≠ [] then get_object objects oid none else some []
  | none => some []

/-- `diff.merge_blobs(o_base, o_HEAD, o_other)`: feed the three contents to
the external `diff3 -m` collaborator `d3`, which receives them in the
command-line order (HEAD, base, other) and returns the merged bytes. -/
def merge_blobs (d3 : Str → Str → Str → Str) (objects : Store)
    (ob oh oo : Option Str) : Option Str :=
  (readBlobOpt objects ob).bind fun cb =>
    (readBlobOpt objects oh).bind fun ch =>
      (readBlobOpt objects oo).map fun co => d3 ch cb co

/-- `diff.merge_trees(t_base, t_HEAD, t_other)`: three-way union over paths,
each path bound to whatever bytes the collaborator returns (this source
stores the merged *content*, not a hashed blob oid). -/
def merge_trees (d3 : Str → Str → Str → Str) (objects : Store)
    (tb th to_ : List (Str × Str)) : Option (List (Str × Str)) :=
  (compareTreesPaths [tb, th, to_]).foldl
    (fun acc p =>
      acc.bind fun tr =>
        (merge_blobs d3 objects (lookupA tb p) (lookupA th p) (lookupA to_ p)).map
          fun m => setv p m tr)
    (some [])

/-- `base.read_tree_merged(t_base, t_HEAD, t_other, update_working)`. -/
def read_tree_merged (d3 : Str → Str → Str → Str) (st : State) (fuel : Nat)
    (tBase tHEAD tOther : Str) (updateWorking : Bool) : Option State :=
  (get_tree st.objects fuel tBase []).bind fun b =>
    (get_tree st.objects fuel tHEAD []).bind fun hd =>
      (get_tree st.objects fuel tOther []).bind fun ot =>
        (merge_trees d3 st.objects b hd ot).bind fun m =>
          if updateWorking then
            (checkoutIndex st.objects m).map fun w => { st with index := m, working := w }
          else some { st with index := m }

/-- `base.merge(other)`: read `HEAD`, compute `get_merge_base(other, HEAD)`,
fetch `other`'s commit; when the base equals `HEAD` this is the fast-forward
path — `read_tree(c_other.tree)` (note: `update_working` is left at its
`False` default) and `HEAD` is moved to `other` with no merge commit and no
`MERGE_HEAD`.  Otherwise record `MERGE_HEAD` and read the three trees merged
(again without touching the working directory). -/
def merge (d3 : Str → Str → Str → Str) (st : State) (fuel : Nat) (other : Str) :
    Option State :=
  (get_ref st.refs true fuel (strB "HEAD")).bind fun headRV =>
    let HEAD : Option Str := headRV.value
    (get_merge_base st.objects fuel other (HEAD.getD [])).bind fun mb =>
      (get_commit st.objects other).bind fun cOther =>
        if mb = HEAD then
          (read_tree st fuel cOther.tree false).bind fun st' =>
            (update_ref st'.refs true fuel (strB "HEAD") ⟨false, some other⟩).map
              fun refs' => { st' with refs := refs' }
        else
          (update_ref st.refs true fuel (strB "MERGE_HEAD") ⟨false, some other⟩).bind
            fun refs1 =>
              (mb.bind (get_commit st.objects)).bind fun cBase =>
                (get_commit st.objects (HEAD.getD [])).bind fun cHEAD =>
                  read_tree_merged d3 { st with refs := refs1 } fuel
                    cBase.tree cHEAD.tree cOther.tree false

/-- `base.commit(message)`: write the index as a tree, take a truthy `HEAD`
and then a truthy `MERGE_HEAD` as parents, delete `MERGE_HEAD` when consumed
(the source passes `pickle.FALSE`, the bytes `b'I00\x0a'`, as `deref` — truthy
in Python 3, so the dereferencing branch is taken; `MERGE_HEAD` is always a
direct ref, so the same file is removed), store the commit object and point
`HEAD` at it. -/
def commit (h : Str → Str) (st : State) (fuel : Nat) (message : Str) :
    Option (Str × State) :=
  (write_tree h (get_index st) st.objects).bind fun tw =>
    let c0 := strB "tree " ++ tw.1 ++ [10]
    (get_ref st.refs true fuel (strB "HEAD")).bind fun headRV =>
      let c1 := match headRV.value with
        | some v => if v ≠ [] then c0 ++ strB "parent " ++ v ++ [10] else c0
        | none => c0
      (get_ref st.refs true fuel (strB "MERGE_HEAD")).bind fun mRV =>
        let mergeParent : Option Str := match mRV.value with
          | some v => if v ≠ [] then some v else none
          | none => none
        let c2 := match mergeParent with
          | some v => c1 ++ strB "parent " ++ v ++ [10]
          | none => c1
        (match mergeParent with
          | some _ => delete_ref st.refs true fuel (strB "MERGE_HEAD")
          | none => some st.refs).bind fun refs1 =>
          let hw := hash_object h tw.2 (c2 ++ [10] ++ message ++ [10]) (strB "commit")
          (update_ref refs1 true fuel (strB "HEAD") ⟨false, some hw.1⟩).map fun refs2 =>
            (hw.1, { st with objects := hw.2, refs := refs2 })

/-- `base.init()`: empty stores, then `HEAD` as a symbolic ref to
`refs/heads/master`. -/
def initRepo : State :=
  { objects := [], refs := [(strB "HEAD", strB "ref: refs/heads/master")],
    index := [], working := [] }

/- ## Auxiliary predicates used in theorem statements -/

/-- A lowercase hexadecimal character code. -/
def isLowerHex (c : Nat) : Prop := (48 ≤ c ∧ c ≤ 57) ∨ (97 ≤ c ∧ c ≤ 102)

/-- The symbolic target of one ref file, read exactly as `_get_ref_internal`
reads it: `some target` when the stripped content is a nonempty `ref:`-tagged
pointer, `none` when the ref is direct or unset. -/
def symTarget (refs : Refs) (r : Str) : Option Str :=
  match (lookupA refs r).map pstrip with
  | some v =>
    if v ≠ [] ∧ (strB "ref:").isPrefixOf v then some (pstrip (v.drop 4)) else none
  | none => none

/-- `chainToB refs r links t`: from `r` the symbolic chain passes through
exactly the ref names in `links` and ends at the non-symbolic (direct or
unset) ref `t`. -/
def chainToB (refs : Refs) : Str → List Str → Str → Bool
  | r, [], t => r = t && (symTarget refs r).isNone
  | r, n :: rest, t => (symTarget refs r == some n) && chainToB refs n rest t

/-- The ref file content `update_ref` writes for a `RefValue` carrying the
string `val`. -/
def encodeRef (symbolic : Bool) (val : Str) : Str :=
  if symbolic then strB "ref: " ++ val else val

/-- Resolution of a ref diverges: at every recursion depth the resolver is
still running (the model of `_get_ref_internal`'s unbounded recursion). -/
def neverResolves (refs : Refs) (r : Str) : Prop :=
  ∀ fuel, getRefInternal refs true fuel r = none

/-- The parent oids the traversal reads for `o` (empty when `get_commit`
would fail). -/
def parentsOf (store : Store) (o : Str) : List Str :=
  match get_commit store o with
  | some c => c.parents
  | none => []

/-- Reachability along parent edges in the commit graph, reflexive. -/
inductive Reaches (store : Store) : Str → Str → Prop
  | refl (o : Str) : Reaches store o o
  | tail {a b c : Str} : Reaches store a b → c ∈ parentsOf store b → Reaches store a c

/-- Reachable from at least one seed. -/
def ReachesAny (store : Store) (seeds : List Str) (o : Str) : Prop :=
  ∃ s ∈ seeds, Reaches store s o

/-- Decidable closure condition: every seed, and every parent of every commit
object in the store, is a nonempty oid naming a parseable commit.  It implies
that everything reachable from the seeds is present. -/
def storeClosedB (store : Store) (seeds : List Str) : Bool :=
  seeds.all (fun s => s ≠ [] && (get_commit store s).isSome) &&
  (store.map Prod.fst).all (fun k =>
    (parentsOf store k).all (fun p => p ≠ [] && (get_commit store p).isSome))

/-- Total parent count of the not-yet-visited commits: the traversal's
remaining enqueue capacity. -/
def capSum (store : Store) (visited : List Str) : Nat :=
  (((store.map Prod.fst).dedup.filter (fun k => k ∉ visited)).map
    (fun o => (parentsOf store o).length)).sum

/-- A sufficient step bound for `iter_commits_and_parents`: one pop per seed
plus one per parent edge in the store, plus one. -/
def traversalFuel (store : Store) (seeds : List Str) : Nat :=
  seeds.length + capSum store [] + 1

/-- The text a commit object serializes to: the `tree` header, one `parent`
header per parent, a blank line, then the message and a final newline —
exactly the string `base.commit` assembles. -/
def commitContent (tree : Str) (parents : List Str) (msg : Str) : Str :=
  strB "tree " ++ tree ++ [10] ++
    (parents.flatMap fun p => strB "parent " ++ p ++ [10]) ++ [10] ++ msg ++ [10]

/-- Commit-object bytes (for concrete stores in the theorems below). -/
def mkCommitObj (tree : Str) (parents : List Str) (msg : Str) : Str :=
  strB "commit" ++ [0] ++ commitContent tree parents msg

/-- A linear history `A <- B <- C`. -/
def linStore : Store :=
  [(strB "A", mkCommitObj (strB "t") [] (strB "a")),
   (strB "B", mkCommitObj (strB "t") [strB "A"] (strB "b")),
   (strB "C", mkCommitObj (strB "t") [strB "B"] (strB "c"))]

/-- Two branches `B` and `C` diverging from the common ancestor `A`. -/
def brStore : Store :=
  [(strB "A", mkCommitObj (strB "t") [] (strB "a")),
   (strB "B", mkCommitObj (strB "t") [strB "A"] (strB "b")),
   (strB "C", mkCommitObj (strB "t") [strB "A"] (strB "c"))]

/-- A diamond: `D`'s parents are `B` and `C`, which both descend from `A`. -/
def diaStore : Store :=
  [(strB "A", mkCommitObj (strB "t") [] (strB "a")),
   (strB "B", mkCommitObj (strB "t") [strB "A"] (strB "b")),
   (strB "C", mkCommitObj (strB "t") [strB "A"] (strB "c")),
   (strB "D", mkCommitObj (strB "t") [strB "B", strB "C"] (strB "d"))]

/-- Objects for the fast-forward scenario: commit `H` (tree `t1`) is the
sole parent of commit `O` (tree `t2`); both trees hold one file `f`, whose
blob differs between them. -/
def ffObjects : Store :=
  [(strB "H", mkCommitObj (strB "t1") [] (strB "h")),
   (strB "O", mkCommitObj (strB "t2") [strB "H"] (strB "o")),
   (strB "t1", strB "tree" ++ [0] ++ strB "blob b1 f" ++ [10]),
   (strB "t2", strB "tree" ++ [0] ++ strB "blob b2 f" ++ [10]),
   (strB "b1", strB "blob" ++ [0] ++ strB "old"),
   (strB "b2", strB "blob" ++ [0] ++ strB "new")]

/-- A repository standing at `H` with `f` checked out at its old content. -/
def ffState : State :=
  { objects := ffObjects, refs := [(strB "HEAD", strB "H")],
    index := [(strB "f", strB "b1")], working := [(strB "f", strB "old")] }

/-- Characters a digest output may use in this development: printable ASCII
without the colon — lowercase hex digits qualify.  Such a string survives
`strip` unchanged, is never mistaken for a `ref:` pointer, and never breaks
a header line. -/
def oidCharsOK (v : Str) : Bool := v.all (fun c => 33 ≤ c && c ≤ 126 && c ≠ 58)

/-- No line-break character (the `splitlinesP` set): safe inside one header
line. -/
def noLB (v : Str) : Bool := v.all (fun c => !isLB c)

/-- No line-break character other than `\n` itself: a commit message built
from such text round-trips through `splitlines` + `join`. -/
def msgSafe (v : Str) : Bool := v.all (fun c => c = 10 || !isLB c)

/-- The parent list `base.commit` records: a truthy `HEAD` value, then a
truthy `MERGE_HEAD` value. -/
def commitParents (hv mv : Option Str) : List Str :=
  (match hv with
   | some v => if v ≠ [] then [v] else []
   | none => []) ++
  (match mv with
   | some v => if v ≠ [] then [v] else []
   | none => [])

/-- The value a ref file holds after the read-and-strip of
`_get_ref_internal`. -/
def refReadValue (refs : Refs) (name : Str) : Option Str :=
  (lookupA refs name).map pstrip

/-- Python truthiness filter on an optional string: `some v` only when `v` is
a nonempty string (the `if HEAD:` / `if MERGE_HEAD:` tests in `base.commit`). -/
def truthyOpt (v : Option Str) : Option Str :=
  match v with
  | some x => if x ≠ [] then some x else none
  | none => none

/- ## Tree roundtrip predicates: valid paths, separation, dict shapes -/

/-- A valid path segment per the roundtrip claim: non-empty, not `.` or `..`,
and free of the separator and of line-break characters. -/
def validSeg (s : Str) : Bool :=
  decide (s ≠ []) && decide (s ≠ [46]) && decide (s ≠ [46, 46]) &&
    s.all (fun c => decide (c ≠ 47) && !isLB c)

/-- Every `/`-segment of the path is valid. -/
def validPathB (p : Str) : Bool := (splitSep 47 p).all validSeg

/-- `a` is a leading run of the segment list `b` (possibly all of it). -/
def segsLead : List Str → List Str → Bool
  | [], _ => true
  | _ :: _, [] => false
  | x :: xs, y :: ys => decide (x = y) && segsLead xs ys

/-- Two index paths are separated: neither one's segment list leads the
other's; in particular the paths are distinct, and neither names a directory
of the other. -/
def sibOK (a b : Str) : Bool :=
  !segsLead (splitSep 47 a) (splitSep 47 b) &&
    !segsLead (splitSep 47 b) (splitSep 47 a)

/-- Pairwise separation of all the paths of an index. -/
def sepPaths : List (Str × Str) → Bool
  | [] => true
  | p :: rest => rest.all (fun q => sibOK p.1 q.1) && sepPaths rest

/-- The node of a nested dict at a non-empty segment path. -/
def nodeAt : List Str → List (Str × Node) → Option Node
  | [], _ => none
  | [s], d => lookupA d s
  | s :: rest, d =>
    match lookupA d s with
    | some (Node.dir cd) => nodeAt rest cd
    | _ => none

/-- The observable shape at a path: `some (some o)` for a blob, `some none`
for a subtree, `none` for nothing. -/
def nodeShape : Option Node → Option (Option Str)
  | none => none
  | some (Node.blob o) => some (some o)
  | some (Node.dir _) => some none

/-- The shape the processed part of the index prescribes at a segment path:
a blob where an index path matches exactly, a subtree strictly above an index
path, nothing elsewhere. -/
def expectAt (done : List (Str × Str)) (segs : List Str) : Option (Option Str) :=
  match done.find? (fun pv => decide (splitSep 47 pv.1 = segs)) with
  | some pv => some (some pv.2)
  | none =>
    if done.any (fun pv =>
        segsLead segs (splitSep 47 pv.1) && decide (segs ≠ splitSep 47 pv.1))
    then some none else none

/-- The walked dirnames of an insertion lead through subtrees (or vacancies)
only, and the final filename is not bound to a subtree: under this condition
`insertPath` neither crashes nor clobbers. -/
def freeFor : List (Str × Node) → List Str → Str → Prop
  | d, [], filename => ∀ cd, lookupA d filename ≠ some (Node.dir cd)
  | d, dn :: rest, filename =>
    match lookupA d dn with
    | none => True
    | some (Node.dir cd) => freeFor cd rest filename
    | some (Node.blob _) => False

mutual
/-- Well-formedness of a node of the nested dict, with a bound on the
remaining nesting depth. -/
def nodeOK : Nat → Node → Prop
  | _, Node.blob o => oidCharsOK o = true
  | 0, Node.dir _ => False
  | fuel + 1, Node.dir es => entsOK fuel es
/-- Well-formedness of a dict of entries: distinct valid names, well-formed
children. -/
def entsOK : Nat → List (Str × Node) → Prop
  | _, [] => True
  | fuel, e :: rest =>
    validSeg e.1 = true ∧ (∀ x ∈ rest, x.1 ≠ e.1) ∧ nodeOK fuel e.2 ∧
      entsOK fuel rest
end

/-- Strip a leading exact byte run from a string. -/
def stripPre : Str → Str → Option Str
  | [], q => some q
  | _ :: _, [] => none
  | c :: cs, d :: ds => if c = d then stripPre cs ds else none

/-- The path-to-oid mapping a nested dict denotes. -/
def pathLook (es : List (Str × Node)) (q : Str) : Option Str :=
  match nodeAt (splitSep 47 q) es with
  | some (Node.blob o) => some o
  | _ => none

/-- The contribution of one parsed tree entry to `get_tree`'s flat result:
a blob entry covers exactly its own path, a tree entry covers the paths below
it through the corresponding subtree of the nested dict. -/
def entrySem (es : List (Str × Node)) (bp : Str) (p : Str × Str × Str) (q : Str) :
    Option Str :=
  if p.1 = strB "blob" then (if q = bp ++ p.2.2 then some p.2.1 else none)
  else (stripPre (bp ++ p.2.2 ++ [47]) q).bind (fun sfx =>
    match lookupA es p.2.2 with
    | some (Node.dir cd) => pathLook cd sfx
    | _ => none)

/-- The combined contribution of a list of parsed tree entries, later entries
taking precedence (as `dict` assignment does). -/
def semUnion (es : List (Str × Node)) (bp : Str) (L : List (Str × Str × Str))
    (q : Str) : Option Str :=
  L.foldr (fun p acc => acc.or (entrySem es bp p q)) none

/-- A concretely injective digest usable as `hash_object`'s collaborator: a
self-delimiting unary code over the letters `a` and `b`. -/
def unaryEnc (x : Str) : Str := 98 :: x.flatMap (fun n => List.replicate n 97 ++ [98])

/- ## Helper lemmas -/

theorem lookupA_setv_self {α : Type} (k : Str) (v : α) (s : List (Str × α)) :
    lookupA (setv k v s) k = some v := by
  induction s with
  | nil => simp [setv, lookupA]
  | cons e rest ih =>
    obtain ⟨k', v'⟩ := e
    by_cases h : k' = k <;> simp [setv, lookupA, h, ih]

theorem lookupA_setv_ne {α : Type} (k k₀ : Str) (v : α) (s : List (Str × α))
    (hne : k ≠ k₀) : lookupA (setv k v s) k₀ = lookupA s k₀ := by
  induction s with
  | nil => simp [setv, lookupA, hne]
  | cons e rest ih =>
    obtain ⟨k', v'⟩ := e
    by_cases h : k' = k
    · subst h
      simp [setv, lookupA, hne]
    · simp [setv, lookupA, h, ih]

theorem setv_setv_self {α : Type} (k : Str) (v : α) (s : List (Str × α)) :
    setv k v (setv k v s) = setv k v s := by
  induction s with
  | nil => simp [setv]
  | cons e rest ih =>
    obtain ⟨k', v'⟩ := e
    by_cases h : k' = k <;> simp [setv, h, ih]

theorem sha1Bytes_length (msg : List Nat) : (sha1Bytes msg).length = 20 := by
  rw [sha1Bytes]
  rcases sha1Chunks (sha1Pad msg).length
    (1732584193, 4023233417, 2562383102, 271733878, 3285377520) (sha1Pad msg) with
    ⟨a, b, c, d, e⟩
  simp [word4]

theorem sha1hex_length (msg : List Nat) : (sha1hex msg).length = 40 := by
  have h2 : ∀ l : List Nat, (l.flatMap byteHex).length = 2 * l.length := by
    intro l
    induction l with
    | nil => rfl
    | cons a t ih =>
      simp only [List.flatMap_cons, List.length_append, List.length_cons, ih, byteHex]
      simp [Nat.mul_succ]
      omega
  rw [sha1hex, h2, sha1Bytes_length]

theorem hexDigit_isLowerHex (n : Nat) (hn : n < 16) : isLowerHex (hexDigit n) := by
  unfold hexDigit isLowerHex
  split <;> omega

theorem sha1hex_isLowerHex (msg : List Nat) : ∀ c ∈ sha1hex msg, isLowerHex c := by
  intro c hc
  rw [sha1hex, List.mem_flatMap] at hc
  obtain ⟨b, _, hb⟩ := hc
  simp only [byteHex, List.mem_cons, List.not_mem_nil, or_false] at hb
  rcases hb with h | h
  · exact h ▸ hexDigit_isLowerHex _ (Nat.mod_lt _ (by norm_num))
  · exact h ▸ hexDigit_isLowerHex _ (Nat.mod_lt _ (by norm_num))

/- ## C1 -/

/-- C1: storing an object of type blob/tree/commit with `hash_object` returns
the lowercase 40-hex SHA-1 digest of `type || 0x00 || payload`; storing the
same type and payload twice returns the same oid both times and leaves the
object store exactly as after a single store (the redundant write is a no-op
on the store). -/
theorem hash_object_sha1_dedup (type_ payload : Str) (store : Store)
    (_htype : type_ ∈ [strB "blob", strB "tree", strB "commit"]) :
    (hash_object sha1hex store payload type_).1 = sha1hex (type_ ++ [0] ++ payload) ∧
    ((hash_object sha1hex store payload type_).1).length = 40 ∧
    (∀ c ∈ (hash_object sha1hex store payload type_).1, isLowerHex c) ∧
    (hash_object sha1hex (hash_object sha1hex store payload type_).2 payload type_).1 =
      (hash_object sha1hex store payload type_).1 ∧
    (hash_object sha1hex (hash_object sha1hex store payload type_).2 payload type_).2 =
      (hash_object sha1hex store payload type_).2 := by
  refine ⟨rfl, sha1hex_length _, sha1hex_isLowerHex _, rfl, ?_⟩
  exact setv_setv_self _ _ _

/-- Witness for C1 at `type_ = "blob"`, `payload = []`, `store = []`. -/
theorem hash_object_sha1_dedup_w :
    (hash_object sha1hex [] [] (strB "blob")).1 = sha1hex (strB "blob" ++ [0] ++ []) ∧
    ((hash_object sha1hex [] [] (strB "blob")).1).length = 40 ∧
    (∀ c ∈ (hash_object sha1hex [] [] (strB "blob")).1, isLowerHex c) ∧
    (hash_object sha1hex (hash_object sha1hex [] [] (strB "blob")).2 [] (strB "blob")).1 =
      (hash_object sha1hex [] [] (strB "blob")).1 ∧
    (hash_object sha1hex (hash_object sha1hex [] [] (strB "blob")).2 [] (strB "blob")).2 =
      (hash_object sha1hex [] [] (strB "blob")).2 :=
  hash_object_sha1_dedup (strB "blob") [] [] (by decide)

/- ## Ref resolution lemmas -/

theorem getRefInternal_notSym (refs : Refs) (d : Bool) (fuel : Nat) (t : Str)
    (h : symTarget refs t = none) :
    getRefInternal refs d (fuel + 1) t = some (t, ⟨false, (lookupA refs t).map pstrip⟩) := by
  unfold symTarget at h
  cases hl : lookupA refs t with
  | none => simp [getRefInternal, hl]
  | some c =>
    rw [hl] at h
    simp only [Option.map_some'] at h
    by_cases hc : pstrip c ≠ [] ∧ (strB "ref:").isPrefixOf (pstrip c)
    · rw [if_pos hc] at h; cases h
    · simp only [getRefInternal, hl, Option.map_some']
      rw [if_neg hc]

theorem getRefInternal_sym (refs : Refs) (fuel : Nat) (r n : Str)
    (h : symTarget refs r = some n) :
    getRefInternal refs true (fuel + 1) r = getRefInternal refs true fuel n := by
  unfold symTarget at h
  cases hl : lookupA refs r with
  | none => rw [hl] at h; cases h
  | some c =>
    rw [hl] at h
    simp only [Option.map_some'] at h
    by_cases hc : pstrip c ≠ [] ∧ (strB "ref:").isPrefixOf (pstrip c)
    · rw [if_pos hc] at h
      injection h with h
      simp [getRefInternal, hl, hc, h]
    · rw [if_neg hc] at h; cases h

theorem getRefInternal_chain (refs : Refs) (links : List Str) :
    ∀ r t fuel, chainToB refs r links t = true → links.length < fuel →
      getRefInternal refs true fuel r = some (t, ⟨false, (lookupA refs t).map pstrip⟩) := by
  induction links with
  | nil =>
    intro r t fuel hc hf
    obtain ⟨m, rfl⟩ : ∃ m, fuel = m + 1 := ⟨fuel - 1, by omega⟩
    simp only [chainToB, Bool.and_eq_true, decide_eq_true_eq, Option.isNone_iff_eq_none] at hc
    obtain ⟨rfl, hns⟩ := hc
    exact getRefInternal_notSym _ _ _ _ hns
  | cons n rest ih =>
    intro r t fuel hc hf
    obtain ⟨m, rfl⟩ : ∃ m, fuel = m + 1 := ⟨fuel - 1, by omega⟩
    simp only [chainToB, Bool.and_eq_true, beq_iff_eq] at hc
    obtain ⟨hsym, hrest⟩ := hc
    rw [getRefInternal_sym refs m r n hsym]
    exact ih n t m hrest (by simp at hf; omega)

theorem getRefInternal_false (refs : Refs) (r : Str) (fuel : Nat) :
    ∃ rv, getRefInternal refs false (fuel + 1) r = some (r, rv) := by
  cases hl : lookupA refs r with
  | none => exact ⟨⟨false, none⟩, by simp [getRefInternal, hl]⟩
  | some c =>
    by_cases hc : pstrip c ≠ [] ∧ (strB "ref:").isPrefixOf (pstrip c)
    · refine ⟨⟨true, some (pstrip ((pstrip c).drop 4))⟩, ?_⟩
      simp only [getRefInternal, hl, Option.map_some']
      rw [if_pos hc]
      simp
    · refine ⟨⟨false, some (pstrip c)⟩, ?_⟩
      simp only [getRefInternal, hl, Option.map_some']
      rw [if_neg hc]

theorem encodeRef_content (sym : Bool) (val : Str) :
    (if sym then some (strB "ref: " ++ ((some val).getD (strB "None")))
      else some val) = some (encodeRef sym val) := by
  cases sym <;> simp [encodeRef]

/- ## C7 -/

/-- C7: on a terminating symbolic chain, `update_ref` with `deref=true`
writes the encoded value to the terminal ref of the chain and leaves every
other ref file (in particular each intermediate symbolic pointer)
unchanged; `update_ref` with `deref=false` overwrites the named ref file
itself and changes no other ref. -/
theorem update_ref_deref_frame (refs : Refs) (r t : Str) (links : List Str)
    (sym : Bool) (val : Str) (fuel : Nat)
    (hc : chainToB refs r links t = true) (hf : links.length < fuel) :
    (update_ref refs true fuel r ⟨sym, some val⟩ =
        some (setv t (encodeRef sym val) refs) ∧
      lookupA (setv t (encodeRef sym val) refs) t = some (encodeRef sym val) ∧
      ∀ x, x ≠ t → lookupA (setv t (encodeRef sym val) refs) x = lookupA refs x) ∧
    (update_ref refs false fuel r ⟨sym, some val⟩ =
        some (setv r (encodeRef sym val) refs) ∧
      lookupA (setv r (encodeRef sym val) refs) r = some (encodeRef sym val) ∧
      ∀ x, x ≠ r → lookupA (setv r (encodeRef sym val) refs) x = lookupA refs x) := by
  refine ⟨⟨?_, lookupA_setv_self _ _ _, fun x hx => lookupA_setv_ne _ _ _ _ (Ne.symm hx)⟩,
    ⟨?_, lookupA_setv_self _ _ _, fun x hx => lookupA_setv_ne _ _ _ _ (Ne.symm hx)⟩⟩
  · rw [update_ref, getRefInternal_chain refs links r t fuel hc hf]
    simpa using congrArg (Option.map fun content => setv t content refs)
      (encodeRef_content sym val)
  · obtain ⟨m, rfl⟩ : ∃ m, fuel = m + 1 := ⟨fuel - 1, by omega⟩
    obtain ⟨rv, hrv⟩ := getRefInternal_false refs r m
    rw [update_ref, hrv]
    simpa using congrArg (Option.map fun content => setv r content refs)
      (encodeRef_content sym val)

/-- Witness for C7: the two-link chain `H -> T` with a direct terminal. -/
theorem update_ref_deref_frame_w :
    (update_ref [(strB "H", strB "ref: T"), (strB "T", strB "v")] true 2 (strB "H")
          ⟨false, some (strB "w")⟩ =
        some (setv (strB "T") (encodeRef false (strB "w"))
          [(strB "H", strB "ref: T"), (strB "T", strB "v")]) ∧
      lookupA (setv (strB "T") (encodeRef false (strB "w"))
          [(strB "H", strB "ref: T"), (strB "T", strB "v")]) (strB "T") =
        some (encodeRef false (strB "w")) ∧
      ∀ x, x ≠ strB "T" →
        lookupA (setv (strB "T") (encodeRef false (strB "w"))
            [(strB "H", strB "ref: T"), (strB "T", strB "v")]) x =
          lookupA [(strB "H", strB "ref: T"), (strB "T", strB "v")] x) ∧
    (update_ref [(strB "H", strB "ref: T"), (strB "T", strB "v")] false 2 (strB "H")
          ⟨false, some (strB "w")⟩ =
        some (setv (strB "H") (encodeRef false (strB "w"))
          [(strB "H", strB "ref: T"), (strB "T", strB "v")]) ∧
      lookupA (setv (strB "H") (encodeRef false (strB "w"))
          [(strB "H", strB "ref: T"), (strB "T", strB "v")]) (strB "H") =
        some (encodeRef false (strB "w")) ∧
      ∀ x, x ≠ strB "H" →
        lookupA (setv (strB "H") (encodeRef false (strB "w"))
            [(strB "H", strB "ref: T"), (strB "T", strB "v")]) x =
          lookupA [(strB "H", strB "ref: T"), (strB "T", strB "v")] x) :=
  update_ref_deref_frame [(strB "H", strB "ref: T"), (strB "T", strB "v")]
    (strB "H") (strB "T") [strB "T"] false (strB "w") 2 (by decide) (by decide)

/- ## C8 -/

theorem symTarget_self_neverResolves (refs : Refs) (r : Str)
    (hcyc : symTarget refs r = some r) : neverResolves refs r := by
  intro fuel
  induction fuel with
  | zero => rfl
  | succ n ih => rw [getRefInternal_sym refs n r r hcyc]; exact ih

/-- C8 counterexample: on the self-pointing ref `loop -> loop` the resolver
never returns, at any recursion depth — the code recurses unboundedly; no
`CyclicRef` failure is ever produced. -/
theorem selfloop_resolution_diverges :
    neverResolves [(strB "loop", strB "ref: loop")] (strB "loop") :=
  symTarget_self_neverResolves _ _ (by decide)

/-- C8 (amended): a symbolic ref chain that points back to itself makes
resolution recurse unboundedly (no `CyclicRef` error exists in the code),
while for every chain terminating at a direct value or an unset ref,
resolution with `deref=true` terminates and returns that terminal ref's
value (`None` when unset). -/
theorem get_ref_chain_terminates_cycle_diverges (refs : Refs) (r t r₂ : Str)
    (links : List Str) (fuel : Nat)
    (hc : chainToB refs r links t = true) (hf : links.length < fuel)
    (hcyc : symTarget refs r₂ = some r₂) :
    get_ref refs true fuel r = some ⟨false, (lookupA refs t).map pstrip⟩ ∧
    neverResolves refs r₂ := by
  constructor
  · rw [get_ref, getRefInternal_chain refs links r t fuel hc hf]; rfl
  · exact symTarget_self_neverResolves refs r₂ hcyc

/-- Witness for the amended C8: a two-link chain next to a self-loop. -/
theorem get_ref_chain_terminates_cycle_diverges_w :
    get_ref [(strB "H", strB "ref: T"), (strB "T", strB "v"),
        (strB "loop", strB "ref: loop")] true 2 (strB "H") =
      some ⟨false, (lookupA [(strB "H", strB "ref: T"), (strB "T", strB "v"),
        (strB "loop", strB "ref: loop")] (strB "T")).map pstrip⟩ ∧
    neverResolves [(strB "H", strB "ref: T"), (strB "T", strB "v"),
      (strB "loop", strB "ref: loop")] (strB "loop") :=
  get_ref_chain_terminates_cycle_diverges
    [(strB "H", strB "ref: T"), (strB "T", strB "v"), (strB "loop", strB "ref: loop")]
    (strB "H") (strB "T") (strB "loop") [strB "T"] 2 (by decide) (by decide) (by decide)

/- ## C9 -/

/-- C9 counterexample: with one branch ref and the prefix `refs/`, the
enumeration does not contain `HEAD` — the prefix filter is applied to `HEAD`
as well, contradicting "HEAD is included regardless of the prefix". -/
theorem iter_refs_drops_HEAD_under_prefix :
    (iter_refs [(strB "refs/heads/m", strB "x")] (strB "refs/") true 1).map Prod.fst =
      [strB "refs/heads/m"] ∧
    strB "HEAD" ∉
      (iter_refs [(strB "refs/heads/m", strB "x")] (strB "refs/") true 1).map Prod.fst := by
  decide

/-- C9 (amended): `iter_refs(prefix)` enumerates, among `HEAD` and the names
under the refs namespace, exactly those whose name starts with the prefix
(so `HEAD` is included exactly when its own name matches, e.g. for the empty
prefix), pairing each enumerated name with its value resolved according to
the `deref` flag. -/
theorem iter_refs_enumeration (refs : Refs) (pre : Str) (deref : Bool) (fuel : Nat) :
    (iter_refs refs pre deref fuel).map Prod.fst =
      (strB "HEAD" :: (refs.map Prod.fst).filter
        (fun n => (strB "refs/").isPrefixOf n)).filter (fun n => pre.isPrefixOf n) ∧
    (∀ p ∈ iter_refs refs pre deref fuel, p.2 = get_ref refs deref fuel p.1) ∧
    (pre = [] →
      (strB "HEAD", get_ref refs deref fuel (strB "HEAD")) ∈
        iter_refs refs pre deref fuel) := by
  refine ⟨?_, ?_, ?_⟩
  · simp only [iter_refs, List.map_map]
    have hcomp : (Prod.fst ∘ fun n : Str => (n, get_ref refs deref fuel n)) = id := rfl
    rw [hcomp, List.map_id]
  · intro p hp
    simp only [iter_refs, List.mem_map] at hp
    obtain ⟨n, _, rfl⟩ := hp
    rfl
  · rintro rfl
    simp [iter_refs, List.isPrefixOf]

/-- Witness-style corollary for the amended C9: under the empty prefix the
enumeration does contain `HEAD`. -/
theorem iter_refs_enumeration_w :
    (strB "HEAD", get_ref [(strB "refs/heads/m", strB "x")] true 1 (strB "HEAD")) ∈
      iter_refs [(strB "refs/heads/m", strB "x")] [] true 1 :=
  (iter_refs_enumeration [(strB "refs/heads/m", strB "x")] [] true 1).2.2 rfl

/- ## C10 -/

/-- C10: `get_oid` rewrites `@` to `HEAD`, then tries `name`, `refs/name`,
`refs/tags/name`, `refs/heads/name` in that order, returning the fully
dereferenced value of the first candidate whose ref holds a (nonempty)
value; when no candidate resolves it returns the name itself exactly when it
is a 40-character hexadecimal string, and fails with the unknown-name error
otherwise. -/
theorem get_oid_candidates (refs : Refs) (fuel : Nat) (name0 : Str) :
    (refHasValue refs (atName name0) = true →
       ∀ rv, get_ref refs true fuel (atName name0) = some rv →
         get_oid refs fuel name0 = .ok rv.value) ∧
    (refHasValue refs (atName name0) = false →
     refHasValue refs (strB "refs/" ++ atName name0) = true →
       ∀ rv, get_ref refs true fuel (strB "refs/" ++ atName name0) = some rv →
         get_oid refs fuel name0 = .ok rv.value) ∧
    (refHasValue refs (atName name0) = false →
     refHasValue refs (strB "refs/" ++ atName name0) = false →
     refHasValue refs (strB "refs/tags/" ++ atName name0) = true →
       ∀ rv, get_ref refs true fuel (strB "refs/tags/" ++ atName name0) = some rv →
         get_oid refs fuel name0 = .ok rv.value) ∧
    (refHasValue refs (atName name0) = false →
     refHasValue refs (strB "refs/" ++ atName name0) = false →
     refHasValue refs (strB "refs/tags/" ++ atName name0) = false →
     refHasValue refs (strB "refs/heads/" ++ atName name0) = true →
       ∀ rv, get_ref refs true fuel (strB "refs/heads/" ++ atName name0) = some rv →
         get_oid refs fuel name0 = .ok rv.value) ∧
    ((∀ r ∈ oidCands (atName name0), refHasValue refs r = false) →
       (isHex40 (atName name0) = true →
          get_oid refs fuel name0 = .ok (some (atName name0))) ∧
       (isHex40 (atName name0) = false → get_oid refs fuel name0 = .unknownName)) := by
  refine ⟨?_, ?_, ?_, ?_, ?_⟩
  · intro h1 rv hrv
    simp only [get_oid, oidCands, List.find?, h1]
    rw [hrv]
  · intro h1 h2 rv hrv
    simp only [get_oid, oidCands, List.find?, h1, h2]
    rw [hrv]
  · intro h1 h2 h3 rv hrv
    simp only [get_oid, oidCands, List.find?, h1, h2, h3]
    rw [hrv]
  · intro h1 h2 h3 h4 rv hrv
    simp only [get_oid, oidCands, List.find?, h1, h2, h3, h4]
    rw [hrv]
  · intro hall
    have h1 := hall (atName name0) (by simp [oidCands])
    have h2 := hall (strB "refs/" ++ atName name0) (by simp [oidCands])
    have h3 := hall (strB "refs/tags/" ++ atName name0) (by simp [oidCands])
    have h4 := hall (strB "refs/heads/" ++ atName name0) (by simp [oidCands])
    constructor
    · intro hx
      simp [get_oid, oidCands, List.find?, h1, h2, h3, h4, hx]
    · intro hx
      simp [get_oid, oidCands, List.find?, h1, h2, h3, h4, hx]

/-- Witness for C10: `@` resolves through the symbolic `HEAD` to the branch
value. -/
theorem get_oid_candidates_w :
    get_oid [(strB "HEAD", strB "ref: refs/heads/master"),
      (strB "refs/heads/master", strB "aa")] 2 (strB "@") = .ok (some (strB "aa")) :=
  (get_oid_candidates [(strB "HEAD", strB "ref: refs/heads/master"),
      (strB "refs/heads/master", strB "aa")] 2 (strB "@")).1 (by decide)
    ⟨false, some (strB "aa")⟩ (by decide)

/- ## Traversal lemmas -/

theorem Reaches_head {store : Store} {a b o : Str} (hb : b ∈ parentsOf store a)
    (h : Reaches store b o) : Reaches store a o := by
  induction h with
  | refl => exact .tail (.refl a) hb
  | tail _ hm ih => exact .tail ih hm

theorem lookupA_isSome_mem {α : Type} (s : List (Str × α)) (k : Str)
    (h : (lookupA s k).isSome) : k ∈ s.map Prod.fst := by
  induction s with
  | nil => simp [lookupA] at h
  | cons e rest ih =>
    obtain ⟨k', v⟩ := e
    by_cases hk : k' = k
    · simp [hk]
    · rw [lookupA, if_neg hk] at h
      simpa using Or.inr (ih h)

theorem get_commit_isSome_lookup (store : Store) (o : Str)
    (h : (get_commit store o).isSome) : (lookupA store o).isSome := by
  cases hl : lookupA store o with
  | none => rw [get_commit, get_object, hl] at h; simp at h
  | some _ => rfl

theorem storeClosedB_spec (store : Store) (seeds : List Str)
    (h : storeClosedB store seeds = true) :
    ∀ o, ReachesAny store seeds o → o ≠ [] ∧ (get_commit store o).isSome := by
  simp only [storeClosedB, Bool.and_eq_true, List.all_eq_true, decide_eq_true_eq,
    ne_eq] at h
  obtain ⟨hs, hp⟩ := h
  rintro o ⟨s, hmem, hr⟩
  induction hr with
  | refl =>
    have := hs s hmem
    exact ⟨by simpa using this.1, this.2⟩
  | tail hab hm ih =>
    have hbkeys := lookupA_isSome_mem store _ (get_commit_isSome_lookup store _ ih.2)
    have := hp _ hbkeys _ hm
    exact ⟨by simpa using this.1, this.2⟩

theorem filter_cons_sum (f : Str → Nat) (visited : List Str) (k : Str) :
    ∀ l : List Str, l.Nodup → k ∈ l → k ∉ visited →
      ((l.filter (fun x => x ∉ (k :: visited))).map f).sum + f k =
        ((l.filter (fun x => x ∉ visited)).map f).sum := by
  intro l
  induction l with
  | nil => intro _ hk; cases hk
  | cons a rest ih =>
    intro hnd hk hv
    rcases List.mem_cons.mp hk with rfl | hk'
    · have hknotrest : k ∉ rest := (List.nodup_cons.mp hnd).1
      have hagree : rest.filter (fun x => decide (x ∉ (k :: visited))) =
          rest.filter (fun x => decide (x ∉ visited)) := by
        apply List.filter_congr
        intro x hx
        have hxk : x ≠ k := fun he => hknotrest (he ▸ hx)
        simp [hxk]
      have h1 : (k :: rest).filter (fun x => decide (x ∉ (k :: visited))) =
          rest.filter (fun x => decide (x ∉ visited)) := by
        rw [List.filter_cons, if_neg (by simp), hagree]
      have h2 : (k :: rest).filter (fun x => decide (x ∉ visited)) =
          k :: rest.filter (fun x => decide (x ∉ visited)) := by
        rw [List.filter_cons, if_pos (by simp [hv])]
      rw [h1, h2]
      simp [Nat.add_comm]
    · have hnd' := (List.nodup_cons.mp hnd).2
      have hak : a ≠ k := fun he => (List.nodup_cons.mp hnd).1 (he ▸ hk')
      have hrec := ih hnd' hk' hv
      by_cases hva : a ∈ visited
      · have h1 : (a :: rest).filter (fun x => decide (x ∉ (k :: visited))) =
            rest.filter (fun x => decide (x ∉ (k :: visited))) := by
          rw [List.filter_cons, if_neg (by simp [hva])]
        have h2 : (a :: rest).filter (fun x => decide (x ∉ visited)) =
            rest.filter (fun x => decide (x ∉ visited)) := by
          rw [List.filter_cons, if_neg (by simp [hva])]
        rw [h1, h2]
        exact hrec
      · have h1 : (a :: rest).filter (fun x => decide (x ∉ (k :: visited))) =
            a :: rest.filter (fun x => decide (x ∉ (k :: visited))) := by
          rw [List.filter_cons, if_pos (by simp [hva, hak])]
        have h2 : (a :: rest).filter (fun x => decide (x ∉ visited)) =
            a :: rest.filter (fun x => decide (x ∉ visited)) := by
          rw [List.filter_cons, if_pos (by simp [hva])]
        rw [h1, h2]
        simp only [List.map_cons, List.sum_cons]
        omega

theorem capSum_drop (store : Store) (visited : List Str) (k : Str)
    (hk : k ∈ (store.map Prod.fst).dedup) (hv : k ∉ visited) :
    capSum store (k :: visited) + (parentsOf store k).length = capSum store visited := by
  unfold capSum
  exact filter_cons_sum (fun o => (parentsOf store o).length) visited k _
    (List.nodup_dedup _) hk hv

theorem iterCP_skip (store : Store) (fuel : Nat) (oid : Str) (rest visited : List Str)
    (h : oid = [] ∨ visited.contains oid) :
    iter_commits_and_parents store (fuel + 1) (oid :: rest) visited =
      iter_commits_and_parents store fuel rest visited := by
  simp only [iter_commits_and_parents]
  rw [if_pos h]

theorem iterCP_step (store : Store) (fuel : Nat) (oid : Str) (rest visited : List Str)
    (c : Commit) (hne : oid ≠ []) (hnv : ¬ visited.contains oid)
    (hc : get_commit store oid = some c) :
    iter_commits_and_parents store (fuel + 1) (oid :: rest) visited =
      (oid :: (iter_commits_and_parents store fuel
          (c.parents.take 1 ++ rest ++ c.parents.drop 1) (oid :: visited)).1,
        (iter_commits_and_parents store fuel
          (c.parents.take 1 ++ rest ++ c.parents.drop 1) (oid :: visited)).2) := by
  have hcond : ¬ (oid = [] ∨ visited.contains oid) := by
    rintro (h | h)
    · exact hne h
    · exact hnv h
  simp only [iter_commits_and_parents]
  rw [if_neg hcond, hc]

theorem iterCP_raise (store : Store) (fuel : Nat) (oid : Str) (rest visited : List Str)
    (hne : oid ≠ []) (hnv : ¬ visited.contains oid)
    (hc : get_commit store oid = none) :
    iter_commits_and_parents store (fuel + 1) (oid :: rest) visited = ([oid], false) := by
  have hcond : ¬ (oid = [] ∨ visited.contains oid) := by
    rintro (h | h)
    · exact hne h
    · exact hnv h
  simp only [iter_commits_and_parents]
  rw [if_neg hcond, hc]

theorem iterCP_completes (store : Store) :
    ∀ fuel queue visited,
      (∀ q ∈ queue, q ≠ [] →
        ∀ o, Reaches store q o → o = [] ∨ (get_commit store o).isSome) →
      queue.length + capSum store visited < fuel →
      (iter_commits_and_parents store fuel queue visited).2 = true := by
  intro fuel
  induction fuel with
  | zero => intro queue visited _ hf; omega
  | succ n ih =>
    intro queue visited hq hf
    match queue with
    | [] => rfl
    | oid :: rest =>
      by_cases hskip : oid = [] ∨ visited.contains oid
      · rw [iterCP_skip store n oid rest visited hskip]
        refine ih rest visited (fun q hq' => hq q (List.mem_cons_of_mem _ hq')) ?_
        simp only [List.length_cons] at hf
        omega
      · push_neg at hskip
        obtain ⟨hne, hnv⟩ := hskip
        have hgood := hq oid (List.mem_cons_self _ _) hne oid (.refl oid)
        have hsome : (get_commit store oid).isSome := by
          rcases hgood with h | h
          · exact absurd h hne
          · exact h
        obtain ⟨c, hc⟩ := Option.isSome_iff_exists.mp hsome
        rw [iterCP_step store n oid rest visited c hne hnv hc]
        refine ih _ _ ?_ ?_
        · intro q hq' hqne o hro
          rcases List.mem_append.mp hq' with hq'' | hdrop
          · rcases List.mem_append.mp hq'' with htake | hrest
            · have hqp : q ∈ parentsOf store oid := by
                rw [parentsOf, hc]
                exact List.mem_of_mem_take htake
              exact hq oid (List.mem_cons_self _ _) hne o (Reaches_head hqp hro)
            · exact hq q (List.mem_cons_of_mem _ hrest) hqne o hro
          · have hqp : q ∈ parentsOf store oid := by
              rw [parentsOf, hc]
              exact List.mem_of_mem_drop hdrop
            exact hq oid (List.mem_cons_self _ _) hne o (Reaches_head hqp hro)
        · have hmem : oid ∈ (store.map Prod.fst).dedup :=
            List.mem_dedup.mpr (lookupA_isSome_mem _ _ (get_commit_isSome_lookup _ _ hsome))
          have hnvm : oid ∉ visited := by
            intro hm
            exact hnv (by simp [List.contains, List.elem_iff, hm])
          have hdrop := capSum_drop store visited oid hmem hnvm
          have hp : parentsOf store oid = c.parents := by rw [parentsOf, hc]
          have hlen : (c.parents.take 1).length + (c.parents.drop 1).length =
              c.parents.length := by
            rw [← List.length_append, List.take_append_drop]
          rw [hp] at hdrop
          simp only [List.length_append, List.length_cons] at hf ⊢
          omega

theorem iterCP_spec (store : Store) :
    ∀ fuel queue visited ys,
      iter_commits_and_parents store fuel queue visited = (ys, true) →
      (ys.Nodup ∧ (∀ y ∈ ys, y ∉ visited)) ∧
      (∀ y ∈ ys, y ≠ [] ∧ (get_commit store y).isSome ∧ ∃ q ∈ queue, Reaches store q y) ∧
      (∀ q ∈ queue, q = [] ∨ q ∈ ys ∨ q ∈ visited) ∧
      (∀ y ∈ ys, ∀ p ∈ parentsOf store y, p = [] ∨ p ∈ ys ∨ p ∈ visited) := by
  intro fuel
  induction fuel with
  | zero =>
    intro queue visited ys heq
    simp only [iter_commits_and_parents, Prod.mk.injEq] at heq
    obtain ⟨h1, h2⟩ := heq
    subst h1
    have hqe : queue = [] := by simpa using h2
    subst hqe
    refine ⟨⟨List.nodup_nil, by simp⟩, by simp, by simp, by simp⟩
  | succ n ih =>
    intro queue visited ys heq
    match queue with
    | [] =>
      simp only [iter_commits_and_parents, Prod.mk.injEq] at heq
      obtain ⟨h1, _⟩ := heq
      subst h1
      refine ⟨⟨List.nodup_nil, by simp⟩, by simp, by simp, by simp⟩
    | oid :: rest =>
      by_cases hskip : oid = [] ∨ visited.contains oid
      · rw [iterCP_skip store n oid rest visited hskip] at heq
        obtain ⟨hnodup, hsound, hqueue, hclosed⟩ := ih rest visited ys heq
        refine ⟨hnodup, ?_, ?_, hclosed⟩
        · intro y hy
          obtain ⟨hne, hsome, q, hq, hr⟩ := hsound y hy
          exact ⟨hne, hsome, q, List.mem_cons_of_mem _ hq, hr⟩
        · intro q hq
          rcases List.mem_cons.mp hq with rfl | hq'
          · rcases hskip with h | h
            · exact Or.inl h
            · exact Or.inr (Or.inr (by simpa [List.contains, List.elem_iff] using h))
          · exact hqueue q hq'
      · push_neg at hskip
        obtain ⟨hne, hnv⟩ := hskip
        have hnvmem : oid ∉ visited := fun hm =>
          hnv (by simp [List.contains, List.elem_iff, hm])
        cases hc : get_commit store oid with
        | none =>
          rw [iterCP_raise store n oid rest visited hne hnv hc] at heq
          simp only [Prod.mk.injEq] at heq
          exact absurd heq.2 (by simp)
        | some c =>
          rw [iterCP_step store n oid rest visited c hne hnv hc] at heq
          simp only [Prod.mk.injEq] at heq
          obtain ⟨hys, hflag⟩ := heq
          subst hys
          have heq' : iter_commits_and_parents store n
              (c.parents.take 1 ++ rest ++ c.parents.drop 1) (oid :: visited) =
              ((iter_commits_and_parents store n
                (c.parents.take 1 ++ rest ++ c.parents.drop 1) (oid :: visited)).1, true) := by
            rw [← hflag]
          obtain ⟨⟨hnd', hnv'⟩, hsound', hqueue', hclosed'⟩ := ih _ _ _ heq'
          set ys' := (iter_commits_and_parents store n
            (c.parents.take 1 ++ rest ++ c.parents.drop 1) (oid :: visited)).1 with hys'
          have massage : ∀ x, x = [] ∨ x ∈ ys' ∨ x ∈ oid :: visited →
              x = [] ∨ x ∈ oid :: ys' ∨ x ∈ visited := by
            rintro x (h | h | h)
            · exact Or.inl h
            · exact Or.inr (Or.inl (List.mem_cons_of_mem _ h))
            · rcases List.mem_cons.mp h with rfl | h'
              · exact Or.inr (Or.inl (List.mem_cons_self _ _))
              · exact Or.inr (Or.inr h')
          refine ⟨⟨?_, ?_⟩, ?_, ?_, ?_⟩
          · refine List.nodup_cons.mpr ⟨?_, hnd'⟩
            intro hmem
            exact hnv' oid hmem (List.mem_cons_self _ _)
          · intro y hy
            rcases List.mem_cons.mp hy with rfl | hy'
            · exact hnvmem
            · exact fun hm => hnv' y hy' (List.mem_cons_of_mem _ hm)
          · intro y hy
            rcases List.mem_cons.mp hy with rfl | hy'
            · exact ⟨hne, by rw [hc]; rfl, y, List.mem_cons_self _ _, .refl y⟩
            · obtain ⟨hyne, hysome, q, hq, hr⟩ := hsound' y hy'
              rcases List.mem_append.mp hq with hq1 | hqdrop
              · rcases List.mem_append.mp hq1 with hqtake | hqrest
                · have hqp : q ∈ parentsOf store oid := by
                    rw [parentsOf, hc]
                    exact List.mem_of_mem_take hqtake
                  exact ⟨hyne, hysome, oid, List.mem_cons_self _ _, Reaches_head hqp hr⟩
                · exact ⟨hyne, hysome, q, List.mem_cons_of_mem _ hqrest, hr⟩
              · have hqp : q ∈ parentsOf store oid := by
                  rw [parentsOf, hc]
                  exact List.mem_of_mem_drop hqdrop
                exact ⟨hyne, hysome, oid, List.mem_cons_self _ _, Reaches_head hqp hr⟩
          · intro q hq
            rcases List.mem_cons.mp hq with rfl | hq'
            · exact Or.inr (Or.inl (List.mem_cons_self _ _))
            · exact massage q (hqueue' q
                (List.mem_append.mpr (Or.inl (List.mem_append.mpr (Or.inr hq')))))
          · intro y hy p hp
            rcases List.mem_cons.mp hy with rfl | hy'
            · have hpq : p ∈ c.parents.take 1 ++ rest ++ c.parents.drop 1 := by
                have hp' : p ∈ c.parents := by
                  rw [parentsOf, hc] at hp
                  exact hp
                rcases List.mem_append.mp ((List.take_append_drop 1 c.parents).symm ▸ hp') with
                  h1 | h2
                · exact List.mem_append.mpr (Or.inl (List.mem_append.mpr (Or.inl h1)))
                · exact List.mem_append.mpr (Or.inr h2)
              exact massage p (hqueue' p hpq)
            · exact massage p (hclosed' y hy' p hp)

theorem contains_iff_memS (l : List Str) (a : Str) : l.contains a = true ↔ a ∈ l := by
  simp [List.contains, List.elem_iff]

theorem iterCP_exact (store : Store) (seeds : List Str) (fuel : Nat)
    (hcl : storeClosedB store seeds = true)
    (hf : traversalFuel store seeds ≤ fuel) :
    (iter_commits_and_parents store fuel seeds []).2 = true ∧
    (iter_commits_and_parents store fuel seeds []).1.Nodup ∧
    ∀ o, o ∈ (iter_commits_and_parents store fuel seeds []).1 ↔
      ReachesAny store seeds o := by
  have hgraph := storeClosedB_spec store seeds hcl
  have hcomp : (iter_commits_and_parents store fuel seeds []).2 = true := by
    apply iterCP_completes
    · intro q hq _ o hro
      exact Or.inr (hgraph o ⟨q, hq, hro⟩).2
    · unfold traversalFuel at hf
      omega
  have heq : iter_commits_and_parents store fuel seeds [] =
      ((iter_commits_and_parents store fuel seeds []).1, true) := by
    rw [← hcomp]
  obtain ⟨⟨hnd, _⟩, hsound, hqueue, hclosed⟩ := iterCP_spec store fuel seeds [] _ heq
  refine ⟨hcomp, hnd, fun o => ⟨?_, ?_⟩⟩
  · intro ho
    obtain ⟨_, _, q, hq, hr⟩ := hsound o ho
    exact ⟨q, hq, hr⟩
  · rintro ⟨s, hs, hr⟩
    induction hr with
    | refl =>
      rcases hqueue s hs with h | h | h
      · exact absurd h (hgraph s ⟨s, hs, .refl s⟩).1
      · exact h
      · cases h
    | tail hab hm ihh =>
      rename_i b c
      rcases hclosed b ihh c hm with h | h | h
      · exact absurd h (hgraph c ⟨s, hs, .tail hab hm⟩).1
      · exact h
      · cases h

/- ## C6 -/

/-- C6 counterexample: a seed oid absent from the store is *yielded* and then
the traversal fails (the source's `get_commit` raises) — it is not silently
skipped as the claim states (that would give `([], true)`). -/
theorem missing_oid_raises :
    iter_commits_and_parents [] 2 [strB "A"] [] = ([strB "A"], false) := by decide

/-- C6 (amended): when every oid reachable from the seeds is nonempty and
names a commit present in the store, the traversal (run with the computed
step bound) terminates normally and yields exactly the reachable commits,
each at most once, diamonds included; each popped commit's first parent goes
to the front of the queue and the remaining parents to the back; null (falsy)
oids are silently skipped, but a missing oid is yielded and then the
traversal raises. -/
theorem iter_commits_and_parents_traversal (store : Store) (seeds : List Str)
    (hcl : storeClosedB store seeds = true) :
    ((iter_commits_and_parents store (traversalFuel store seeds) seeds []).2 = true ∧
     (iter_commits_and_parents store (traversalFuel store seeds) seeds []).1.Nodup ∧
     (∀ o, o ∈ (iter_commits_and_parents store (traversalFuel store seeds) seeds []).1 ↔
        ReachesAny store seeds o)) ∧
    (∀ fuel rest visited,
      iter_commits_and_parents store (fuel + 1) ([] :: rest) visited =
        iter_commits_and_parents store fuel rest visited) ∧
    (∀ fuel oid rest visited c, oid ≠ [] → ¬ visited.contains oid →
      get_commit store oid = some c →
      iter_commits_and_parents store (fuel + 1) (oid :: rest) visited =
        (oid :: (iter_commits_and_parents store fuel
            (c.parents.take 1 ++ rest ++ c.parents.drop 1) (oid :: visited)).1,
          (iter_commits_and_parents store fuel
            (c.parents.take 1 ++ rest ++ c.parents.drop 1) (oid :: visited)).2)) ∧
    (∀ fuel oid rest visited, oid ≠ [] → ¬ visited.contains oid →
      get_commit store oid = none →
      iter_commits_and_parents store (fuel + 1) (oid :: rest) visited = ([oid], false)) := by
  refine ⟨iterCP_exact store seeds _ hcl (le_refl _), ?_, ?_, ?_⟩
  · intro fuel rest visited
    exact iterCP_skip store fuel [] rest visited (Or.inl rfl)
  · intro fuel oid rest visited c hne hnv hc
    exact iterCP_step store fuel oid rest visited c hne hnv hc
  · intro fuel oid rest visited hne hnv hc
    exact iterCP_raise store fuel oid rest visited hne hnv hc

/-- Witness for the amended C6, on the diamond history seeded at `D`: the
traversal completes, yields no duplicates, and reaches `A`. -/
theorem iter_commits_and_parents_traversal_w :
    (iter_commits_and_parents diaStore (traversalFuel diaStore [strB "D"])
      [strB "D"] []).2 = true ∧
    (iter_commits_and_parents diaStore (traversalFuel diaStore [strB "D"])
      [strB "D"] []).1.Nodup ∧
    (strB "A" ∈ (iter_commits_and_parents diaStore (traversalFuel diaStore [strB "D"])
        [strB "D"] []).1 ↔ ReachesAny diaStore [strB "D"] (strB "A")) :=
  have t := iter_commits_and_parents_traversal diaStore [strB "D"] (by decide)
  ⟨t.1.1, t.1.2.1, t.1.2.2 (strB "A")⟩

/- ## C3 -/

theorem find?_eq_some_split {α : Type} (p : α → Bool) :
    ∀ (l : List α) (a : α), l.find? p = some a →
      p a = true ∧ ∃ l₁ l₂, l = l₁ ++ a :: l₂ ∧ ∀ b ∈ l₁, p b = false := by
  intro l
  induction l with
  | nil => intro a h; cases h
  | cons x xs ih =>
    intro a h
    cases hpx : p x with
    | true =>
      rw [List.find?_cons_of_pos _ hpx] at h
      injection h with h
      subst h
      exact ⟨hpx, [], xs, rfl, by simp⟩
    | false =>
      rw [List.find?_cons_of_neg _ (by simp [hpx])] at h
      obtain ⟨hp, l₁, l₂, rfl, hall⟩ := ih a h
      refine ⟨hp, x :: l₁, l₂, rfl, ?_⟩
      intro b hb
      rcases List.mem_cons.mp hb with rfl | hb'
      · exact hpx
      · exact hall b hb'

/-- C3: `get_merge_base(oid1, oid2)` never raises on closed graphs, returns
`None` exactly when the two commits share no common ancestor, and otherwise
returns a common ancestor of both that is the *first* hit in `oid2`'s
first-parent-biased traversal order (everything before it in that traversal
is not an ancestor of `oid1`); in particular on the linear history
`A <- B <- C` the base of `A` and `C` is `A`, and for branches `B`, `C`
diverging from `A` the base is `A`. -/
theorem get_merge_base_spec (store : Store) (oid1 oid2 : Str) (fuel : Nat)
    (h1 : storeClosedB store [oid1] = true) (h2 : storeClosedB store [oid2] = true)
    (hf1 : traversalFuel store [oid1] ≤ fuel) (hf2 : traversalFuel store [oid2] ≤ fuel) :
    ((get_merge_base store fuel oid1 oid2).isSome ∧
     (get_merge_base store fuel oid1 oid2 = some none ↔
       ¬ ∃ a, ReachesAny store [oid1] a ∧ ReachesAny store [oid2] a) ∧
     (∀ a, get_merge_base store fuel oid1 oid2 = some (some a) →
       ReachesAny store [oid1] a ∧ ReachesAny store [oid2] a ∧
       ∃ l₁ l₂, (iter_commits_and_parents store fuel [oid2] []).1 = l₁ ++ a :: l₂ ∧
         ∀ b ∈ l₁, ¬ ReachesAny store [oid1] b)) ∧
    get_merge_base linStore 100 (strB "A") (strB "C") = some (some (strB "A")) ∧
    get_merge_base brStore 100 (strB "B") (strB "C") = some (some (strB "A")) := by
  obtain ⟨hc1, _, hm1⟩ := iterCP_exact store [oid1] fuel h1 hf1
  obtain ⟨hc2, _, hm2⟩ := iterCP_exact store [oid2] fuel h2 hf2
  have he1 : iter_commits_and_parents store fuel [oid1] [] =
      ((iter_commits_and_parents store fuel [oid1] []).1, true) := by rw [← hc1]
  have hgmb : get_merge_base store fuel oid1 oid2 =
      match (iter_commits_and_parents store fuel [oid2] []).1.find?
          (fun o => (iter_commits_and_parents store fuel [oid1] []).1.contains o) with
      | some o => some (some o)
      | none => some none := by
    rw [get_merge_base, he1]
    simp only []
    cases hfind : (iter_commits_and_parents store fuel [oid2] []).1.find?
        (fun o => (iter_commits_and_parents store fuel [oid1] []).1.contains o) with
    | some o => simp [hfind]
    | none => simp [hfind, hc2]
  refine ⟨⟨?_, ⟨?_, ?_⟩, ?_⟩, by decide, by decide⟩
  · rw [hgmb]
    cases hfind : (iter_commits_and_parents store fuel [oid2] []).1.find?
        (fun o => (iter_commits_and_parents store fuel [oid1] []).1.contains o) <;> simp
  · rw [hgmb]
    intro hnone
    rintro ⟨a, hra1, hra2⟩
    cases hfind : (iter_commits_and_parents store fuel [oid2] []).1.find?
        (fun o => (iter_commits_and_parents store fuel [oid1] []).1.contains o) with
    | some o => rw [hfind] at hnone; cases hnone
    | none =>
      have hall := List.find?_eq_none.mp hfind
      exact hall a ((hm2 a).mpr hra2)
        ((contains_iff_memS _ _).mpr ((hm1 a).mpr hra1))
  · intro hno
    rw [hgmb]
    cases hfind : (iter_commits_and_parents store fuel [oid2] []).1.find?
        (fun o => (iter_commits_and_parents store fuel [oid1] []).1.contains o) with
    | some o =>
      obtain ⟨hp, _, _, hsplit, _⟩ := find?_eq_some_split _ _ _ hfind
      exfalso
      apply hno
      refine ⟨o, (hm1 o).mp ((contains_iff_memS _ _).mp hp), (hm2 o).mp ?_⟩
      rw [hsplit]
      simp
    | none => rfl
  · intro a ha
    rw [hgmb] at ha
    cases hfind : (iter_commits_and_parents store fuel [oid2] []).1.find?
        (fun o => (iter_commits_and_parents store fuel [oid1] []).1.contains o) with
    | none => rw [hfind] at ha; cases ha
    | some o =>
      rw [hfind] at ha
      injection ha with ha
      injection ha with ha
      subst ha
      obtain ⟨hp, l₁, l₂, hsplit, hall⟩ := find?_eq_some_split _ _ _ hfind
      refine ⟨(hm1 o).mp ((contains_iff_memS _ _).mp hp),
        (hm2 o).mp (by rw [hsplit]; simp), l₁, l₂, hsplit, ?_⟩
      intro b hb hra
      have hfalse := hall b hb
      have htrue : (iter_commits_and_parents store fuel [oid1] []).1.contains b = true :=
        (contains_iff_memS _ _).mpr ((hm1 b).mpr hra)
      rw [htrue] at hfalse
      cases hfalse

/-- Witness for C3 on the concrete branch history. -/
theorem get_merge_base_spec_w :
    (get_merge_base brStore 100 (strB "B") (strB "C")).isSome ∧
    get_merge_base linStore 100 (strB "A") (strB "C") = some (some (strB "A")) ∧
    get_merge_base brStore 100 (strB "B") (strB "C") = some (some (strB "A")) :=
  have t := get_merge_base_spec brStore (strB "B") (strB "C") 100 (by decide) (by decide)
    (by decide) (by decide)
  ⟨t.1.1, t.2.1, t.2.2⟩

/- ## C4 -/

/-- C4 (code bug): at the concrete fast-forward state `ffState` (where
`get_merge_base(other, HEAD) = HEAD`), `merge` advances `HEAD` directly to
`other`, replaces the index by `other`'s tree, stores no new object (so no
merge commit) and records no `MERGE_HEAD` — but it leaves the working tree
untouched (its `read_tree` call leaves `update_working` at the `False`
default), so the working tree does *not* equal `other`'s tree contents: the
materialization the claim and spec (§4.5, §8) require would have produced
`f ↦ "new"`. -/
theorem merge_fastforward_behavior :
    get_merge_base ffObjects 100 (strB "O") (strB "H") = some (some (strB "H")) ∧
    merge (fun _ _ _ => []) ffState 100 (strB "O") =
      some { objects := ffObjects, refs := [(strB "HEAD", strB "O")],
             index := [(strB "f", strB "b2")], working := [(strB "f", strB "old")] } ∧
    lookupA [(strB "HEAD", strB "O")] (strB "MERGE_HEAD") = none ∧
    checkoutIndex ffObjects [(strB "f", strB "b2")] = some [(strB "f", strB "new")] ∧
    [(strB "f", strB "old")] ≠ [(strB "f", strB "new")] := by
  decide

/- ## Commit serialization lemmas -/

theorem split1_append (k v : Str) (hk : (32 : Nat) ∉ k) :
    split1 (k ++ 32 :: v) = some (k, v) := by
  induction k with
  | nil => simp [split1]
  | cons c cs ih =>
    have hc : c ≠ 32 := fun he => hk (he ▸ List.mem_cons_self _ _)
    have hcs : (32 : Nat) ∉ cs := fun hm => hk (List.mem_cons_of_mem _ hm)
    rw [List.cons_append]
    simp only [split1]
    rw [if_neg hc, ih hcs]
    rfl

theorem split1_tree (v : Str) : split1 (strB "tree " ++ v) = some (strB "tree", v) := by
  have h : strB "tree " ++ v = strB "tree" ++ 32 :: v := by
    have h1 : strB "tree " = strB "tree" ++ [32] := by decide
    rw [h1, List.append_assoc]
    rfl
  rw [h, split1_append _ _ (by decide)]

theorem split1_parent (v : Str) :
    split1 (strB "parent " ++ v) = some (strB "parent", v) := by
  have h : strB "parent " ++ v = strB "parent" ++ 32 :: v := by
    have h1 : strB "parent " = strB "parent" ++ [32] := by decide
    rw [h1, List.append_assoc]
    rfl
  rw [h, split1_append _ _ (by decide)]

theorem splitlinesP_cons_notLB (c : Nat) (rest : Str) (hc : isLB c = false) :
    splitlinesP (c :: rest) =
      match splitlinesP rest with
      | [] => [[c]]
      | p :: ps => (c :: p) :: ps := by
  have hc13 : c ≠ 13 := by
    intro h
    subst h
    simp [isLB] at hc
  match rest with
  | [] => simp [splitlinesP, hc]
  | c2 :: rs =>
    simp only [splitlinesP]
    rw [if_neg (by rintro ⟨h, _⟩; exact hc13 h), if_neg (by simp [hc])]

theorem splitlinesP_cons_LB (c : Nat) (rest : Str) (hch : isLB c = true) (hc13 : c ≠ 13) :
    splitlinesP (c :: rest) = [] :: splitlinesP rest := by
  match rest with
  | [] => simp [splitlinesP, hch]
  | c2 :: rs =>
    simp only [splitlinesP]
    rw [if_neg (by rintro ⟨h, _⟩; exact hc13 h), if_pos hch]

theorem splitlinesP_append_nl (l rest : Str) (hl : noLB l = true) :
    splitlinesP (l ++ 10 :: rest) = l :: splitlinesP rest := by
  induction l with
  | nil =>
    simp only [List.nil_append]
    exact splitlinesP_cons_LB 10 rest (by decide) (by decide)
  | cons c cs ih =>
    have hc : isLB c = false := by
      have := (List.all_eq_true.mp hl) c (List.mem_cons_self _ _)
      simpa using this
    have hcs : noLB cs = true :=
      List.all_eq_true.mpr (fun x hx => (List.all_eq_true.mp hl) x (List.mem_cons_of_mem _ hx))
    rw [List.cons_append, splitlinesP_cons_notLB c _ hc, ih hcs]

theorem splitSep_ne_nil (sep : Nat) (l : Str) : splitSep sep l ≠ [] := by
  cases l with
  | nil => simp [splitSep]
  | cons c rest =>
    by_cases h : c = sep
    · simp [splitSep, h]
    · cases hs : splitSep sep rest <;> simp [splitSep, h, hs]

theorem splitlinesP_msg (m : Str) (hm : msgSafe m = true) :
    splitlinesP (m ++ [10]) = splitSep 10 m := by
  induction m with
  | nil => decide
  | cons c cs ih =>
    have hsafe := List.all_eq_true.mp hm
    have hcs : msgSafe cs = true :=
      List.all_eq_true.mpr (fun x hx => hsafe x (List.mem_cons_of_mem _ hx))
    by_cases hc : c = 10
    · subst hc
      rw [List.cons_append, splitlinesP_cons_LB 10 _ (by decide) (by decide), ih hcs]
      simp [splitSep]
    · have hcLB : isLB c = false := by
        have h := hsafe c (List.mem_cons_self _ _)
        simp at h
        rcases h with h | h
        · exact absurd h hc
        · simpa using h
      rw [List.cons_append, splitlinesP_cons_notLB c _ hcLB, ih hcs]
      have hne := splitSep_ne_nil 10 cs
      cases hs : splitSep 10 cs with
      | nil => exact absurd hs hne
      | cons p ps => simp [splitSep, hc, hs]

theorem joinSep_cons_cons (sep c : Nat) (p : Str) (ps : List Str) :
    joinSep sep ((c :: p) :: ps) = c :: joinSep sep (p :: ps) := by
  cases ps with
  | nil => rfl
  | cons q qs => simp [joinSep]

theorem joinSep_splitSep (sep : Nat) (m : Str) : joinSep sep (splitSep sep m) = m := by
  induction m with
  | nil => rfl
  | cons c cs ih =>
    have hne := splitSep_ne_nil sep cs
    by_cases hc : c = sep
    · cases hs : splitSep sep cs with
      | nil => exact absurd hs hne
      | cons p ps =>
        rw [show splitSep sep (c :: cs) = [] :: splitSep sep cs from by
          simp [splitSep, hc], hs, hc]
        show sep :: joinSep sep (p :: ps) = sep :: cs
        rw [← hs, ih]
    · cases hs : splitSep sep cs with
      | nil => exact absurd hs hne
      | cons p ps =>
        rw [show splitSep sep (c :: cs) = (c :: p) :: ps from by
          simp only [splitSep]; rw [if_neg hc, hs], joinSep_cons_cons, ← hs, ih]

theorem headers_take_drop (hs ms : List Str) (hne : ∀ x ∈ hs, x ≠ []) :
    ((hs ++ [] :: ms).takeWhile (fun l => l ≠ []) = hs) ∧
    (((hs ++ [] :: ms).dropWhile (fun l => l ≠ [])).drop 1 = ms) := by
  induction hs with
  | nil =>
    constructor
    · rw [List.nil_append, List.takeWhile_cons, if_neg (by decide)]
    · rw [List.nil_append, List.dropWhile_cons, if_neg (by decide)]
      rfl
  | cons x xs ih =>
    have hx : x ≠ [] := hne x (List.mem_cons_self _ _)
    have hxs := ih (fun y hy => hne y (List.mem_cons_of_mem _ hy))
    constructor
    · rw [List.cons_append, List.takeWhile_cons, if_pos (decide_eq_true hx), hxs.1]
    · rw [List.cons_append, List.dropWhile_cons, if_pos (decide_eq_true hx), hxs.2]

theorem commitHeaderStep_parents (ps : List Str) :
    ∀ (t : Option Str) (acc : List Str),
      (ps.map (fun p => strB "parent " ++ p)).foldl commitHeaderStep (some (t, acc)) =
        some (t, acc ++ ps) := by
  induction ps with
  | nil => intro t acc; simp
  | cons p ps' ih =>
    intro t acc
    rw [List.map_cons, List.foldl_cons]
    have hstep : commitHeaderStep (some (t, acc)) (strB "parent " ++ p) =
        some (t, acc ++ [p]) := by
      rw [commitHeaderStep]
      simp only [Option.some_bind]
      rw [split1_parent]
      simp [show strB "parent" ≠ strB "tree" from by decide]
    rw [hstep, ih]
    simp

theorem commit_headers_fold (toid : Str) (ps : List Str) :
    ((strB "tree " ++ toid) :: ps.map (fun p => strB "parent " ++ p)).foldl
      commitHeaderStep (some (none, [])) = some (some toid, ps) := by
  rw [List.foldl_cons]
  have hstep : commitHeaderStep (some (none, [])) (strB "tree " ++ toid) =
      some (some toid, []) := by
    rw [commitHeaderStep]
    simp only [Option.some_bind]
    rw [split1_tree]
    simp
  rw [hstep, commitHeaderStep_parents]
  simp

theorem takeWhile_nz (ty rest2 : Str) (h0 : (0 : Nat) ∉ ty) :
    ((ty ++ 0 :: rest2).takeWhile (fun c => c ≠ 0) = ty) ∧
    (((ty ++ 0 :: rest2).dropWhile (fun c => c ≠ 0)).drop 1 = rest2) := by
  induction ty with
  | nil =>
    constructor
    · rw [List.nil_append, List.takeWhile_cons, if_neg (by decide)]
    · rw [List.nil_append, List.dropWhile_cons, if_neg (by decide)]
      rfl
  | cons x xs ih =>
    have hx : x ≠ 0 := fun he => h0 (he ▸ List.mem_cons_self _ _)
    have hxs := ih (fun hm => h0 (List.mem_cons_of_mem _ hm))
    constructor
    · rw [List.cons_append, List.takeWhile_cons, if_pos (decide_eq_true hx), hxs.1]
    · rw [List.cons_append, List.dropWhile_cons, if_pos (decide_eq_true hx), hxs.2]

theorem get_object_parse (store : Store) (oid ty content : Str) (h0 : (0 : Nat) ∉ ty)
    (hl : lookupA store oid = some (ty ++ [0] ++ content)) :
    get_object store oid (some ty) = some content := by
  rw [get_object, hl]
  have h := takeWhile_nz ty content h0
  simp only [ne_eq, decide_not, List.drop_one] at h
  simp [List.append_assoc, h.1, h.2]

theorem oidCharsOK_noLB (v : Str) (h : oidCharsOK v = true) : noLB v = true := by
  apply List.all_eq_true.mpr
  intro c hc
  have hb := List.all_eq_true.mp h c hc
  simp only [Bool.and_eq_true, decide_eq_true_eq] at hb
  simp only [Bool.not_eq_true', isLB]
  simp only [Bool.or_eq_false_iff, decide_eq_false_iff_not]
  omega

theorem splitlinesP_parents (ps : List Str) (rest : Str)
    (hps : ∀ p ∈ ps, noLB p = true) :
    splitlinesP ((ps.flatMap fun p => strB "parent " ++ p ++ [10]) ++ rest) =
      ps.map (fun p => strB "parent " ++ p) ++ splitlinesP rest := by
  induction ps with
  | nil => simp
  | cons p ps' ih =>
    have hp : noLB (strB "parent " ++ p) = true := by
      rw [noLB, List.all_append]
      exact (Bool.and_eq_true _ _).mpr ⟨by decide, hps p (List.mem_cons_self _ _)⟩
    rw [List.flatMap_cons]
    have hassoc : ((strB "parent " ++ p ++ [10]) ++
          ps'.flatMap (fun q => strB "parent " ++ q ++ [10])) ++ rest =
        (strB "parent " ++ p) ++
          10 :: (ps'.flatMap (fun q => strB "parent " ++ q ++ [10]) ++ rest) := by
      simp [List.append_assoc]
    rw [hassoc, splitlinesP_append_nl _ _ hp,
      ih (fun q hq => hps q (List.mem_cons_of_mem _ hq))]
    simp

theorem get_commit_parse (store : Store) (oid toid : Str) (ps : List Str) (msg : Str)
    (hl : lookupA store oid = some (mkCommitObj toid ps msg))
    (htoid : noLB toid = true) (hps : ∀ p ∈ ps, noLB p = true)
    (hmsg : msgSafe msg = true) :
    get_commit store oid = some ⟨toid, ps, msg⟩ := by
  have hobj : get_object store oid (some (strB "commit")) =
      some (commitContent toid ps msg) :=
    get_object_parse store oid (strB "commit") (commitContent toid ps msg) (by decide) hl
  have hnoLB1 : noLB (strB "tree " ++ toid) = true := by
    rw [noLB, List.all_append]
    exact (Bool.and_eq_true _ _).mpr ⟨by decide, htoid⟩
  have hsplit : splitlinesP (commitContent toid ps msg) =
      ((strB "tree " ++ toid) :: ps.map (fun p => strB "parent " ++ p)) ++
        [] :: splitSep 10 msg := by
    have h1 : commitContent toid ps msg =
        (strB "tree " ++ toid) ++
          10 :: ((ps.flatMap fun p => strB "parent " ++ p ++ [10]) ++
            10 :: (msg ++ [10])) := by
      simp [commitContent, List.append_assoc]
    rw [h1, splitlinesP_append_nl _ _ hnoLB1, splitlinesP_parents ps _ hps,
      splitlinesP_cons_LB 10 _ (by decide) (by decide), splitlinesP_msg msg hmsg]
    simp
  have hne : ∀ x ∈ (strB "tree " ++ toid) :: ps.map (fun p => strB "parent " ++ p),
      x ≠ [] := by
    intro x hx
    rcases List.mem_cons.mp hx with rfl | hx'
    · intro h
      have := congrArg List.length h
      simp [strB] at this
    · obtain ⟨p, _, rfl⟩ := List.mem_map.mp hx'
      intro h
      have := congrArg List.length h
      simp [strB] at this
  have htd := headers_take_drop
    ((strB "tree " ++ toid) :: ps.map (fun p => strB "parent " ++ p))
    (splitSep 10 msg) hne
  simp only [get_commit, hobj, hsplit, htd.1, htd.2, commit_headers_fold,
    Option.some_bind, Option.map_some']
  rw [joinSep_splitSep]

/- ## Ref hygiene lemmas for `commit` -/

theorem dropWhile_all_false {α : Type} (p : α → Bool) (l : List α)
    (h : ∀ c ∈ l, p c = false) : l.dropWhile p = l := by
  cases l with
  | nil => rfl
  | cons a rest =>
    rw [List.dropWhile_cons, if_neg (by simp [h a (List.mem_cons_self _ _)])]

theorem pstrip_eq_self (v : Str) (h : oidCharsOK v = true) : pstrip v = v := by
  have hws : ∀ c ∈ v,
      (c ∈ ([9, 10, 11, 12, 13, 28, 29, 30, 32, 133, 160] : List Nat)) = False := by
    intro c hc
    have hb := List.all_eq_true.mp h c hc
    simp only [Bool.and_eq_true, decide_eq_true_eq] at hb
    simp only [List.mem_cons, List.not_mem_nil, or_false, eq_iff_iff, iff_false]
    push_neg
    omega
  have hdrop : ∀ l : Str, (∀ c ∈ l, (c ∈ ([9, 10, 11, 12, 13, 28, 29, 30, 32, 133,
      160] : List Nat)) = False) →
      l.dropWhile (fun c => c ∈ ([9, 10, 11, 12, 13, 28, 29, 30, 32, 133, 160] :
        List Nat)) = l := by
    intro l hl
    apply dropWhile_all_false
    intro c hc
    simp [hl c hc]
  simp only [pstrip]
  rw [hdrop v hws, hdrop v.reverse (fun c hc => hws c (List.mem_reverse.mp hc)),
    List.reverse_reverse]

theorem symTarget_of_oidChars (refs : Refs) (x v : Str)
    (hl : lookupA refs x = some v) (hv : oidCharsOK v = true) :
    symTarget refs x = none := by
  rw [symTarget, hl]
  simp only [Option.map_some']
  rw [pstrip_eq_self v hv]
  rw [if_neg ?hcond]
  case hcond =>
    rintro ⟨hne, hpre⟩
    have hp : strB "ref:" <+: v := by
      exact List.isPrefixOf_iff_prefix.mp hpre
    obtain ⟨t, ht⟩ := hp
    have h58 : (58 : Nat) ∈ v := by
      rw [← ht]
      exact List.mem_append.mpr (Or.inl (by decide))
    have := List.all_eq_true.mp hv 58 h58
    simp at this

theorem lookupA_removeKey_ne {α : Type} (k x : Str) (s : List (Str × α)) (hx : x ≠ k) :
    lookupA (removeKey k s) x = lookupA s x := by
  induction s with
  | nil => rfl
  | cons e rest ih =>
    obtain ⟨k', v⟩ := e
    by_cases hk : k' = k
    · subst hk
      rw [removeKey, if_pos rfl, lookupA, if_neg (fun he => hx he.symm)]
    · rw [removeKey, if_neg hk, lookupA, lookupA]
      by_cases hkx : k' = x
      · simp [hkx]
      · simp [hkx, ih]

theorem lookupA_eq_none_of_not_mem {α : Type} (s : List (Str × α)) (x : Str)
    (h : x ∉ s.map Prod.fst) : lookupA s x = none := by
  induction s with
  | nil => rfl
  | cons e rest ih =>
    obtain ⟨k', v⟩ := e
    simp only [List.map_cons, List.mem_cons] at h
    push_neg at h
    rw [lookupA, if_neg (fun he => h.1 he.symm), ih h.2]

theorem lookupA_removeKey_self {α : Type} (k : Str) (s : List (Str × α))
    (hnd : (s.map Prod.fst).Nodup) : lookupA (removeKey k s) k = none := by
  induction s with
  | nil => rfl
  | cons e rest ih =>
    obtain ⟨k', v⟩ := e
    simp only [List.map_cons, List.nodup_cons] at hnd
    by_cases hk : k' = k
    · subst hk
      rw [removeKey, if_pos rfl]
      exact lookupA_eq_none_of_not_mem rest k' hnd.1
    · rw [removeKey, if_neg hk, lookupA, if_neg hk]
      exact ih hnd.2

theorem symTarget_congr (refs refs' : Refs) (x : Str)
    (h : lookupA refs' x = lookupA refs x) : symTarget refs' x = symTarget refs x := by
  rw [symTarget, symTarget, h]

theorem chainToB_terminal (refs : Refs) :
    ∀ (links : List Str) (r t : Str), chainToB refs r links t = true →
      symTarget refs t = none := by
  intro links
  induction links with
  | nil =>
    intro r t h
    simp only [chainToB, Bool.and_eq_true, decide_eq_true_eq,
      Option.isNone_iff_eq_none] at h
    exact h.1 ▸ h.2
  | cons n rest ih =>
    intro r t h
    simp only [chainToB, Bool.and_eq_true, beq_iff_eq] at h
    exact ih n t h.2

theorem chainToB_last_mem (refs : Refs) :
    ∀ (links : List Str) (r t : Str), chainToB refs r links t = true →
      t ∈ r :: links := by
  intro links
  induction links with
  | nil =>
    intro r t h
    simp only [chainToB, Bool.and_eq_true, decide_eq_true_eq] at h
    simp [h.1]
  | cons n rest ih =>
    intro r t h
    simp only [chainToB, Bool.and_eq_true, beq_iff_eq] at h
    have := ih n t h.2
    rcases List.mem_cons.mp this with rfl | hm
    · simp
    · simp [hm]

theorem chainToB_rebuild (refs refs' : Refs) :
    ∀ (links : List Str) (r t : Str), chainToB refs r links t = true →
      (∀ x, (x = r ∨ x ∈ links) → x ≠ t → symTarget refs' x = symTarget refs x) →
      symTarget refs' t = none →
      chainToB refs' r links t = true := by
  intro links
  induction links with
  | nil =>
    intro r t h hcong hterm
    simp only [chainToB, Bool.and_eq_true, decide_eq_true_eq,
      Option.isNone_iff_eq_none] at h ⊢
    exact ⟨h.1, h.1 ▸ hterm⟩
  | cons n rest ih =>
    intro r t h hcong hterm
    simp only [chainToB, Bool.and_eq_true, beq_iff_eq] at h ⊢
    obtain ⟨hsym, hrest⟩ := h
    have hrt : r ≠ t := by
      intro he
      have hT := chainToB_terminal refs (n :: rest) r t
        (by simp only [chainToB, Bool.and_eq_true, beq_iff_eq]; exact ⟨hsym, hrest⟩)
      rw [← he] at hT
      rw [hT] at hsym
      cases hsym
    refine ⟨?_, ?_⟩
    · rw [hcong r (Or.inl rfl) hrt, hsym]
    · exact ih n t hrest
        (fun x hx hxt => hcong x (by
          rcases hx with rfl | hm
          · exact Or.inr (List.mem_cons_self _ _)
          · exact Or.inr (List.mem_cons_of_mem _ hm)) hxt) hterm

theorem write_tree_oid_shape (h : Str → Str) (index : List (Str × Str)) (store : Store)
    (tw : Str × Store) (hwt : write_tree h index store = some tw) :
    ∃ x, tw.1 = h x := by
  rw [write_tree] at hwt
  cases hb : buildIndexTree index with
  | none => rw [hb] at hwt; cases hwt
  | some d =>
    rw [hb] at hwt
    simp only [Option.map_some'] at hwt
    obtain rfl := (Option.some_inj.mp hwt).symm
    rw [writeTreeRec]
    exact ⟨_, rfl⟩

/- ## C5 -/

/-- C5: `commit(message)` stores a commit object whose tree is the oid
produced by writing the current index as a tree, whose parent list is the
truthy `HEAD` value (resolved through its symbolic chain) followed by the
truthy `MERGE_HEAD` value, and whose message is the given text; it then
points `HEAD` (that is, the terminal ref of its chain) at the new commit oid
and deletes the `MERGE_HEAD` file when one was consumed.  With `HEAD` unset
or empty and no `MERGE_HEAD` — a freshly initialized repository — the parent
list is empty.  (`spec-modelled`: `data.get_index` and `data.delete_ref` are
imported by `base.py` but absent from the provided `data.py`; they are
modelled from §3/§4.2 of the spec as the index component and resolve-determine
then-remove.) -/
theorem commit_spec (h : Str → Str) (st : State) (fuel : Nat) (message : Str)
    (tw : Str × Store) (links : List Str) (hterm : Str)
    (hwt : write_tree h (get_index st) st.objects = some tw)
    (hch : chainToB st.refs (strB "HEAD") links hterm = true)
    (hfl : links.length < fuel)
    (hMn : strB "MERGE_HEAD" ∉ strB "HEAD" :: links)
    (hMsym : symTarget st.refs (strB "MERGE_HEAD") = none)
    (hnd : (st.refs.map Prod.fst).Nodup)
    (hho : ∀ x, oidCharsOK (h x) = true)
    (hvOK : noLB ((refReadValue st.refs hterm).getD []) = true)
    (hmOK : noLB ((refReadValue st.refs (strB "MERGE_HEAD")).getD []) = true)
    (hmsg : msgSafe message = true) :
    commit h st fuel message =
      some (h (strB "commit" ++ [0] ++ commitContent tw.1
          (commitParents (refReadValue st.refs hterm)
            (refReadValue st.refs (strB "MERGE_HEAD"))) message),
        { objects := setv (h (strB "commit" ++ [0] ++ commitContent tw.1
              (commitParents (refReadValue st.refs hterm)
                (refReadValue st.refs (strB "MERGE_HEAD"))) message))
            (strB "commit" ++ [0] ++ commitContent tw.1
              (commitParents (refReadValue st.refs hterm)
                (refReadValue st.refs (strB "MERGE_HEAD"))) message) tw.2,
          refs := setv hterm (h (strB "commit" ++ [0] ++ commitContent tw.1
              (commitParents (refReadValue st.refs hterm)
                (refReadValue st.refs (strB "MERGE_HEAD"))) message))
            (match truthyOpt (refReadValue st.refs (strB "MERGE_HEAD")) with
              | some _ => removeKey (strB "MERGE_HEAD") st.refs
              | none => st.refs),
          index := st.index, working := st.working }) ∧
    get_commit (setv (h (strB "commit" ++ [0] ++ commitContent tw.1
          (commitParents (refReadValue st.refs hterm)
            (refReadValue st.refs (strB "MERGE_HEAD"))) message))
        (strB "commit" ++ [0] ++ commitContent tw.1
          (commitParents (refReadValue st.refs hterm)
            (refReadValue st.refs (strB "MERGE_HEAD"))) message) tw.2)
      (h (strB "commit" ++ [0] ++ commitContent tw.1
          (commitParents (refReadValue st.refs hterm)
            (refReadValue st.refs (strB "MERGE_HEAD"))) message)) =
      some ⟨tw.1, commitParents (refReadValue st.refs hterm)
        (refReadValue st.refs (strB "MERGE_HEAD")), message⟩ ∧
    get_ref (setv hterm (h (strB "commit" ++ [0] ++ commitContent tw.1
        (commitParents (refReadValue st.refs hterm)
          (refReadValue st.refs (strB "MERGE_HEAD"))) message))
        (match truthyOpt (refReadValue st.refs (strB "MERGE_HEAD")) with
          | some _ => removeKey (strB "MERGE_HEAD") st.refs
          | none => st.refs)) true fuel (strB "HEAD") =
      some ⟨false, some (h (strB "commit" ++ [0] ++ commitContent tw.1
        (commitParents (refReadValue st.refs hterm)
          (refReadValue st.refs (strB "MERGE_HEAD"))) message))⟩ ∧
    (truthyOpt (refReadValue st.refs (strB "MERGE_HEAD")) ≠ none →
      lookupA (setv hterm (h (strB "commit" ++ [0] ++ commitContent tw.1
          (commitParents (refReadValue st.refs hterm)
            (refReadValue st.refs (strB "MERGE_HEAD"))) message))
          (match truthyOpt (refReadValue st.refs (strB "MERGE_HEAD")) with
            | some _ => removeKey (strB "MERGE_HEAD") st.refs
            | none => st.refs)) (strB "MERGE_HEAD") = none) := by
  obtain ⟨m, hm⟩ : ∃ m, fuel = m + 1 := ⟨fuel - 1, by omega⟩
  -- resolved reads
  have factH : getRefInternal st.refs true fuel (strB "HEAD") =
      some (hterm, ⟨false, refReadValue st.refs hterm⟩) :=
    getRefInternal_chain st.refs links _ _ fuel hch hfl
  have factHget : get_ref st.refs true fuel (strB "HEAD") =
      some ⟨false, refReadValue st.refs hterm⟩ := by
    rw [get_ref, factH]
    rfl
  have factM : getRefInternal st.refs true fuel (strB "MERGE_HEAD") =
      some (strB "MERGE_HEAD", ⟨false, refReadValue st.refs (strB "MERGE_HEAD")⟩) := by
    rw [hm]
    exact getRefInternal_notSym st.refs true m _ hMsym
  have factMget : get_ref st.refs true fuel (strB "MERGE_HEAD") =
      some ⟨false, refReadValue st.refs (strB "MERGE_HEAD")⟩ := by
    rw [get_ref, factM]
    rfl
  have factDel : delete_ref st.refs true fuel (strB "MERGE_HEAD") =
      some (removeKey (strB "MERGE_HEAD") st.refs) := by
    rw [delete_ref, factM]
    rfl
  -- the terminal ref is a chain node, hence not MERGE_HEAD
  have htermMem : hterm ∈ strB "HEAD" :: links := chainToB_last_mem st.refs links _ _ hch
  have htermNotM : hterm ≠ strB "MERGE_HEAD" := fun he => hMn (he ▸ htermMem)
  -- the digest output is clean
  obtain ⟨xw, hxw⟩ := write_tree_oid_shape h (get_index st) st.objects tw hwt
  have htoidOK : oidCharsOK tw.1 = true := hxw ▸ hho xw
  -- chain survives the MERGE_HEAD removal
  have hch1 : ∀ refs1, (refs1 = st.refs ∨ refs1 = removeKey (strB "MERGE_HEAD") st.refs) →
      chainToB refs1 (strB "HEAD") links hterm = true := by
    rintro refs1 (rfl | rfl)
    · exact hch
    · refine chainToB_rebuild st.refs _ links _ _ hch ?_ ?_
      · intro x hx _
        have hxmem : x ∈ strB "HEAD" :: links := by
          rcases hx with rfl | hm'
          · exact List.mem_cons_self _ _
          · exact List.mem_cons_of_mem _ hm'
        have hxM : x ≠ strB "MERGE_HEAD" := fun hxe => hMn (hxe ▸ hxmem)
        exact symTarget_congr _ _ _ (lookupA_removeKey_ne _ _ _ hxM)
      · rw [symTarget_congr st.refs (removeKey (strB "MERGE_HEAD") st.refs) hterm
          (lookupA_removeKey_ne _ _ _ htermNotM)]
        exact chainToB_terminal st.refs links _ _ hch
  -- chain in the final ref store, with the commit oid at the terminal
  have hch2 : ∀ refs1, (refs1 = st.refs ∨ refs1 = removeKey (strB "MERGE_HEAD") st.refs) →
      ∀ coid, oidCharsOK coid = true →
      chainToB (setv hterm coid refs1) (strB "HEAD") links hterm = true := by
    intro refs1 hr1 coid hcoid
    refine chainToB_rebuild refs1 _ links _ _ (hch1 refs1 hr1) ?_ ?_
    · intro x _ hxt
      exact symTarget_congr _ _ _ (lookupA_setv_ne _ _ _ _ (fun he => hxt he.symm))
    · exact symTarget_of_oidChars _ _ _ (lookupA_setv_self _ _ _) hcoid
  have hupd : ∀ refs1, (refs1 = st.refs ∨ refs1 = removeKey (strB "MERGE_HEAD") st.refs) →
      ∀ coid, oidCharsOK coid = true →
      update_ref refs1 true fuel (strB "HEAD") ⟨false, some coid⟩ =
        some (setv hterm coid refs1) := by
    intro refs1 hr1 coid hcoid
    rw [update_ref, getRefInternal_chain refs1 links _ _ fuel (hch1 refs1 hr1) hfl]
    rfl
  have hgetFinal : ∀ refs1, (refs1 = st.refs ∨ refs1 = removeKey (strB "MERGE_HEAD") st.refs) →
      ∀ coid, oidCharsOK coid = true →
      get_ref (setv hterm coid refs1) true fuel (strB "HEAD") = some ⟨false, some coid⟩ := by
    intro refs1 hr1 coid hcoid
    rw [get_ref, getRefInternal_chain (setv hterm coid refs1) links _ _ fuel
      (hch2 refs1 hr1 coid hcoid) hfl]
    simp [lookupA_setv_self, pstrip_eq_self coid hcoid]
  have hpsOK : ∀ p ∈ commitParents (refReadValue st.refs hterm)
      (refReadValue st.refs (strB "MERGE_HEAD")), noLB p = true := by
    intro p hp
    simp only [commitParents] at hp
    rcases List.mem_append.mp hp with hp1 | hp1
    · cases he : refReadValue st.refs hterm with
      | none => rw [he] at hp1; simp at hp1
      | some v =>
        rw [he] at hp1
        by_cases hve : v = []
        · subst hve
          simp at hp1
        · simp [hve] at hp1
          subst hp1
          have hv2 := hvOK
          rw [he] at hv2
          simpa using hv2
    · cases he : refReadValue st.refs (strB "MERGE_HEAD") with
      | none => rw [he] at hp1; simp at hp1
      | some v =>
        rw [he] at hp1
        by_cases hve : v = []
        · subst hve
          simp at hp1
        · simp [hve] at hp1
          subst hp1
          have hv2 := hmOK
          rw [he] at hv2
          simpa using hv2
  refine ⟨?_, ?_, ?_, ?_⟩
  · -- the computation of commit itself
    have hupdSt : ∀ coid, oidCharsOK coid = true →
        update_ref st.refs true fuel (strB "HEAD") ⟨false, some coid⟩ =
          some (setv hterm coid st.refs) :=
      fun c hc => hupd st.refs (Or.inl rfl) c hc
    have hupdRm : ∀ coid, oidCharsOK coid = true →
        update_ref (removeKey (strB "MERGE_HEAD") st.refs) true fuel (strB "HEAD")
            ⟨false, some coid⟩ =
          some (setv hterm coid (removeKey (strB "MERGE_HEAD") st.refs)) :=
      fun c hc => hupd _ (Or.inr rfl) c hc
    rw [commit, hwt]
    simp only [Option.some_bind]
    rw [factHget]
    simp only [Option.some_bind]
    rw [factMget]
    simp only [Option.some_bind]
    cases hhv : refReadValue st.refs hterm with
    | none =>
      cases hmv : refReadValue st.refs (strB "MERGE_HEAD") with
      | none =>
        simp [hupdSt, hho, hash_object, truthyOpt, commitContent, commitParents, List.append_assoc]
      | some w =>
        by_cases hwe : w = []
        · subst hwe
          simp [hupdSt, hho, hash_object, truthyOpt, commitContent, commitParents, List.append_assoc]
        · simp [hupdSt, hupdRm, factDel, hho, hash_object, truthyOpt, hwe, commitContent,
            commitParents, List.append_assoc]
    | some v =>
      by_cases hve : v = []
      · subst hve
        cases hmv : refReadValue st.refs (strB "MERGE_HEAD") with
        | none =>
          simp [hupdSt, hho, hash_object, truthyOpt, commitContent, commitParents, List.append_assoc]
        | some w =>
          by_cases hwe : w = []
          · subst hwe
            simp [hupdSt, hho, hash_object, truthyOpt, commitContent, commitParents,
              List.append_assoc]
          · simp [hupdSt, hupdRm, factDel, hho, hash_object, truthyOpt, hwe, commitContent,
              commitParents, List.append_assoc]
      · cases hmv : refReadValue st.refs (strB "MERGE_HEAD") with
        | none =>
          simp [hupdSt, hho, hash_object, truthyOpt, hve, commitContent, commitParents,
            List.append_assoc]
        | some w =>
          by_cases hwe : w = []
          · subst hwe
            simp [hupdSt, hho, hash_object, truthyOpt, hve, commitContent, commitParents,
              List.append_assoc]
          · simp [hupdSt, hupdRm, factDel, hho, hash_object, truthyOpt, hve, hwe, commitContent,
              commitParents, List.append_assoc]
  · -- parse-back of the stored commit object
    exact get_commit_parse _ _ _ _ _ (lookupA_setv_self _ _ _)
      (oidCharsOK_noLB _ htoidOK) hpsOK hmsg
  · -- HEAD now resolves to the new commit oid
    cases hmv : refReadValue st.refs (strB "MERGE_HEAD") with
    | none =>
      simp only [truthyOpt]
      exact hgetFinal st.refs (Or.inl rfl) _ (hho _)
    | some w =>
      by_cases hwe : w = []
      · subst hwe
        simpa [truthyOpt] using hgetFinal st.refs (Or.inl rfl) _ (hho _)
      · simp only [truthyOpt, if_pos hwe]
        exact hgetFinal _ (Or.inr rfl) _ (hho _)
  · -- a consumed MERGE_HEAD is gone
    intro htr
    cases hmv : refReadValue st.refs (strB "MERGE_HEAD") with
    | none =>
      rw [hmv] at htr
      simp [truthyOpt] at htr
    | some w =>
      by_cases hwe : w = []
      · subst hwe
        rw [hmv] at htr
        simp [truthyOpt] at htr
      · simp only [truthyOpt, if_pos hwe]
        rw [lookupA_setv_ne _ _ _ _ htermNotM]
        exact lookupA_removeKey_self _ _ hnd

/-- Witness for C5: on a freshly initialized repository with a constant
digest, `commit "first"` succeeds and returns the digest of the commit
object (here the constant oid "x"), with all hypotheses of `commit_spec`
discharged by evaluation. -/
theorem commit_spec_w :
    (commit (fun _ => strB "x") initRepo 10 (strB "first")).map Prod.fst =
      some (strB "x") := by
  rw [(commit_spec (fun _ => strB "x") initRepo 10 (strB "first")
      (strB "x", [(strB "x", strB "tree" ++ [0])]) [strB "refs/heads/master"]
      (strB "refs/heads/master") (by decide) (by decide) (by decide) (by decide)
      (by decide) (by decide)
      (fun _ => (by decide : oidCharsOK (strB "x") = true)) (by decide) (by decide)
      (by decide)).1]
  rfl

/- ## Tree roundtrip: segment-list and assoc-list infrastructure -/

theorem splitSep_seg_no47 (s : Str) : ∀ seg ∈ splitSep 47 s, (47 : Nat) ∉ seg := by
  induction s with
  | nil =>
    intro seg hseg
    simp only [splitSep, List.mem_singleton] at hseg
    simp [hseg]
  | cons c cs ih =>
    intro seg hseg
    by_cases hc : c = 47
    · rw [show splitSep 47 (c :: cs) = [] :: splitSep 47 cs from by
        simp [splitSep, hc]] at hseg
      rcases List.mem_cons.mp hseg with h | h
      · simp [h]
      · exact ih seg h
    · cases hs : splitSep 47 cs with
      | nil => exact absurd hs (splitSep_ne_nil 47 cs)
      | cons p ps =>
        rw [show splitSep 47 (c :: cs) = (c :: p) :: ps from by
          simp only [splitSep]; rw [if_neg hc, hs]] at hseg
        rcases List.mem_cons.mp hseg with h | h
        · subst h
          intro hmem
          rcases List.mem_cons.mp hmem with h47 | h47
          · exact hc h47.symm
          · exact ih p (by rw [hs]; exact List.mem_cons_self _ _) h47
        · exact ih seg (by rw [hs]; exact List.mem_cons_of_mem _ h)

theorem splitSep_no47 (s : Str) (h47 : (47 : Nat) ∉ s) : splitSep 47 s = [s] := by
  induction s with
  | nil => rfl
  | cons c cs ih =>
    have hc : c ≠ 47 := fun he => h47 (he ▸ List.mem_cons_self _ _)
    have hcs := ih (fun hm => h47 (List.mem_cons_of_mem _ hm))
    simp only [splitSep]
    rw [if_neg hc, hcs]

theorem splitSep_append47 (a b : Str) (h47 : (47 : Nat) ∉ a) :
    splitSep 47 (a ++ 47 :: b) = a :: splitSep 47 b := by
  induction a with
  | nil => simp [splitSep]
  | cons c cs ih =>
    have hc : c ≠ 47 := fun he => h47 (he ▸ List.mem_cons_self _ _)
    have hcs := ih (fun hm => h47 (List.mem_cons_of_mem _ hm))
    rw [List.cons_append]
    simp only [splitSep]
    rw [if_neg hc, hcs]

theorem splitSep_inj (a b : Str) (h : splitSep 47 a = splitSep 47 b) : a = b := by
  have ha := joinSep_splitSep 47 a
  rw [h, joinSep_splitSep] at ha
  exact ha.symm

theorem splitSep_joinSep (L : List Str) (hne : L ≠ [])
    (h47 : ∀ seg ∈ L, (47 : Nat) ∉ seg) :
    splitSep 47 (joinSep 47 L) = L := by
  induction L with
  | nil => exact absurd rfl hne
  | cons p ps ih =>
    cases ps with
    | nil => exact splitSep_no47 p (h47 p (List.mem_cons_self _ _))
    | cons q qs =>
      rw [show joinSep 47 (p :: q :: qs) = p ++ 47 :: joinSep 47 (q :: qs) from rfl,
        splitSep_append47 _ _ (h47 p (List.mem_cons_self _ _)),
        ih (by simp) (fun seg hs => h47 seg (List.mem_cons_of_mem _ hs))]

theorem splitSep_cons_cons (q s r : Str) (rs : List Str)
    (h : splitSep 47 q = s :: r :: rs) :
    q = s ++ 47 :: joinSep 47 (r :: rs) ∧
      splitSep 47 (joinSep 47 (r :: rs)) = r :: rs := by
  have hj := joinSep_splitSep 47 q
  rw [h] at hj
  refine ⟨by rw [← hj]; rfl, ?_⟩
  apply splitSep_joinSep _ (by simp)
  intro seg hseg
  exact splitSep_seg_no47 q seg (by rw [h]; exact List.mem_cons_of_mem _ hseg)

theorem stripPre_append (p s : Str) : stripPre p (p ++ s) = some s := by
  induction p with
  | nil => rfl
  | cons c cs ih => simp [stripPre, ih]

theorem stripPre_eq_some (p q s : Str) (h : stripPre p q = some s) : q = p ++ s := by
  induction p generalizing q with
  | nil => simpa [stripPre] using h
  | cons c cs ih =>
    cases q with
    | nil => simp [stripPre] at h
    | cons d ds =>
      simp only [stripPre] at h
      by_cases hcd : c = d
      · rw [if_pos hcd] at h
        subst hcd
        rw [List.cons_append]
        exact congrArg (c :: ·) (ih ds h)
      · rw [if_neg hcd] at h
        exact absurd h (by simp)

theorem lookupA_append_sing_self {α : Type} (d : List (Str × α)) (k : Str) (v : α)
    (hk : lookupA d k = none) : lookupA (d ++ [(k, v)]) k = some v := by
  induction d with
  | nil => simp [lookupA]
  | cons e rest ih =>
    obtain ⟨k', v'⟩ := e
    by_cases hk' : k' = k
    · rw [show lookupA ((k', v') :: rest) k = some v' from by
        simp [lookupA, hk']] at hk
      exact absurd hk (by simp)
    · rw [List.cons_append]
      simp only [lookupA]
      rw [if_neg hk']
      apply ih
      simpa [lookupA, hk'] using hk

theorem lookupA_append_sing_other {α : Type} (d : List (Str × α)) (k x : Str) (v : α)
    (hx : x ≠ k) : lookupA (d ++ [(k, v)]) x = lookupA d x := by
  induction d with
  | nil =>
    simp only [List.nil_append, lookupA]
    rw [if_neg (fun h => hx h.symm)]
  | cons e rest ih =>
    obtain ⟨k', v'⟩ := e
    rw [List.cons_append]
    simp only [lookupA]
    by_cases hk' : k' = x
    · rw [if_pos hk', if_pos hk']
    · rw [if_neg hk', if_neg hk', ih]

theorem setv_append_self {α : Type} (d : List (Str × α)) (k : Str) (v w : α)
    (hk : lookupA d k = none) : setv k v (d ++ [(k, w)]) = d ++ [(k, v)] := by
  induction d with
  | nil => simp [setv]
  | cons e rest ih =>
    obtain ⟨k', v'⟩ := e
    by_cases hk' : k' = k
    · rw [show lookupA ((k', v') :: rest) k = some v' from by
        simp [lookupA, hk']] at hk
      exact absurd hk (by simp)
    · rw [List.cons_append]
      simp only [setv]
      rw [if_neg hk', ih (by simpa [lookupA, hk'] using hk)]
      rfl

theorem nodeAt_nilD (segs : List Str) : nodeAt segs ([] : List (Str × Node)) = none := by
  match segs with
  | [] => rfl
  | [s] => rfl
  | s :: r :: rs => rfl

theorem entsOK_mem_lookupA (f : Nat) (es : List (Str × Node)) (k : Str) (nd : Node)
    (hok : entsOK f es) (hm : (k, nd) ∈ es) : lookupA es k = some nd := by
  induction es with
  | nil => simp at hm
  | cons e rest ih =>
    obtain ⟨k', nd'⟩ := e
    simp only [entsOK] at hok
    obtain ⟨hv, hdist, hn, hrest⟩ := hok
    rcases List.mem_cons.mp hm with h | h
    · cases h
      simp [lookupA]
    · have hne : k ≠ k' := hdist (k, nd) h
      simp only [lookupA]
      rw [if_neg (fun he => hne he.symm)]
      exact ih hrest h

theorem lookupA_eq_find? {α : Type} (l : List (Str × α)) (k : Str) :
    lookupA l k = (l.find? (fun pv => decide (pv.1 = k))).map Prod.snd := by
  induction l with
  | nil => rfl
  | cons e rest ih =>
    obtain ⟨k', v'⟩ := e
    by_cases hk' : k' = k
    · rw [List.find?_cons_of_pos _ (by simpa using hk')]
      simp [lookupA, hk']
    · rw [List.find?_cons_of_neg _ (by simpa using hk')]
      simpa [lookupA, hk'] using ih

theorem find?_congrP {α : Type} (p q : α → Bool) (l : List α)
    (h : ∀ x ∈ l, p x = q x) : l.find? p = l.find? q := by
  induction l with
  | nil => rfl
  | cons a rest ih =>
    by_cases hpa : p a = true
    · rw [List.find?_cons_of_pos _ hpa,
        List.find?_cons_of_pos _ (by rw [← h a (List.mem_cons_self _ _)]; exact hpa)]
    · rw [List.find?_cons_of_neg _ (by simpa using hpa),
        List.find?_cons_of_neg _ (by rw [← h a (List.mem_cons_self _ _)]; simpa using hpa)]
      exact ih (fun x hx => h x (List.mem_cons_of_mem _ hx))

theorem freeFor_nil (rest : List Str) (filename : Str) :
    freeFor ([] : List (Str × Node)) rest filename := by
  cases rest with
  | nil =>
    intro cd h
    simp [lookupA] at h
  | cons dn r => simp [freeFor, lookupA]

theorem nodeAt_one (s : Str) (d : List (Str × Node)) : nodeAt [s] d = lookupA d s := rfl

theorem nodeAt_cons2_dir (s r : Str) (rs : List Str) (d cd : List (Str × Node))
    (h : lookupA d s = some (Node.dir cd)) :
    nodeAt (s :: r :: rs) d = nodeAt (r :: rs) cd := by
  simp only [nodeAt]
  rw [h]

theorem nodeAt_cons2_not_dir (s r : Str) (rs : List Str) (d : List (Str × Node))
    (h : ∀ cd, lookupA d s ≠ some (Node.dir cd)) :
    nodeAt (s :: r :: rs) d = none := by
  cases hl : lookupA d s with
  | none => simp only [nodeAt]
  | some nd =>
    cases nd with
    | blob o => simp only [nodeAt]
    | dir cd => exact absurd hl (h cd)

theorem nodeAt_cons2_lookup (s r : Str) (rs : List Str) (d d' : List (Str × Node))
    (h : lookupA d' s = lookupA d s) :
    nodeAt (s :: r :: rs) d' = nodeAt (s :: r :: rs) d := by
  simp only [nodeAt]
  rw [h]

theorem insertPath_ok (dirpath : List Str) :
    ∀ (d : List (Str × Node)) (filename oid : Str),
      freeFor d dirpath filename →
      ∃ d', insertPath d dirpath filename oid = some d' ∧
        ∀ segs : List Str, segs ≠ [] →
          nodeShape (nodeAt segs d') =
            if segs = dirpath ++ [filename] then some (some oid)
            else if segsLead segs (dirpath ++ [filename]) = true ∧
                segs ≠ dirpath ++ [filename] then some none
            else nodeShape (nodeAt segs d) := by
  induction dirpath with
  | nil =>
    intro d filename oid hfree
    refine ⟨setv filename (Node.blob oid) d, rfl, ?_⟩
    intro segs hne
    simp only [List.nil_append]
    cases segs with
    | nil => exact absurd rfl hne
    | cons s srest =>
      cases srest with
      | nil =>
        rw [nodeAt_one]
        by_cases hs : s = filename
        · subst hs
          rw [lookupA_setv_self, if_pos rfl]
          rfl
        · rw [lookupA_setv_ne _ _ _ _ (fun he => hs he.symm), if_neg (by simp [hs]),
            if_neg (by simp [segsLead, hs]), nodeAt_one]
      | cons r rs =>
        rw [if_neg (by simp), if_neg (by simp [segsLead])]
        by_cases hs : s = filename
        · subst hs
          rw [nodeAt_cons2_not_dir s r rs _ (fun cd hcd => by
            rw [lookupA_setv_self] at hcd
            exact absurd (Option.some.inj hcd) (by simp))]
          rw [nodeAt_cons2_not_dir s r rs d hfree]
        · rw [nodeAt_cons2_lookup s r rs d _ (lookupA_setv_ne _ _ _ _ (fun he => hs he.symm))]
  | cons dn rest ih =>
    intro d filename oid hfree
    cases hdn : lookupA d dn with
    | some nd =>
      cases nd with
      | blob b =>
        exfalso
        have hf := hfree
        simp only [freeFor] at hf
        rw [hdn] at hf
        exact hf
      | dir cd =>
        have hfcd : freeFor cd rest filename := by
          have hf := hfree
          simp only [freeFor] at hf
          rw [hdn] at hf
          exact hf
        obtain ⟨cd', hins, hlook⟩ := ih cd filename oid hfcd
        refine ⟨setv dn (Node.dir cd') d, ?_, ?_⟩
        · simp only [insertPath, setdefaultD, hdn, hins, Option.map_some']
        · intro segs hne
          simp only [List.cons_append]
          cases segs with
          | nil => exact absurd rfl hne
          | cons s srest =>
            cases srest with
            | nil =>
              rw [nodeAt_one]
              by_cases hs : s = dn
              · subst hs
                rw [lookupA_setv_self, if_neg (by simp),
                  if_pos ⟨by simp [segsLead], by simp⟩]
                rfl
              · rw [lookupA_setv_ne _ _ _ _ (fun he => hs he.symm), if_neg (by simp [hs]),
                  if_neg (by simp [segsLead, hs]), nodeAt_one]
            | cons r rs =>
              by_cases hs : s = dn
              · subst hs
                rw [nodeAt_cons2_dir s r rs _ cd' (lookupA_setv_self _ _ _),
                  hlook (r :: rs) (by simp),
                  nodeAt_cons2_dir s r rs d cd hdn]
                by_cases h1 : r :: rs = rest ++ [filename]
                · rw [if_pos h1, if_pos (show s :: r :: rs = s :: (rest ++ [filename])
                    from by rw [h1])]
                · rw [if_neg h1, if_neg (show ¬(s :: r :: rs = s :: (rest ++ [filename]))
                    from by simp [h1])]
                  by_cases h2 : segsLead (r :: rs) (rest ++ [filename]) = true ∧
                      r :: rs ≠ rest ++ [filename]
                  · rw [if_pos h2, if_pos (show
                      segsLead (s :: r :: rs) (s :: (rest ++ [filename])) = true ∧
                        s :: r :: rs ≠ s :: (rest ++ [filename]) from
                      ⟨by simp [segsLead, h2.1], by simp [h1]⟩)]
                  · rw [if_neg h2, if_neg (show
                      ¬(segsLead (s :: r :: rs) (s :: (rest ++ [filename])) = true ∧
                        s :: r :: rs ≠ s :: (rest ++ [filename])) from by
                      intro hcc
                      refine h2 ⟨?_, h1⟩
                      have h' := hcc.1
                      simp only [segsLead, Bool.and_eq_true, decide_eq_true_eq] at h'
                      exact h'.2)]
              · rw [nodeAt_cons2_lookup s r rs d _ (lookupA_setv_ne _ _ _ _ (fun he => hs he.symm)),
                  if_neg (by simp [hs]), if_neg (by
                    intro hcc
                    have h' := hcc.1
                    simp only [segsLead, Bool.and_eq_true, decide_eq_true_eq] at h'
                    exact hs h'.1)]
    | none =>
      obtain ⟨cd', hins, hlook⟩ := ih [] filename oid (freeFor_nil rest filename)
      refine ⟨d ++ [(dn, Node.dir cd')], ?_, ?_⟩
      · simp only [insertPath, setdefaultD, hdn, hins, Option.map_some']
        rw [setv_append_self d dn _ _ hdn]
      · intro segs hne
        simp only [List.cons_append]
        cases segs with
        | nil => exact absurd rfl hne
        | cons s srest =>
          cases srest with
          | nil =>
            rw [nodeAt_one]
            by_cases hs : s = dn
            · subst hs
              rw [lookupA_append_sing_self d s _ hdn, if_neg (by simp),
                if_pos ⟨by simp [segsLead], by simp⟩]
              rfl
            · rw [lookupA_append_sing_other d dn s _ hs, if_neg (by simp [hs]),
                if_neg (by simp [segsLead, hs]), nodeAt_one]
          | cons r rs =>
            by_cases hs : s = dn
            · subst hs
              rw [nodeAt_cons2_dir s r rs _ cd' (lookupA_append_sing_self d s _ hdn),
                hlook (r :: rs) (by simp),
                nodeAt_cons2_not_dir s r rs d (fun cd hcd => by
                  rw [hdn] at hcd
                  exact absurd hcd (by simp))]
              by_cases h1 : r :: rs = rest ++ [filename]
              · rw [if_pos h1, if_pos (show s :: r :: rs = s :: (rest ++ [filename])
                  from by rw [h1])]
              · rw [if_neg h1, if_neg (show ¬(s :: r :: rs = s :: (rest ++ [filename]))
                  from by simp [h1])]
                by_cases h2 : segsLead (r :: rs) (rest ++ [filename]) = true ∧
                    r :: rs ≠ rest ++ [filename]
                · rw [if_pos h2, if_pos (show
                    segsLead (s :: r :: rs) (s :: (rest ++ [filename])) = true ∧
                      s :: r :: rs ≠ s :: (rest ++ [filename]) from
                    ⟨by simp [segsLead, h2.1], by simp [h1]⟩)]
                · rw [if_neg h2, if_neg (show
                    ¬(segsLead (s :: r :: rs) (s :: (rest ++ [filename])) = true ∧
                      s :: r :: rs ≠ s :: (rest ++ [filename])) from by
                    intro hcc
                    refine h2 ⟨?_, h1⟩
                    have h' := hcc.1
                    simp only [segsLead, Bool.and_eq_true, decide_eq_true_eq] at h'
                    exact h'.2)]
                  rw [nodeAt_nilD]
            · rw [nodeAt_cons2_lookup s r rs d _ (lookupA_append_sing_other d dn s _ hs),
                if_neg (by simp [hs]), if_neg (by
                  intro hcc
                  have h' := hcc.1
                  simp only [segsLead, Bool.and_eq_true, decide_eq_true_eq] at h'
                  exact hs h'.1)]

theorem nodeOK_blob (f : Nat) (o : Str) :
    nodeOK f (Node.blob o) = (oidCharsOK o = true) := by
  cases f <;> rw [nodeOK.eq_def]

theorem nodeOK_dir_succ (f : Nat) (es : List (Str × Node)) :
    nodeOK (f + 1) (Node.dir es) = entsOK f es := by
  rw [nodeOK.eq_def]

theorem entsOK_nil (f : Nat) : entsOK f ([] : List (Str × Node)) := by
  rw [entsOK.eq_def]
  trivial

theorem entsOK_lookupA_nodeOK (f : Nat) (es : List (Str × Node)) (k : Str) (nd : Node)
    (hok : entsOK f es) (hl : lookupA es k = some nd) : nodeOK f nd := by
  induction es with
  | nil => simp [lookupA] at hl
  | cons e rest ih =>
    obtain ⟨k', nd'⟩ := e
    simp only [entsOK] at hok
    obtain ⟨hv, hdist, hn, hrest⟩ := hok
    simp only [lookupA] at hl
    by_cases hk : k' = k
    · rw [if_pos hk] at hl
      exact (Option.some.inj hl) ▸ hn
    · rw [if_neg hk] at hl
      exact ih hrest hl

theorem mem_setv {α : Type} (k : Str) (v : α) (l : List (Str × α)) (x : Str × α)
    (hm : x ∈ setv k v l) : x ∈ l ∨ x = (k, v) := by
  induction l with
  | nil => simpa [setv] using hm
  | cons e rest ih =>
    obtain ⟨k', v'⟩ := e
    simp only [setv] at hm
    by_cases hk : k' = k
    · rw [if_pos hk] at hm
      rcases List.mem_cons.mp hm with h | h
      · exact Or.inr h
      · exact Or.inl (List.mem_cons_of_mem _ h)
    · rw [if_neg hk] at hm
      rcases List.mem_cons.mp hm with h | h
      · exact Or.inl (by rw [h]; exact List.mem_cons_self _ _)
      · rcases ih h with h2 | h2
        · exact Or.inl (List.mem_cons_of_mem _ h2)
        · exact Or.inr h2

theorem entsOK_setv (f : Nat) (es : List (Str × Node)) (k : Str) (nd : Node)
    (hok : entsOK f es) (hval : validSeg k = true) (hnd : nodeOK f nd) :
    entsOK f (setv k nd es) := by
  induction es with
  | nil =>
    simp only [setv, entsOK]
    exact ⟨hval, by simp, hnd, trivial⟩
  | cons e rest ih =>
    obtain ⟨k', nd'⟩ := e
    simp only [entsOK] at hok
    obtain ⟨hv, hdist, hn, hrest⟩ := hok
    simp only [setv]
    by_cases hk : k' = k
    · rw [if_pos hk]
      simp only [entsOK]
      exact ⟨hk ▸ hval, fun x hx => hk ▸ hdist x hx, hnd, hrest⟩
    · rw [if_neg hk]
      simp only [entsOK]
      refine ⟨hv, ?_, hn, ih hrest⟩
      intro x hx
      rcases mem_setv k nd rest x hx with h | h
      · exact hdist x h
      · rw [h]
        exact fun he => hk he.symm

theorem entsOK_append_fresh (f : Nat) (es : List (Str × Node)) (k : Str) (nd : Node)
    (hok : entsOK f es) (hfresh : lookupA es k = none) (hval : validSeg k = true)
    (hnd : nodeOK f nd) : entsOK f (es ++ [(k, nd)]) := by
  induction es with
  | nil =>
    simp only [List.nil_append, entsOK]
    exact ⟨hval, by simp, hnd, trivial⟩
  | cons e rest ih =>
    obtain ⟨k', nd'⟩ := e
    simp only [entsOK] at hok
    obtain ⟨hv, hdist, hn, hrest⟩ := hok
    have hk : k' ≠ k := by
      intro he
      rw [show lookupA ((k', nd') :: rest) k = some nd' from by simp [lookupA, he]] at hfresh
      exact absurd hfresh (by simp)
    rw [List.cons_append]
    simp only [entsOK]
    refine ⟨hv, ?_, hn, ih hrest (by simpa [lookupA, hk] using hfresh)⟩
    intro x hx
    rcases List.mem_append.mp hx with h | h
    · exact hdist x h
    · rw [List.mem_singleton.mp h]
      exact fun he => hk he.symm

theorem insertPath_entsOK (dirpath : List Str) :
    ∀ (f : Nat) (d : List (Str × Node)) (filename oid : Str) (d' : List (Str × Node)),
      entsOK f d → (∀ s ∈ dirpath, validSeg s = true) → validSeg filename = true →
      oidCharsOK oid = true → dirpath.length < f →
      insertPath d dirpath filename oid = some d' → entsOK f d' := by
  induction dirpath with
  | nil =>
    intro f d filename oid d' hok hsegs hfn hoid hlen hins
    simp only [insertPath] at hins
    cases hins
    exact entsOK_setv f d filename _ hok hfn (by rw [nodeOK_blob]; exact hoid)
  | cons dn rest ih =>
    intro f d filename oid d' hok hsegs hfn hoid hlen hins
    cases hdn : lookupA d dn with
    | some nd =>
      cases nd with
      | blob b =>
        simp only [insertPath, setdefaultD, hdn] at hins
        exact absurd hins (by simp)
      | dir cd =>
        simp only [insertPath, setdefaultD, hdn] at hins
        cases hrec : insertPath cd rest filename oid with
        | none =>
          rw [hrec] at hins
          simp at hins
        | some cd' =>
          rw [hrec] at hins
          simp only [Option.map_some'] at hins
          cases hins
          obtain ⟨f', rfl⟩ : ∃ f', f = f' + 1 := ⟨f - 1, by omega⟩
          have hcd : nodeOK (f' + 1) (Node.dir cd) :=
            entsOK_lookupA_nodeOK _ _ _ _ hok hdn
          rw [nodeOK_dir_succ] at hcd
          have hcd' : entsOK f' cd' := ih f' cd filename oid cd' hcd
            (fun s hs => hsegs s (List.mem_cons_of_mem _ hs)) hfn hoid
            (by simp only [List.length_cons] at hlen; omega) hrec
          exact entsOK_setv _ _ _ _ hok (hsegs dn (List.mem_cons_self _ _))
            (by rw [nodeOK_dir_succ]; exact hcd')
    | none =>
      simp only [insertPath, setdefaultD, hdn] at hins
      cases hrec : insertPath [] rest filename oid with
      | none =>
        rw [hrec] at hins
        simp at hins
      | some cd' =>
        rw [hrec] at hins
        simp only [Option.map_some'] at hins
        cases hins
        obtain ⟨f', rfl⟩ : ∃ f', f = f' + 1 := ⟨f - 1, by omega⟩
        have hcd' : entsOK f' cd' := ih f' [] filename oid cd' (entsOK_nil f')
          (fun s hs => hsegs s (List.mem_cons_of_mem _ hs)) hfn hoid
          (by simp only [List.length_cons] at hlen; omega) hrec
        rw [setv_append_self d dn _ _ hdn]
        exact entsOK_append_fresh _ _ _ _ hok hdn (hsegs dn (List.mem_cons_self _ _))
          (by rw [nodeOK_dir_succ]; exact hcd')

theorem segsLead_refl (L : List Str) : segsLead L L = true := by
  induction L with
  | nil => rfl
  | cons x xs ih => simp [segsLead, ih]

theorem segsLead_take (L : List Str) : ∀ k : Nat, segsLead (L.take k) L = true := by
  induction L with
  | nil => intro k; simp [segsLead]
  | cons x xs ih =>
    intro k
    cases k with
    | zero => rfl
    | succ k2 =>
      rw [List.take_succ_cons]
      simp [segsLead, ih k2]

theorem sepPaths_pairwise (l : List (Str × Str)) (h : sepPaths l = true) :
    List.Pairwise (fun p q => sibOK p.1 q.1 = true) l := by
  induction l with
  | nil => exact List.Pairwise.nil
  | cons p rest ih =>
    simp only [sepPaths, Bool.and_eq_true] at h
    exact List.Pairwise.cons (fun q hq => List.all_eq_true.mp h.1 q hq) (ih h.2)

theorem foldl_max_ge (l : List (Str × Str)) :
    ∀ m : Nat, m ≤ l.foldl (fun m pv => max m (splitSep 47 pv.1).length) m := by
  induction l with
  | nil => intro m; exact le_refl m
  | cons pv rest ih =>
    intro m
    rw [List.foldl_cons]
    exact le_trans (Nat.le_max_left _ _) (ih _)

theorem foldl_max_mem (l : List (Str × Str)) :
    ∀ (m : Nat) (pv : Str × Str), pv ∈ l →
      (splitSep 47 pv.1).length ≤
        l.foldl (fun m pv => max m (splitSep 47 pv.1).length) m := by
  induction l with
  | nil =>
    intro m pv hm
    simp at hm
  | cons q rest ih =>
    intro m pv hm
    rw [List.foldl_cons]
    rcases List.mem_cons.mp hm with h | h
    · subst h
      exact le_trans (Nat.le_max_right _ _) (foldl_max_ge rest _)
    · exact ih _ pv h

theorem maxSegs_mem (index : List (Str × Str)) (pv : Str × Str) (hm : pv ∈ index) :
    (splitSep 47 pv.1).length ≤ maxSegs index := by
  rw [maxSegs]
  exact foldl_max_mem index 0 pv hm

theorem dropLast_append_getLastD (l : List Str) (hne : l ≠ []) :
    l.dropLast ++ [l.getLastD []] = l := by
  induction l with
  | nil => exact absurd rfl hne
  | cons a l2 ih =>
    cases l2 with
    | nil => rfl
    | cons b l3 =>
      rw [show (a :: b :: l3).dropLast = a :: (b :: l3).dropLast from rfl,
        show (a :: b :: l3).getLastD [] = (b :: l3).getLastD [] from by
          simp [List.getLastD],
        List.cons_append, ih (by simp)]

theorem expectAt_nil (segs : List Str) : expectAt [] segs = none := by
  simp [expectAt]

theorem sibOK_no_lead (a b : Str) (h : sibOK a b = true) :
    segsLead (splitSep 47 a) (splitSep 47 b) = false ∧
      segsLead (splitSep 47 b) (splitSep 47 a) = false := by
  simp only [sibOK, Bool.and_eq_true, Bool.not_eq_true'] at h
  exact h

theorem expectAt_snoc (done : List (Str × Str)) (pv : Str × Str)
    (hsep : ∀ q ∈ done, sibOK q.1 pv.1 = true) (segs : List Str) :
    expectAt (done ++ [pv]) segs =
      if segs = splitSep 47 pv.1 then some (some pv.2)
      else if segsLead segs (splitSep 47 pv.1) = true ∧ segs ≠ splitSep 47 pv.1
        then some none
      else expectAt done segs := by
  have hfd_of : segsLead segs (splitSep 47 pv.1) = true →
      done.find? (fun q => decide (splitSep 47 q.1 = segs)) = none := by
    intro h2
    cases hf : done.find? (fun q => decide (splitSep 47 q.1 = segs)) with
    | none => rfl
    | some q =>
      exfalso
      have heq : splitSep 47 q.1 = segs := by
        have hpq := List.find?_some hf
        simpa using hpq
      have hno := (sibOK_no_lead q.1 pv.1 (hsep q (List.mem_of_find?_eq_some hf))).1
      rw [heq, h2] at hno
      exact Bool.true_eq_false.mp hno
  by_cases h1 : segs = splitSep 47 pv.1
  · have hfd := hfd_of (by rw [h1]; exact segsLead_refl _)
    rw [if_pos h1]
    simp only [expectAt, List.find?_append, hfd, Option.none_or]
    rw [List.find?_cons_of_pos _ (by simp [h1])]
  · rw [if_neg h1]
    have hf1 : List.find? (fun q => decide (splitSep 47 q.1 = segs)) [pv] = none := by
      rw [List.find?_cons_of_neg _ (by simpa using fun he => h1 he.symm)]
      rfl
    by_cases h2 : segsLead segs (splitSep 47 pv.1) = true
    · have hfd := hfd_of h2
      rw [if_pos (⟨h2, h1⟩ :
        segsLead segs (splitSep 47 pv.1) = true ∧ segs ≠ splitSep 47 pv.1)]
      have hA : (done ++ [pv]).any (fun q =>
          segsLead segs (splitSep 47 q.1) && decide (segs ≠ splitSep 47 q.1)) = true := by
        rw [List.any_append,
          show [pv].any (fun q =>
            segsLead segs (splitSep 47 q.1) && decide (segs ≠ splitSep 47 q.1)) = true
          from by simp [h2, h1], Bool.or_true]
      simp only [expectAt, List.find?_append, hfd, hf1, Option.none_or, hA]
      rfl
    · have hl : segsLead segs (splitSep 47 pv.1) = false := by
        cases hx : segsLead segs (splitSep 47 pv.1) with
        | false => rfl
        | true => exact absurd hx h2
      have hA1 : [pv].any (fun q =>
          segsLead segs (splitSep 47 q.1) && decide (segs ≠ splitSep 47 q.1)) = false := by
        simp [hl]
      rw [if_neg (fun hc => h2 hc.1)]
      simp only [expectAt, List.find?_append, hf1, Option.or_none, List.any_append,
        hA1, Bool.or_false]

theorem nodeAt_cons_dir (s : Str) (X : List Str) (hX : X ≠ [])
    (d cd : List (Str × Node)) (h : lookupA d s = some (Node.dir cd)) :
    nodeAt (s :: X) d = nodeAt X cd := by
  cases X with
  | nil => exact absurd rfl hX
  | cons r rs => exact nodeAt_cons2_dir s r rs d cd h

theorem freeFor_of_shapes (dp : List Str) :
    ∀ (d : List (Str × Node)) (fn : Str),
      (∀ k : Nat, 1 ≤ k → k ≤ dp.length →
        ∀ o : Str, nodeShape (nodeAt (dp.take k) d) ≠ some (some o)) →
      nodeShape (nodeAt (dp ++ [fn]) d) ≠ some none →
      freeFor d dp fn := by
  induction dp with
  | nil =>
    intro d fn _ hfin
    intro cd hcd
    apply hfin
    rw [List.nil_append, nodeAt_one, hcd]
    rfl
  | cons dn rest ih =>
    intro d fn hmid hfin
    simp only [freeFor]
    cases hdn : lookupA d dn with
    | none => trivial
    | some nd =>
      cases nd with
      | blob b =>
        exact hmid 1 (le_refl 1) (by simp) b (by
          rw [show (dn :: rest).take 1 = [dn] from rfl, nodeAt_one, hdn]
          rfl)
      | dir cd =>
        apply ih cd fn
        · intro k hk1 hk2 o hsh
          refine hmid (k + 1) (by omega) (by simp only [List.length_cons]; omega) o ?_
          rw [show (dn :: rest).take (k + 1) = dn :: rest.take k from rfl,
            nodeAt_cons_dir dn _ (by
              intro htk
              have hlen := congrArg List.length htk
              rw [List.length_take, Nat.min_eq_left hk2] at hlen
              simp at hlen
              omega) d cd hdn]
          exact hsh
        · intro hsh
          refine hfin ?_
          rw [List.cons_append, nodeAt_cons_dir dn _ (by simp) d cd hdn]
          exact hsh

theorem expectAt_eq_blob (done : List (Str × Str)) (segs : List Str) (o : Str)
    (h : expectAt done segs = some (some o)) :
    ∃ q ∈ done, splitSep 47 q.1 = segs := by
  cases hf : done.find? (fun q => decide (splitSep 47 q.1 = segs)) with
  | some q =>
    refine ⟨q, List.mem_of_find?_eq_some hf, ?_⟩
    have := List.find?_some hf
    simpa using this
  | none =>
    exfalso
    simp only [expectAt, hf] at h
    split_ifs at h
    simp at h

theorem expectAt_eq_dir (done : List (Str × Str)) (segs : List Str)
    (h : expectAt done segs = some none) :
    ∃ q ∈ done, segsLead segs (splitSep 47 q.1) = true := by
  cases hf : done.find? (fun q => decide (splitSep 47 q.1 = segs)) with
  | some q =>
    exfalso
    simp only [expectAt, hf] at h
    simp at h
  | none =>
    simp only [expectAt, hf] at h
    split_ifs at h with ha
    obtain ⟨q, hq, hAq⟩ := List.any_eq_true.mp ha
    refine ⟨q, hq, ?_⟩
    exact ((Bool.and_eq_true _ _).mp hAq).1

theorem buildIndexTree_go (todo : List (Str × Str)) :
    ∀ (done : List (Str × Str)) (d : List (Str × Node)) (F : Nat),
      (∀ pv ∈ todo, validPathB pv.1 = true) →
      (∀ pv ∈ todo, oidCharsOK pv.2 = true) →
      (∀ pv ∈ todo, (splitSep 47 pv.1).length ≤ F) →
      List.Pairwise (fun p q => sibOK p.1 q.1 = true) (done ++ todo) →
      entsOK F d →
      (∀ segs : List Str, segs ≠ [] → nodeShape (nodeAt segs d) = expectAt done segs) →
      ∃ d', todo.foldl (fun acc pv => acc.bind fun dd =>
          let parts := splitSep 47 pv.1
          insertPath dd parts.dropLast (parts.getLastD []) pv.2) (some d) = some d' ∧
        entsOK F d' ∧
        ∀ segs : List Str, segs ≠ [] →
          nodeShape (nodeAt segs d') = expectAt (done ++ todo) segs := by
  induction todo with
  | nil =>
    intro done d F _ _ _ _ hok hshape
    refine ⟨d, rfl, hok, ?_⟩
    intro segs hne
    rw [List.append_nil]
    exact hshape segs hne
  | cons pv todo2 ih =>
    intro done d F hvalid hoids hmax hpw hok hshape
    have hp : splitSep 47 pv.1 ≠ [] := splitSep_ne_nil 47 pv.1
    have hsplit : (splitSep 47 pv.1).dropLast ++ [(splitSep 47 pv.1).getLastD []] =
        splitSep 47 pv.1 := dropLast_append_getLastD _ hp
    have hpw3 := (List.pairwise_append.mp hpw).2.2
    have hsepdone : ∀ q ∈ done, sibOK q.1 pv.1 = true :=
      fun q hq => hpw3 q hq pv (List.mem_cons_self _ _)
    have hvp : ∀ s ∈ splitSep 47 pv.1, validSeg s = true :=
      List.all_eq_true.mp (hvalid pv (List.mem_cons_self _ _))
    have htk : ∀ k : Nat, k ≤ (splitSep 47 pv.1).dropLast.length →
        (splitSep 47 pv.1).dropLast.take k = (splitSep 47 pv.1).take k := by
      intro k hk
      rw [List.dropLast_eq_take, List.take_take]
      congr 1
      rw [List.dropLast_eq_take, List.length_take] at hk
      omega
    have hfree : freeFor d (splitSep 47 pv.1).dropLast ((splitSep 47 pv.1).getLastD []) := by
      apply freeFor_of_shapes
      · intro k hk1 hk2 o hsh
        have hne : (splitSep 47 pv.1).dropLast.take k ≠ [] := by
          intro he
          have := congrArg List.length he
          rw [List.length_take, Nat.min_eq_left hk2] at this
          simp at this
          omega
        rw [hshape _ hne] at hsh
        obtain ⟨q, hq, hqe⟩ := expectAt_eq_blob _ _ _ hsh
        have hlead : segsLead (splitSep 47 q.1) (splitSep 47 pv.1) = true := by
          rw [hqe, htk k hk2]
          exact segsLead_take _ k
        have := (sibOK_no_lead q.1 pv.1 (hsepdone q hq)).1
        rw [hlead] at this
        exact Bool.true_eq_false.mp this
      · intro hsh
        rw [hsplit, hshape _ hp] at hsh
        obtain ⟨q, hq, hqlead⟩ := expectAt_eq_dir _ _ hsh
        have := (sibOK_no_lead q.1 pv.1 (hsepdone q hq)).2
        rw [hqlead] at this
        exact Bool.true_eq_false.mp this
    obtain ⟨d₁, hins, hlook⟩ :=
      insertPath_ok (splitSep 47 pv.1).dropLast d ((splitSep 47 pv.1).getLastD []) pv.2 hfree
    simp only [hsplit] at hlook
    have hlen1 : (splitSep 47 pv.1).dropLast.length + 1 = (splitSep 47 pv.1).length := by
      have := congrArg List.length hsplit
      simpa using this
    have hok1 : entsOK F d₁ := by
      apply insertPath_entsOK _ F d _ _ _ hok _ _ (hoids pv (List.mem_cons_self _ _)) _ hins
      · intro s hs
        exact hvp s (by rw [← hsplit]; exact List.mem_append_left _ hs)
      · refine hvp _ ?_
        nth_rewrite 1 [← hsplit]
        exact List.mem_append_right _ (List.mem_cons_self _ _)
      · have := hmax pv (List.mem_cons_self _ _)
        omega
    have hshape1 : ∀ segs : List Str, segs ≠ [] →
        nodeShape (nodeAt segs d₁) = expectAt (done ++ [pv]) segs := by
      intro segs hne
      rw [hlook segs hne, expectAt_snoc done pv hsepdone segs]
      by_cases hc1 : segs = splitSep 47 pv.1
      · rw [if_pos hc1, if_pos hc1]
      · rw [if_neg hc1, if_neg hc1]
        by_cases hc2 : segsLead segs (splitSep 47 pv.1) = true ∧ segs ≠ splitSep 47 pv.1
        · rw [if_pos hc2, if_pos hc2]
        · rw [if_neg hc2, if_neg hc2, hshape segs hne]
    have happ : (done ++ [pv]) ++ todo2 = done ++ pv :: todo2 := by simp
    obtain ⟨d', hfold, hok', hshape'⟩ := ih (done ++ [pv]) d₁ F
      (fun q hq => hvalid q (List.mem_cons_of_mem _ hq))
      (fun q hq => hoids q (List.mem_cons_of_mem _ hq))
      (fun q hq => hmax q (List.mem_cons_of_mem _ hq))
      (by rw [happ]; exact hpw) hok1 hshape1
    refine ⟨d', ?_, hok', ?_⟩
    · rw [List.foldl_cons]
      simp only [Option.some_bind]
      rw [hins]
      exact hfold
    · intro segs hne
      rw [← happ]
      exact hshape' segs hne

theorem buildIndexTree_correct (index : List (Str × Str))
    (hvalid : ∀ pv ∈ index, validPathB pv.1 = true)
    (hoids : ∀ pv ∈ index, oidCharsOK pv.2 = true)
    (hsep : sepPaths index = true) :
    ∃ d, buildIndexTree index = some d ∧ entsOK (maxSegs index) d ∧
      ∀ segs : List Str, segs ≠ [] →
        nodeShape (nodeAt segs d) = expectAt index segs := by
  obtain ⟨d, hfold, hok, hshape⟩ := buildIndexTree_go index [] [] (maxSegs index)
    hvalid hoids (fun pv hm => maxSegs_mem index pv hm)
    (by simpa using sepPaths_pairwise index hsep) (entsOK_nil _)
    (fun segs hne => by rw [nodeAt_nilD, expectAt_nil]; rfl)
  refine ⟨d, ?_, hok, fun segs hne => by simpa using hshape segs hne⟩
  rw [buildIndexTree]
  exact hfold

theorem pathLook_eq_lookupA (index : List (Str × Str)) (d : List (Str × Node))
    (hshape : ∀ segs : List Str, segs ≠ [] →
      nodeShape (nodeAt segs d) = expectAt index segs)
    (p : Str) : pathLook d p = lookupA index p := by
  have hs := hshape (splitSep 47 p) (splitSep_ne_nil 47 p)
  have hfind : index.find? (fun q => decide (splitSep 47 q.1 = splitSep 47 p)) =
      index.find? (fun q => decide (q.1 = p)) :=
    find?_congrP _ _ index (fun q _ => decide_eq_decide.mpr
      ⟨fun h => splitSep_inj _ _ h, fun h => by rw [h]⟩)
  rw [pathLook, lookupA_eq_find?, ← hfind]
  cases hn : nodeAt (splitSep 47 p) d with
  | none =>
    rw [hn] at hs
    cases hf : index.find? (fun q => decide (splitSep 47 q.1 = splitSep 47 p)) with
    | none => rfl
    | some q =>
      exfalso
      simp only [expectAt, hf, nodeShape] at hs
      exact absurd hs (by simp)
  | some nd =>
    rw [hn] at hs
    cases nd with
    | blob o =>
      simp only [nodeShape] at hs
      cases hf : index.find? (fun q => decide (splitSep 47 q.1 = splitSep 47 p)) with
      | none =>
        exfalso
        simp only [expectAt, hf] at hs
        split_ifs at hs
        all_goals simp at hs
      | some q =>
        simp only [expectAt, hf] at hs
        simp only [Option.map_some']
        exact Option.some.inj hs
    | dir cd =>
      simp only [nodeShape] at hs
      cases hf : index.find? (fun q => decide (splitSep 47 q.1 = splitSep 47 p)) with
      | none => rfl
      | some q =>
        exfalso
        simp only [expectAt, hf] at hs
        simp at hs

theorem ordInsert_perm {α : Type} (le : α → α → Bool) (a : α) (l : List α) :
    List.Perm (ordInsert le a l) (a :: l) := by
  induction l with
  | nil => exact List.Perm.refl _
  | cons b l2 ih =>
    rw [ordInsert]
    by_cases hle : le a b = true
    · rw [if_pos hle]
    · rw [if_neg hle]
      exact List.Perm.trans (List.Perm.cons b ih) (List.Perm.swap a b l2)

theorem insSort_perm {α : Type} (le : α → α → Bool) (l : List α) :
    List.Perm (insSort le l) l := by
  induction l with
  | nil => exact List.Perm.refl _
  | cons a l2 ih =>
    rw [insSort]
    exact List.Perm.trans (ordInsert_perm le a (insSort le l2)) (List.Perm.cons a ih)

theorem setv_map_fst_nodup {α : Type} (k : Str) (v : α) (l : List (Str × α))
    (h : (l.map Prod.fst).Nodup) : ((setv k v l).map Prod.fst).Nodup := by
  induction l with
  | nil => simp [setv]
  | cons e rest ih =>
    obtain ⟨k', v'⟩ := e
    simp only [List.map_cons, List.nodup_cons] at h
    simp only [setv]
    by_cases hk : k' = k
    · rw [if_pos hk]
      simp only [List.map_cons, List.nodup_cons]
      exact ⟨hk ▸ h.1, h.2⟩
    · rw [if_neg hk]
      simp only [List.map_cons, List.nodup_cons]
      refine ⟨?_, ih h.2⟩
      intro hmem
      obtain ⟨x, hx, hxk⟩ := List.mem_map.mp hmem
      rcases mem_setv k v rest x hx with h2 | h2
      · exact h.1 (List.mem_map.mpr ⟨x, h2, hxk⟩)
      · rw [h2] at hxk
        exact hk hxk.symm

theorem lookupA_foldl_setv {α : Type} (sub : List (Str × α)) :
    ∀ (r : List (Str × α)) (q : Str),
      (sub.map Prod.fst).Nodup →
      lookupA (sub.foldl (fun acc pv => setv pv.1 pv.2 acc) r) q =
        (lookupA sub q).or (lookupA r q) := by
  induction sub with
  | nil =>
    intro r q _
    simp [lookupA]
  | cons e sub2 ih =>
    intro r q hnd
    obtain ⟨k, v⟩ := e
    simp only [List.map_cons, List.nodup_cons] at hnd
    rw [List.foldl_cons]
    rw [ih (setv k v r) q hnd.2]
    simp only [lookupA]
    by_cases hk : k = q
    · subst hk
      rw [if_pos rfl]
      rw [lookupA_eq_none_of_not_mem sub2 k hnd.1]
      rw [lookupA_setv_self]
      rfl
    · rw [if_neg hk]
      rw [lookupA_setv_ne _ _ _ _ hk]

theorem foldl_setv_map_fst_nodup {α : Type} (sub : List (Str × α)) :
    ∀ r : List (Str × α), (r.map Prod.fst).Nodup →
      (((sub.foldl (fun acc pv => setv pv.1 pv.2 acc) r)).map Prod.fst).Nodup := by
  induction sub with
  | nil =>
    intro r hr
    exact hr
  | cons e sub2 ih =>
    intro r hr
    rw [List.foldl_cons]
    exact ih _ (setv_map_fst_nodup _ _ _ hr)

theorem oidCharsOK_no_space (v : Str) (h : oidCharsOK v = true) : (32 : Nat) ∉ v := by
  intro hm
  have := List.all_eq_true.mp h 32 hm
  simp at this

theorem noLB_append (a b : Str) (ha : noLB a = true) (hb : noLB b = true) :
    noLB (a ++ b) = true := by
  simp only [noLB, List.all_append, Bool.and_eq_true]
  exact ⟨ha, hb⟩

theorem noLB_cons_32 (b : Str) (hb : noLB b = true) : noLB (32 :: b) = true := by
  simp only [noLB, List.all_cons, Bool.and_eq_true]
  exact ⟨by decide, hb⟩

theorem tree_lines_split (L : List (Str × Str × Str))
    (hok : ∀ t ∈ L, ((32 : Nat) ∉ t.2.2 ∧ noLB t.2.2 = true) ∧
      ((32 : Nat) ∉ t.2.1 ∧ noLB t.2.1 = true) ∧ noLB t.1 = true) :
    splitlinesP (L.flatMap (fun t => t.2.2 ++ [32] ++ t.2.1 ++ [32] ++ t.1 ++ [10])) =
      L.map (fun t => t.2.2 ++ 32 :: (t.2.1 ++ 32 :: t.1)) := by
  induction L with
  | nil => rfl
  | cons t L2 ih =>
    rw [List.flatMap_cons, List.map_cons]
    have hline : t.2.2 ++ [32] ++ t.2.1 ++ [32] ++ t.1 ++ [10] ++
        L2.flatMap (fun t => t.2.2 ++ [32] ++ t.2.1 ++ [32] ++ t.1 ++ [10]) =
        (t.2.2 ++ 32 :: (t.2.1 ++ 32 :: t.1)) ++ 10 ::
        L2.flatMap (fun t => t.2.2 ++ [32] ++ t.2.1 ++ [32] ++ t.1 ++ [10]) := by
      simp [List.append_assoc]
    rw [hline, splitlinesP_append_nl _ _ ?hnl, ih (fun x hx => hok x (List.mem_cons_of_mem _ hx))]
    case hnl =>
      obtain ⟨⟨_, h1⟩, ⟨_, h2⟩, h3⟩ := hok t (List.mem_cons_self _ _)
      exact noLB_append _ _ h1 (noLB_cons_32 _ (noLB_append _ _ h2 (noLB_cons_32 _ h3)))

theorem tree_lines_mapM (L : List (Str × Str × Str))
    (hok : ∀ t ∈ L, (32 : Nat) ∉ t.2.2 ∧ (32 : Nat) ∉ t.2.1) :
    (L.map (fun t => t.2.2 ++ 32 :: (t.2.1 ++ 32 :: t.1))).mapM split2 =
      some (L.map (fun t => (t.2.2, t.2.1, t.1))) := by
  induction L with
  | nil => rfl
  | cons t L2 ih =>
    rw [List.map_cons, List.map_cons, List.mapM_cons]
    obtain ⟨h1, h2⟩ := hok t (List.mem_cons_self _ _)
    have hs2 : split2 (t.2.2 ++ 32 :: (t.2.1 ++ 32 :: t.1)) = some (t.2.2, t.2.1, t.1) := by
      rw [split2, split1_append _ _ h1]
      simp only [Option.some_bind]
      rw [split1_append _ _ h2]
      rfl
    rw [hs2, ih (fun x hx => hok x (List.mem_cons_of_mem _ hx))]
    rfl

theorem wtStep_blob (h : Str → Str) (fuel : Nat) (acc : List (Str × Str × Str) × Store)
    (k oid : Str) :
    wtStep h fuel acc (k, Node.blob oid) = (acc.1 ++ [(k, oid, strB "blob")], acc.2) := rfl

theorem wtStep_dir (h : Str → Str) (fuel : Nat) (acc : List (Str × Str × Str) × Store)
    (k : Str) (cd : List (Str × Node)) :
    wtStep h fuel acc (k, Node.dir cd) =
      (acc.1 ++ [(k, (writeTreeRec h fuel cd acc.2).1, strB "tree")],
        (writeTreeRec h fuel cd acc.2).2) := rfl

theorem writeTreeRec_succ (h : Str → Str) (fuel : Nat) (es : List (Str × Node))
    (store : Store) :
    writeTreeRec h (fuel + 1) es store =
      hash_object h (es.foldl (wtStep h fuel) ([], store)).2
        ((insSort leEntry (es.foldl (wtStep h fuel) ([], store)).1).flatMap
          (fun t => t.2.2 ++ [32] ++ t.2.1 ++ [32] ++ t.1 ++ [10])) (strB "tree") := rfl

theorem lookupA_mem {α : Type} (l : List (Str × α)) (k : Str) (v : α)
    (h : lookupA l k = some v) : (k, v) ∈ l := by
  induction l with
  | nil => simp [lookupA] at h
  | cons e rest ih =>
    obtain ⟨k', v'⟩ := e
    simp only [lookupA] at h
    by_cases hk : k' = k
    · rw [if_pos hk] at h
      subst hk
      rw [Option.some.injEq] at h
      subst h
      exact List.mem_cons_self _ _
    · rw [if_neg hk] at h
      exact List.mem_cons_of_mem _ (ih h)

theorem writerFold (h : Str → Str) (fuel : Nat)
    (hho : ∀ x, oidCharsOK (h x) = true)
    (IH : ∀ (cd : List (Str × Node)) (st : Store), nodeOK fuel (Node.dir cd) →
      (∀ kv ∈ st, kv.1 = h kv.2) →
      (∀ kv ∈ (writeTreeRec h fuel cd st).2, kv.1 = h kv.2) ∧
      (∀ k2 v2, lookupA st k2 = some v2 →
        lookupA (writeTreeRec h fuel cd st).2 k2 = some v2) ∧
      (∃ x, (writeTreeRec h fuel cd st).1 = h x) ∧
      (∀ store2 : Store, (∀ kv ∈ store2, kv.1 = h kv.2) →
        (∀ k2 v2, lookupA (writeTreeRec h fuel cd st).2 k2 = some v2 →
          lookupA store2 k2 = some v2) →
        ∀ gfuel : Nat, fuel ≤ gfuel + 1 → ∀ bp : Str,
          ∃ sub, get_tree store2 (gfuel + 1) (writeTreeRec h fuel cd st).1 bp = some sub ∧
            (sub.map Prod.fst).Nodup ∧
            ∀ q, lookupA sub q = (stripPre bp q).bind (pathLook cd))) :
    ∀ (es : List (Str × Node)) (ents0 : List (Str × Str × Str)) (st0 : Store),
      entsOK fuel es →
      (∀ kv ∈ st0, kv.1 = h kv.2) →
      (∀ kv ∈ (es.foldl (wtStep h fuel) (ents0, st0)).2, kv.1 = h kv.2) ∧
      (∀ k2 v2, lookupA st0 k2 = some v2 →
        lookupA (es.foldl (wtStep h fuel) (ents0, st0)).2 k2 = some v2) ∧
      ∃ ents1, (es.foldl (wtStep h fuel) (ents0, st0)).1 = ents0 ++ ents1 ∧
        ents1.map (fun t => t.1) = es.map Prod.fst ∧
        ∀ t ∈ ents1, validSeg t.1 = true ∧ oidCharsOK t.2.1 = true ∧
          ∃ nd, lookupA es t.1 = some nd ∧
            ((t.2.2 = strB "blob" ∧ nd = Node.blob t.2.1) ∨
             (t.2.2 = strB "tree" ∧ ∃ cd, nd = Node.dir cd ∧
               ∀ store2 : Store, (∀ kv ∈ store2, kv.1 = h kv.2) →
                 (∀ k2 v2,
                   lookupA (es.foldl (wtStep h fuel) (ents0, st0)).2 k2 = some v2 →
                   lookupA store2 k2 = some v2) →
                 ∀ gfuel : Nat, fuel ≤ gfuel + 1 → ∀ bp : Str,
                   ∃ sub, get_tree store2 (gfuel + 1) t.2.1 bp = some sub ∧
                     (sub.map Prod.fst).Nodup ∧
                     ∀ q, lookupA sub q = (stripPre bp q).bind (pathLook cd))) := by
  intro es
  induction es with
  | nil =>
    intro ents0 st0 _ htag
    exact ⟨htag, fun k2 v2 hv => hv, [], by simp, rfl, by simp⟩
  | cons e es2 ihe =>
    intro ents0 st0 hok htag0
    obtain ⟨k, nd⟩ := e
    simp only [entsOK] at hok
    obtain ⟨hv, hdist, hnode, hrest⟩ := hok
    cases nd with
    | blob oid =>
      have hoid : oidCharsOK oid = true := by
        rw [nodeOK_blob] at hnode
        exact hnode
      simp only [List.foldl_cons, wtStep_blob]
      obtain ⟨hA, hB, ents1', he1, hnames, hfacts⟩ :=
        ihe (ents0 ++ [(k, oid, strB "blob")]) st0 hrest htag0
      refine ⟨hA, hB, (k, oid, strB "blob") :: ents1', ?_, ?_, ?_⟩
      · rw [he1, List.append_assoc]
        rfl
      · simp [hnames]
      · intro t ht
        rcases List.mem_cons.mp ht with hte | ht2
        · subst hte
          refine ⟨hv, hoid, Node.blob oid, by simp [lookupA], Or.inl ⟨rfl, rfl⟩⟩
        · obtain ⟨hv', hoid', nd', hlk, hprop⟩ := hfacts t ht2
          have hne : t.1 ≠ k := hdist (t.1, nd') (lookupA_mem _ _ _ hlk)
          refine ⟨hv', hoid', nd', ?_, hprop⟩
          simp only [lookupA]
          rw [if_neg (fun he => hne he.symm)]
          exact hlk
    | dir cd =>
      obtain ⟨htag1, hpres01, ⟨x, hx⟩, hGT⟩ := IH cd st0 hnode htag0
      simp only [List.foldl_cons, wtStep_dir]
      obtain ⟨hA, hB, ents1', he1, hnames, hfacts⟩ :=
        ihe (ents0 ++ [(k, (writeTreeRec h fuel cd st0).1, strB "tree")])
          (writeTreeRec h fuel cd st0).2 hrest htag1
      refine ⟨hA, fun k2 v2 hv2 => hB k2 v2 (hpres01 k2 v2 hv2),
        (k, (writeTreeRec h fuel cd st0).1, strB "tree") :: ents1', ?_, ?_, ?_⟩
      · rw [he1, List.append_assoc]
        rfl
      · simp [hnames]
      · intro t ht
        rcases List.mem_cons.mp ht with hte | ht2
        · subst hte
          refine ⟨hv, by rw [hx]; exact hho x, Node.dir cd, by simp [lookupA],
            Or.inr ⟨rfl, cd, rfl, ?_⟩⟩
          intro store2 htag2 hext g2 hg2 bp
          exact hGT store2 htag2
            (fun k2 v2 hv2 => hext k2 v2 (hB k2 v2 hv2)) g2 hg2 bp
        · obtain ⟨hv', hoid', nd', hlk, hprop⟩ := hfacts t ht2
          have hne : t.1 ≠ k := hdist (t.1, nd') (lookupA_mem _ _ _ hlk)
          refine ⟨hv', hoid', nd', ?_, hprop⟩
          simp only [lookupA]
          rw [if_neg (fun he => hne he.symm)]
          exact hlk

theorem validSeg_parts (s : Str) (h : validSeg s = true) :
    s ≠ [] ∧ s ≠ [46] ∧ s ≠ [46, 46] ∧ (47 : Nat) ∉ s ∧ noLB s = true := by
  simp only [validSeg, Bool.and_eq_true, decide_eq_true_eq] at h
  obtain ⟨⟨⟨h1, h2⟩, h3⟩, h4⟩ := h
  refine ⟨h1, h2, h3, ?_, ?_⟩
  · intro hm
    have := List.all_eq_true.mp h4 47 hm
    simp at this
  · apply List.all_eq_true.mpr
    intro c hc
    have := List.all_eq_true.mp h4 c hc
    simp only [Bool.and_eq_true] at this
    exact this.2

theorem semUnion_nil_of_none (es : List (Str × Node)) (bp : Str) (q : Str)
    (L : List (Str × Str × Str)) (hall : ∀ p ∈ L, entrySem es bp p q = none) :
    semUnion es bp L q = none := by
  induction L with
  | nil => rfl
  | cons p L2 ih =>
    rw [semUnion, List.foldr_cons]
    rw [show L2.foldr (fun p acc => acc.or (entrySem es bp p q)) none =
      semUnion es bp L2 q from rfl]
    rw [ih (fun p2 h2 => hall p2 (List.mem_cons_of_mem _ h2)),
      hall p (List.mem_cons_self _ _)]
    rfl

theorem getTreeFold (store2 : Store) (g2 : Nat) (bp : Str) (es : List (Str × Node)) :
    ∀ (L : List (Str × Str × Str)) (r0 : List (Str × Str)),
      (∀ p ∈ L, validSeg p.2.2 = true ∧
        ∃ nd, lookupA es p.2.2 = some nd ∧
          ((p.1 = strB "blob" ∧ nd = Node.blob p.2.1) ∨
           (p.1 = strB "tree" ∧ ∃ cd, nd = Node.dir cd ∧
             ∃ sub, get_tree store2 g2 p.2.1 (bp ++ p.2.2 ++ [47]) = some sub ∧
               (sub.map Prod.fst).Nodup ∧
               ∀ q, lookupA sub q =
                 (stripPre (bp ++ p.2.2 ++ [47]) q).bind (pathLook cd)))) →
      (r0.map Prod.fst).Nodup →
      ∃ r, L.foldl (fun acc ent =>
          acc.bind fun result =>
            if 47 ∈ ent.2.2 then none
            else if ent.2.2 = [46, 46] ∨ ent.2.2 = [46] then none
            else
              let path := bp ++ ent.2.2
              if ent.1 = strB "blob" then some (setv path ent.2.1 result)
              else if ent.1 = strB "tree" then
                (get_tree store2 g2 ent.2.1 (path ++ [47])).map fun sub =>
                  sub.foldl (fun r pv => setv pv.1 pv.2 r) result
              else none) (some r0) = some r ∧
        (r.map Prod.fst).Nodup ∧
        ∀ q, lookupA r q = (semUnion es bp L q).or (lookupA r0 q) := by
  intro L
  induction L with
  | nil =>
    intro r0 _ hnd0
    refine ⟨r0, rfl, hnd0, fun q => ?_⟩
    rw [semUnion]
    simp
  | cons p L2 ih =>
    intro r0 hprops hnd0
    obtain ⟨hvseg, nd, hlk, hcase⟩ := hprops p (List.mem_cons_self _ _)
    obtain ⟨hne, hdot1, hdot2, h47, _⟩ := validSeg_parts _ hvseg
    rw [List.foldl_cons]
    rcases hcase with ⟨htype, hndb⟩ | ⟨htype, cd, hndd, sub, hsub, hsubnd, hsubmap⟩
    · rw [show ((some r0).bind fun result =>
          if 47 ∈ p.2.2 then none
          else if p.2.2 = [46, 46] ∨ p.2.2 = [46] then none
          else
            let path := bp ++ p.2.2
            if p.1 = strB "blob" then some (setv path p.2.1 result)
            else if p.1 = strB "tree" then
              (get_tree store2 g2 p.2.1 (path ++ [47])).map fun sub =>
                sub.foldl (fun r pv => setv pv.1 pv.2 r) result
            else none) = some (setv (bp ++ p.2.2) p.2.1 r0) from by
        rw [Option.some_bind, if_neg h47,
          if_neg (show ¬(p.2.2 = [46, 46] ∨ p.2.2 = [46]) from by
            push_neg
            exact ⟨hdot2, hdot1⟩), if_pos htype]]
      obtain ⟨r, hfold, hrnd, hmap⟩ := ih (setv (bp ++ p.2.2) p.2.1 r0)
        (fun p2 h2 => hprops p2 (List.mem_cons_of_mem _ h2))
        (setv_map_fst_nodup _ _ _ hnd0)
      have hr1 : ∀ q, lookupA (setv (bp ++ p.2.2) p.2.1 r0) q =
          (entrySem es bp p q).or (lookupA r0 q) := by
        intro q
        rw [entrySem, if_pos htype]
        by_cases hq : q = bp ++ p.2.2
        · subst hq
          rw [lookupA_setv_self, if_pos rfl]
          rfl
        · rw [lookupA_setv_ne _ _ _ _ (fun he => hq he.symm), if_neg hq]
          rfl
      refine ⟨r, hfold, hrnd, fun q => ?_⟩
      rw [hmap q, hr1 q, show semUnion es bp (p :: L2) q =
        (semUnion es bp L2 q).or (entrySem es bp p q) from rfl, Option.or_assoc]
    · have htyne : ¬(p.1 = strB "blob") := by
        rw [htype]
        decide
      rw [show ((some r0).bind fun result =>
          if 47 ∈ p.2.2 then none
          else if p.2.2 = [46, 46] ∨ p.2.2 = [46] then none
          else
            let path := bp ++ p.2.2
            if p.1 = strB "blob" then some (setv path p.2.1 result)
            else if p.1 = strB "tree" then
              (get_tree store2 g2 p.2.1 (path ++ [47])).map fun sub =>
                sub.foldl (fun r pv => setv pv.1 pv.2 r) result
            else none) = some (sub.foldl (fun r pv => setv pv.1 pv.2 r) r0) from by
        rw [Option.some_bind, if_neg h47,
          if_neg (show ¬(p.2.2 = [46, 46] ∨ p.2.2 = [46]) from by
            push_neg
            exact ⟨hdot2, hdot1⟩), if_neg htyne, if_pos htype, hsub,
          Option.map_some']]
      obtain ⟨r, hfold, hrnd, hmap⟩ := ih (sub.foldl (fun r pv => setv pv.1 pv.2 r) r0)
        (fun p2 h2 => hprops p2 (List.mem_cons_of_mem _ h2))
        (foldl_setv_map_fst_nodup sub r0 hnd0)
      have hr1 : ∀ q, lookupA (sub.foldl (fun r pv => setv pv.1 pv.2 r) r0) q =
          (entrySem es bp p q).or (lookupA r0 q) := by
        intro q
        rw [lookupA_foldl_setv sub r0 q hsubnd, hsubmap q, entrySem, if_neg htyne]
        simp only [hlk, hndd]
      refine ⟨r, hfold, hrnd, fun q => ?_⟩
      rw [hmap q, hr1 q, show semUnion es bp (p :: L2) q =
        (semUnion es bp L2 q).or (entrySem es bp p q) from rfl, Option.or_assoc]

theorem entrySem_none_of_nostrip (es : List (Str × Node)) (bp q : Str)
    (p : Str × Str × Str) (hsp : stripPre bp q = none) :
    entrySem es bp p q = none := by
  rw [entrySem]
  by_cases ht : p.1 = strB "blob"
  · rw [if_pos ht]
    rw [if_neg (show ¬(q = bp ++ p.2.2) from by
      intro he
      rw [he, stripPre_append] at hsp
      exact absurd hsp (by simp))]
  · rw [if_neg ht]
    cases hsp2 : stripPre (bp ++ p.2.2 ++ [47]) q with
    | none => rfl
    | some sfx2 =>
      exfalso
      have hq := stripPre_eq_some _ _ _ hsp2
      rw [hq, show bp ++ p.2.2 ++ [47] ++ sfx2 = bp ++ (p.2.2 ++ 47 :: sfx2) from by
        simp [List.append_assoc], stripPre_append] at hsp
      exact absurd hsp (by simp)

theorem entrySem_ne_head (es : List (Str × Node)) (bp q sfx : Str)
    (p : Str × Str × Str) (s : Str) (rest : List Str)
    (hq : q = bp ++ sfx) (hss : splitSep 47 sfx = s :: rest)
    (hvseg : validSeg p.2.2 = true) (hne : p.2.2 ≠ s) :
    entrySem es bp p q = none := by
  have h47 := (validSeg_parts _ hvseg).2.2.2.1
  rw [entrySem]
  by_cases ht : p.1 = strB "blob"
  · rw [if_pos ht]
    rw [if_neg (show ¬(q = bp ++ p.2.2) from by
      intro he
      rw [hq] at he
      have hsfx := List.append_cancel_left he
      rw [hsfx, splitSep_no47 _ h47] at hss
      exact hne (List.head_eq_of_cons_eq hss.symm).symm)]
  · rw [if_neg ht]
    cases hsp2 : stripPre (bp ++ p.2.2 ++ [47]) q with
    | none => rfl
    | some sfx2 =>
      exfalso
      have hq2 := stripPre_eq_some _ _ _ hsp2
      rw [hq, show bp ++ p.2.2 ++ [47] ++ sfx2 = bp ++ (p.2.2 ++ 47 :: sfx2) from by
        simp [List.append_assoc]] at hq2
      have hsfx := List.append_cancel_left hq2
      rw [hsfx, splitSep_append47 _ _ h47] at hss
      exact hne (List.head_eq_of_cons_eq hss)

theorem semUnion_eq_pathLook (es : List (Str × Node)) (bp : Str) :
    ∀ (L : List (Str × Str × Str)),
      (∀ p ∈ L, validSeg p.2.2 = true ∧ ∃ nd, lookupA es p.2.2 = some nd ∧
        ((p.1 = strB "blob" ∧ nd = Node.blob p.2.1) ∨
         (p.1 = strB "tree" ∧ ∃ cd, nd = Node.dir cd))) →
      (L.map (fun p => p.2.2)).Nodup →
      (∀ k2 nd2, lookupA es k2 = some nd2 → ∃ p ∈ L, p.2.2 = k2) →
      ∀ q, semUnion es bp L q = (stripPre bp q).bind (pathLook es) := by
  intro L hprops hnames hcover q
  cases hsp : stripPre bp q with
  | none =>
    simp only [Option.none_bind]
    exact semUnion_nil_of_none es bp q L
      (fun p hp => entrySem_none_of_nostrip es bp q p hsp)
  | some sfx =>
    simp only [Option.some_bind]
    have hq := stripPre_eq_some _ _ _ hsp
    cases hss : splitSep 47 sfx with
    | nil => exact absurd hss (splitSep_ne_nil _ _)
    | cons s rest =>
      cases hlk : lookupA es s with
      | none =>
        have hR : pathLook es sfx = none := by
          rw [pathLook, hss]
          cases rest with
          | nil =>
            rw [nodeAt_one, hlk]
          | cons r rs =>
            rw [nodeAt_cons2_not_dir _ _ _ _ (fun cd hcd => by
              rw [hlk] at hcd
              exact absurd hcd (by simp))]
        rw [hR]
        apply semUnion_nil_of_none
        intro p hp
        obtain ⟨hvseg, nd', hlk', _⟩ := hprops p hp
        refine entrySem_ne_head es bp q sfx p s rest hq hss hvseg ?_
        intro he
        rw [he, hlk] at hlk'
        exact absurd hlk' (by simp)
      | some nd =>
        obtain ⟨p0, hp0mem, hp0name⟩ := hcover s nd hlk
        clear hcover
        induction L with
        | nil => simp at hp0mem
        | cons p L2 ihL =>
          rw [show semUnion es bp (p :: L2) q =
            (semUnion es bp L2 q).or (entrySem es bp p q) from rfl]
          obtain ⟨hvseg, nd', hlk', hcase⟩ := hprops p (List.mem_cons_self _ _)
          have h47p := (validSeg_parts _ hvseg).2.2.2.1
          simp only [List.map_cons, List.nodup_cons] at hnames
          by_cases hpname : p.2.2 = s
          · have hL2 : semUnion es bp L2 q = none := by
              apply semUnion_nil_of_none
              intro p2 hp2
              obtain ⟨hvseg2, nd2', hlk2', _⟩ := hprops p2 (List.mem_cons_of_mem _ hp2)
              refine entrySem_ne_head es bp q sfx p2 s rest hq hss hvseg2 ?_
              intro he2
              exact hnames.1 (by
                rw [hpname, ← he2]
                exact List.mem_map.mpr ⟨p2, hp2, rfl⟩)
            rw [hL2, Option.none_or]
            rw [hpname] at hlk'
            rw [hlk] at hlk'
            have hnd' : nd' = nd := Option.some.inj hlk'.symm
            rcases hcase with ⟨htype, hndb⟩ | ⟨htype, cd, hndd⟩
            · -- blob entry at the head segment
              rw [entrySem, if_pos htype]
              cases rest with
              | nil =>
                have hsfx : sfx = s := by
                  have hj := joinSep_splitSep 47 sfx
                  rw [hss] at hj
                  exact hj.symm
                rw [if_pos (by rw [hq, hsfx, hpname])]
                rw [pathLook, hss, nodeAt_one, hlk, ← hnd', hndb]
              | cons r rs =>
                rw [if_neg (show ¬(q = bp ++ p.2.2) from by
                  intro he
                  rw [hq] at he
                  have hsfx := List.append_cancel_left he
                  rw [hsfx, splitSep_no47 _ h47p] at hss
                  have := congrArg List.length hss
                  simp at this)]
                rw [pathLook, hss, nodeAt_cons2_not_dir _ _ _ _ (fun cd2 hcd2 => by
                  rw [hlk, ← hnd', hndb] at hcd2
                  exact absurd (Option.some.inj hcd2) (by simp))]
            · -- tree entry at the head segment
              rw [entrySem, if_neg (by rw [htype]; decide)]
              rw [show (fun sfx2 =>
                  match lookupA es p.2.2 with
                  | some (Node.dir cd) => pathLook cd sfx2
                  | _ => none) = fun sfx2 => pathLook cd sfx2 from by
                rw [hpname, hlk, ← hnd', hndd]]
              cases rest with
              | nil =>
                have hsfx : sfx = s := by
                  have hj := joinSep_splitSep 47 sfx
                  rw [hss] at hj
                  exact hj.symm
                rw [show stripPre (bp ++ p.2.2 ++ [47]) q = none from by
                  cases hx : stripPre (bp ++ p.2.2 ++ [47]) q with
                  | none => rfl
                  | some t =>
                    exfalso
                    have h2 := stripPre_eq_some _ _ _ hx
                    rw [hq, hsfx, hpname, show bp ++ s ++ [47] ++ t =
                      bp ++ (s ++ 47 :: t) from by simp [List.append_assoc]] at h2
                    have h3 := List.append_cancel_left h2
                    have := congrArg List.length h3
                    simp at this]
                rw [pathLook, hss, nodeAt_one, hlk, ← hnd', hndd]
                rfl
              | cons r rs =>
                obtain ⟨hsfx, htl⟩ := splitSep_cons_cons sfx s r rs hss
                rw [show stripPre (bp ++ p.2.2 ++ [47]) q =
                    some (joinSep 47 (r :: rs)) from by
                  rw [hq, hsfx, hpname, show bp ++ (s ++ 47 :: joinSep 47 (r :: rs)) =
                    (bp ++ s ++ [47]) ++ joinSep 47 (r :: rs) from by
                    simp [List.append_assoc]]
                  exact stripPre_append _ _]
                simp only [Option.some_bind]
                rw [pathLook, htl, pathLook, hss,
                  nodeAt_cons2_dir s r rs es cd (by rw [hlk, ← hnd', hndd])]
          · have hp0 : p0 ∈ L2 := by
              rcases List.mem_cons.mp hp0mem with he | he
              · exact absurd (by rw [← he]; exact hp0name) hpname
              · exact he
            rw [entrySem_ne_head es bp q sfx p s rest hq hss hvseg hpname,
              Option.or_none]
            exact ihL (fun p2 hp2 => hprops p2 (List.mem_cons_of_mem _ hp2))
              hnames.2 hp0

theorem nodeOK_dir_pos (fuel : Nat) (cd : List (Str × Node))
    (h : nodeOK fuel (Node.dir cd)) : 1 ≤ fuel := by
  cases fuel with
  | zero =>
    rw [nodeOK.eq_def] at h
    exact absurd h (by simp)
  | succ f => omega

theorem entsOK_names_nodup (f : Nat) (es : List (Str × Node)) (hok : entsOK f es) :
    (es.map Prod.fst).Nodup := by
  induction es with
  | nil => exact List.nodup_nil
  | cons e rest ih =>
    obtain ⟨k, nd⟩ := e
    simp only [entsOK] at hok
    obtain ⟨_, hdist, _, hrest⟩ := hok
    simp only [List.map_cons, List.nodup_cons]
    refine ⟨?_, ih hrest⟩
    intro hmem
    obtain ⟨x, hx, hxk⟩ := List.mem_map.mp hmem
    exact hdist x hx hxk

theorem setv_tagged_preserve (h : Str → Str) (hinj : ∀ x y, h x = h y → x = y)
    (st : Store) (htag : ∀ kv ∈ st, kv.1 = h kv.2) (obj : Str) :
    ∀ k2 v2, lookupA st k2 = some v2 → lookupA (setv (h obj) obj st) k2 = some v2 := by
  intro k2 v2 hv
  by_cases hk : k2 = h obj
  · subst hk
    have hmem := lookupA_mem _ _ _ hv
    have htagv := htag _ hmem
    have : v2 = obj := hinj v2 obj htagv.symm
    subst this
    exact lookupA_setv_self _ _ _
  · rw [lookupA_setv_ne _ _ _ _ (fun he => hk he.symm)]
    exact hv

theorem wtr_step (h : Str → Str) (hinj : ∀ x y, h x = h y → x = y)
    (hho : ∀ x, oidCharsOK (h x) = true) (hne : ∀ x, h x ≠ []) (fuel : Nat)
    (IH : ∀ (cd : List (Str × Node)) (st : Store), nodeOK fuel (Node.dir cd) →
      (∀ kv ∈ st, kv.1 = h kv.2) →
      (∀ kv ∈ (writeTreeRec h fuel cd st).2, kv.1 = h kv.2) ∧
      (∀ k2 v2, lookupA st k2 = some v2 →
        lookupA (writeTreeRec h fuel cd st).2 k2 = some v2) ∧
      (∃ x, (writeTreeRec h fuel cd st).1 = h x) ∧
      (∀ store2 : Store, (∀ kv ∈ store2, kv.1 = h kv.2) →
        (∀ k2 v2, lookupA (writeTreeRec h fuel cd st).2 k2 = some v2 →
          lookupA store2 k2 = some v2) →
        ∀ gfuel : Nat, fuel ≤ gfuel + 1 → ∀ bp : Str,
          ∃ sub, get_tree store2 (gfuel + 1) (writeTreeRec h fuel cd st).1 bp = some sub ∧
            (sub.map Prod.fst).Nodup ∧
            ∀ q, lookupA sub q = (stripPre bp q).bind (pathLook cd))) :
    ∀ (es : List (Str × Node)) (store : Store),
      entsOK fuel es →
      (∀ kv ∈ store, kv.1 = h kv.2) →
      (∀ kv ∈ (writeTreeRec h (fuel + 1) es store).2, kv.1 = h kv.2) ∧
      (∀ k2 v2, lookupA store k2 = some v2 →
        lookupA (writeTreeRec h (fuel + 1) es store).2 k2 = some v2) ∧
      (∃ x, (writeTreeRec h (fuel + 1) es store).1 = h x) ∧
      (∀ store2 : Store, (∀ kv ∈ store2, kv.1 = h kv.2) →
        (∀ k2 v2, lookupA (writeTreeRec h (fuel + 1) es store).2 k2 = some v2 →
          lookupA store2 k2 = some v2) →
        ∀ gfuel : Nat, fuel + 1 ≤ gfuel + 1 → ∀ bp : Str,
          ∃ r, get_tree store2 (gfuel + 1) (writeTreeRec h (fuel + 1) es store).1 bp =
              some r ∧
            (r.map Prod.fst).Nodup ∧
            ∀ q, lookupA r q = (stripPre bp q).bind (pathLook es)) := by
  intro es store hok htag
  obtain ⟨htagS, hpresS, ents1, hents1raw, hnames1, hfacts1⟩ :=
    writerFold h fuel hho IH es [] store hok htag
  have hents1 : (es.foldl (wtStep h fuel) ([], store)).1 = ents1 := by
    simpa using hents1raw
  rw [writeTreeRec_succ, hents1]
  simp only [hash_object]
  refine ⟨?_, ?_, ⟨_, rfl⟩, ?_⟩
  · intro kv hkv
    rcases mem_setv _ _ _ _ hkv with hm | hm
    · exact htagS kv hm
    · rw [hm]
  · intro k2 v2 hv
    exact setv_tagged_preserve h hinj _ htagS _ k2 v2 (hpresS k2 v2 hv)
  · intro store2 htag2 hext gfuel hgf bp
    have hOIDst2 : lookupA store2
        (h (strB "tree" ++ [0] ++ (insSort leEntry ents1).flatMap
          (fun t => t.2.2 ++ [32] ++ t.2.1 ++ [32] ++ t.1 ++ [10]))) =
        some (strB "tree" ++ [0] ++ (insSort leEntry ents1).flatMap
          (fun t => t.2.2 ++ [32] ++ t.2.1 ++ [32] ++ t.1 ++ [10])) :=
      hext _ _ (lookupA_setv_self _ _ _)
    have hgo : get_object store2
        (h (strB "tree" ++ [0] ++ (insSort leEntry ents1).flatMap
          (fun t => t.2.2 ++ [32] ++ t.2.1 ++ [32] ++ t.1 ++ [10])))
        (some (strB "tree")) =
        some ((insSort leEntry ents1).flatMap
          (fun t => t.2.2 ++ [32] ++ t.2.1 ++ [32] ++ t.1 ++ [10])) :=
      get_object_parse _ _ _ _ (by decide) hOIDst2
    have hmemSL : ∀ t ∈ insSort leEntry ents1, t ∈ ents1 :=
      fun t ht => (insSort_perm leEntry ents1).mem_iff.mp ht
    have hlineOK : ∀ t ∈ insSort leEntry ents1,
        ((32 : Nat) ∉ t.2.2 ∧ noLB t.2.2 = true) ∧
        ((32 : Nat) ∉ t.2.1 ∧ noLB t.2.1 = true) ∧ noLB t.1 = true := by
      intro t ht
      obtain ⟨hv, hoid, nd, hlk, hcase⟩ := hfacts1 t (hmemSL t ht)
      have hname := (validSeg_parts _ hv).2.2.2.2
      refine ⟨?_, ⟨oidCharsOK_no_space _ hoid, oidCharsOK_noLB _ hoid⟩, hname⟩
      rcases hcase with ⟨hty, _⟩ | ⟨hty, _⟩ <;> rw [hty] <;> exact ⟨by decide, by decide⟩
    have hiter : iterTreeEntries store2
        (h (strB "tree" ++ [0] ++ (insSort leEntry ents1).flatMap
          (fun t => t.2.2 ++ [32] ++ t.2.1 ++ [32] ++ t.1 ++ [10]))) =
        some ((insSort leEntry ents1).map (fun t => (t.2.2, t.2.1, t.1))) := by
      rw [iterTreeEntries, if_neg (hne _), hgo]
      show (splitlinesP ((insSort leEntry ents1).flatMap
          (fun t => t.2.2 ++ [32] ++ t.2.1 ++ [32] ++ t.1 ++ [10]))).mapM split2 = _
      rw [tree_lines_split (insSort leEntry ents1) hlineOK,
        tree_lines_mapM (insSort leEntry ents1)
          (fun t ht => ⟨(hlineOK t ht).1.1, (hlineOK t ht).2.1.1⟩)]
    have hpresFD : ∀ k2 v2,
        lookupA (es.foldl (wtStep h fuel) ([], store)).2 k2 = some v2 →
        lookupA store2 k2 = some v2 := by
      intro k2 v2 hv
      exact hext k2 v2 (setv_tagged_preserve h hinj _ htagS _ k2 v2 hv)
    have hprops : ∀ p ∈ (insSort leEntry ents1).map (fun t => (t.2.2, t.2.1, t.1)),
        validSeg p.2.2 = true ∧
        ∃ nd, lookupA es p.2.2 = some nd ∧
          ((p.1 = strB "blob" ∧ nd = Node.blob p.2.1) ∨
           (p.1 = strB "tree" ∧ ∃ cd, nd = Node.dir cd ∧
             ∃ sub, get_tree store2 gfuel p.2.1 (bp ++ p.2.2 ++ [47]) = some sub ∧
               (sub.map Prod.fst).Nodup ∧
               ∀ q, lookupA sub q =
                 (stripPre (bp ++ p.2.2 ++ [47]) q).bind (pathLook cd))) := by
      intro p hp
      obtain ⟨t, ht, hpt⟩ := List.mem_map.mp hp
      subst hpt
      obtain ⟨hv, hoid, nd, hlk, hcase⟩ := hfacts1 t (hmemSL t ht)
      refine ⟨hv, nd, hlk, ?_⟩
      rcases hcase with ⟨hty, hb⟩ | ⟨hty, cd, hd, hcond⟩
      · exact Or.inl ⟨hty, hb⟩
      · refine Or.inr ⟨hty, cd, hd, ?_⟩
        have hf1 : 1 ≤ fuel := by
          have hnode : nodeOK fuel (Node.dir cd) := by
            rw [← hd]
            exact entsOK_lookupA_nodeOK _ _ _ _ hok hlk
          exact nodeOK_dir_pos _ _ hnode
        obtain ⟨g', hg'⟩ : ∃ g', gfuel = g' + 1 := ⟨gfuel - 1, by omega⟩
        rw [hg']
        exact hcond store2 htag2 hpresFD g' (by omega) _
    obtain ⟨r, hfold, hrnd, hmap⟩ := getTreeFold store2 gfuel bp es
      ((insSort leEntry ents1).map (fun t => (t.2.2, t.2.1, t.1))) [] hprops
      (by simp)
    refine ⟨r, ?_, hrnd, ?_⟩
    · simp only [get_tree]
      rw [hiter]
      exact hfold
    · have hnamesL : (((insSort leEntry ents1).map (fun t => (t.2.2, t.2.1, t.1))).map
          (fun p => p.2.2)) = (insSort leEntry ents1).map (fun t => t.1) := by
        simp [List.map_map]
      have hnodupL : (((insSort leEntry ents1).map (fun t => (t.2.2, t.2.1, t.1))).map
          (fun p => p.2.2)).Nodup := by
        rw [hnamesL]
        have hperm : List.Perm ((insSort leEntry ents1).map (fun t => t.1))
            (ents1.map (fun t => t.1)) := (insSort_perm leEntry ents1).map _
        refine hperm.nodup_iff.mpr ?_
        rw [hnames1]
        exact entsOK_names_nodup _ _ hok
      have hcover : ∀ k2 nd2, lookupA es k2 = some nd2 →
          ∃ p ∈ (insSort leEntry ents1).map (fun t => (t.2.2, t.2.1, t.1)),
            p.2.2 = k2 := by
        intro k2 nd2 hlk2
        have hkmem : k2 ∈ es.map Prod.fst :=
          List.mem_map.mpr ⟨(k2, nd2), lookupA_mem _ _ _ hlk2, rfl⟩
        rw [← hnames1] at hkmem
        obtain ⟨t, ht, htk⟩ := List.mem_map.mp hkmem
        refine ⟨(t.2.2, t.2.1, t.1), List.mem_map.mpr
          ⟨t, (insSort_perm leEntry ents1).mem_iff.mpr ht, rfl⟩, htk⟩
      intro q
      rw [hmap q]
      rw [semUnion_eq_pathLook es bp _
        (fun p hp => ⟨(hprops p hp).1, (hprops p hp).2.choose,
          (hprops p hp).2.choose_spec.1, ?_⟩) hnodupL hcover q]
      · rw [show lookupA ([] : List (Str × Str)) q = none from rfl]
        exact Option.or_none
      · rcases (hprops p hp).2.choose_spec.2 with ⟨hty, hb⟩ | ⟨hty, cd, hd, _⟩
        · exact Or.inl ⟨hty, hb⟩
        · exact Or.inr ⟨hty, cd, hd⟩

theorem wtr_correct (h : Str → Str) (hinj : ∀ x y, h x = h y → x = y)
    (hho : ∀ x, oidCharsOK (h x) = true) (hne : ∀ x, h x ≠ []) :
    ∀ (fuel : Nat) (es : List (Str × Node)) (store : Store),
      entsOK fuel es →
      (∀ kv ∈ store, kv.1 = h kv.2) →
      (∀ kv ∈ (writeTreeRec h (fuel + 1) es store).2, kv.1 = h kv.2) ∧
      (∀ k2 v2, lookupA store k2 = some v2 →
        lookupA (writeTreeRec h (fuel + 1) es store).2 k2 = some v2) ∧
      (∃ x, (writeTreeRec h (fuel + 1) es store).1 = h x) ∧
      (∀ store2 : Store, (∀ kv ∈ store2, kv.1 = h kv.2) →
        (∀ k2 v2, lookupA (writeTreeRec h (fuel + 1) es store).2 k2 = some v2 →
          lookupA store2 k2 = some v2) →
        ∀ gfuel : Nat, fuel + 1 ≤ gfuel + 1 → ∀ bp : Str,
          ∃ r, get_tree store2 (gfuel + 1) (writeTreeRec h (fuel + 1) es store).1 bp =
              some r ∧
            (r.map Prod.fst).Nodup ∧
            ∀ q, lookupA r q = (stripPre bp q).bind (pathLook es)) := by
  intro fuel
  induction fuel with
  | zero =>
    exact wtr_step h hinj hho hne 0 (fun cd st h0 _ => absurd h0 (by
      rw [nodeOK.eq_def]
      simp))
  | succ f ihf =>
    refine wtr_step h hinj hho hne (f + 1) ?_
    intro cd st hnode htag
    rw [nodeOK_dir_succ] at hnode
    exact ihf cd st hnode htag

theorem unaryBlock_inj : ∀ (n m : Nat) (a b : Str),
    List.replicate n 97 ++ 98 :: a = List.replicate m 97 ++ 98 :: b →
    n = m ∧ a = b := by
  intro n
  induction n with
  | zero =>
    intro m a b hmb
    cases m with
    | zero => exact ⟨rfl, by simpa using hmb⟩
    | succ m2 =>
      exfalso
      rw [List.replicate_succ] at hmb
      simp at hmb
  | succ n2 ihn =>
    intro m a b hmb
    cases m with
    | zero =>
      exfalso
      rw [List.replicate_succ] at hmb
      simp at hmb
    | succ m2 =>
      rw [List.replicate_succ, List.replicate_succ] at hmb
      simp only [List.cons_append, List.cons.injEq] at hmb
      obtain ⟨nm, ab⟩ := ihn m2 a b hmb.2
      exact ⟨by omega, ab⟩

theorem unaryCode_inj : ∀ x y : Str,
    x.flatMap (fun n => List.replicate n 97 ++ [98]) =
      y.flatMap (fun n => List.replicate n 97 ++ [98]) → x = y := by
  intro x
  induction x with
  | nil =>
    intro y hxy
    cases y with
    | nil => rfl
    | cons m ys =>
      exfalso
      rw [List.flatMap_cons] at hxy
      have := congrArg List.length hxy
      simp [List.length_append] at this
      omega
  | cons n xs ihx =>
    intro y hxy
    cases y with
    | nil =>
      exfalso
      rw [List.flatMap_cons] at hxy
      have := congrArg List.length hxy
      simp [List.length_append] at this
    | cons m ys =>
      rw [List.flatMap_cons, List.flatMap_cons] at hxy
      have hx' : List.replicate n 97 ++ 98 ::
          xs.flatMap (fun n => List.replicate n 97 ++ [98]) =
          List.replicate m 97 ++ 98 ::
          ys.flatMap (fun n => List.replicate n 97 ++ [98]) := by
        simpa [List.append_assoc] using hxy
      obtain ⟨hnm, htl⟩ := unaryBlock_inj n m _ _ hx'
      rw [hnm, ihx ys htl]

theorem unaryEnc_inj (x y : Str) (hxy : unaryEnc x = unaryEnc y) : x = y := by
  rw [unaryEnc, unaryEnc] at hxy
  simp only [List.cons.injEq] at hxy
  exact unaryCode_inj x y hxy.2

theorem unaryEnc_oidOK (x : Str) : oidCharsOK (unaryEnc x) = true := by
  rw [unaryEnc, oidCharsOK]
  apply List.all_eq_true.mpr
  intro c hc
  rcases List.mem_cons.mp hc with hh | hh
  · subst hh
    decide
  · obtain ⟨n, hn, hcn⟩ := List.mem_flatMap.mp hh
    rcases List.mem_append.mp hcn with h2 | h2
    · have := List.eq_of_mem_replicate h2
      subst this
      decide
    · rw [List.mem_singleton.mp h2]
      decide

theorem unaryEnc_ne_nil (x : Str) : unaryEnc x ≠ [] := by
  rw [unaryEnc]
  simp

/- ## C2 -/

set_option maxRecDepth 40000 in
/-- C2 counterexample: the index `{a/b ↦ b…b, a ↦ a…a}` maps valid relative
paths (non-empty segments, no separator or line break, not `.` or `..`) to
40-hex blob oids, yet the tree written from it does not read back to the same
mapping: the index loop's `current[filename] = oid` silently replaces the
subdict already built for `a/b` when the later path `a` is assigned, so
`get_tree (write_tree index)` lacks the key `a/b` entirely (computed here
with the real SHA-1 digest). -/
theorem write_tree_get_tree_roundtrip_cex :
    (∀ pv ∈ [(strB "a/b", List.replicate 40 98), (strB "a", List.replicate 40 97)],
      validPathB pv.1 = true) ∧
    ((write_tree sha1hex
        [(strB "a/b", List.replicate 40 98), (strB "a", List.replicate 40 97)] []).bind
      fun tw => (get_tree tw.2
          (maxSegs [(strB "a/b", List.replicate 40 98),
            (strB "a", List.replicate 40 97)] + 1)
          tw.1 []).map
        fun r => lookupA r (strB "a/b")) = some none ∧
    lookupA [(strB "a/b", List.replicate 40 98), (strB "a", List.replicate 40 97)]
      (strB "a/b") = some (List.replicate 40 98) := by
  decide

/-- C2 (amended): for an index of valid relative paths (each segment
non-empty, free of the separator and of line-break characters, not `.` or
`..`) no two of which are equal or nested one under the other, mapping to
separator-free printable oids, and for an injective digest with non-empty
printable outputs over a store whose entries are digest-tagged, writing the
index as a tree and reading it back restores the index exactly as a
path-to-oid mapping. -/
theorem write_tree_get_tree_roundtrip (h : Str → Str) (index : List (Str × Str))
    (store0 : Store)
    (hinj : ∀ x y, h x = h y → x = y)
    (hho : ∀ x, oidCharsOK (h x) = true)
    (hne : ∀ x, h x ≠ [])
    (hstore : ∀ kv ∈ store0, kv.1 = h kv.2)
    (hvalid : ∀ pv ∈ index, validPathB pv.1 = true)
    (hoids : ∀ pv ∈ index, oidCharsOK pv.2 = true)
    (hsep : sepPaths index = true) :
    ∃ tw, write_tree h index store0 = some tw ∧
      ∃ r, get_tree tw.2 (maxSegs index + 1) tw.1 [] = some r ∧
        ∀ p, lookupA r p = lookupA index p := by
  obtain ⟨d, hbuild, hok, hshape⟩ := buildIndexTree_correct index hvalid hoids hsep
  obtain ⟨htagS, hpresS, hoidS, hGT⟩ :=
    wtr_correct h hinj hho hne (maxSegs index) d store0 hok hstore
  refine ⟨writeTreeRec h (maxSegs index + 1) d store0, ?_, ?_⟩
  · rw [write_tree, hbuild]
    rfl
  · obtain ⟨r, hr, hrnd, hmap⟩ := hGT (writeTreeRec h (maxSegs index + 1) d store0).2
      htagS (fun k2 v2 hv => hv) (maxSegs index) (le_refl _) []
    refine ⟨r, hr, ?_⟩
    intro p
    rw [hmap p, show stripPre [] p = some p from rfl, Option.some_bind]
    exact pathLook_eq_lookupA index d hshape p

/-- Witness for C2: on the two-entry index `{d/f ↦ o1, g ↦ o2}` with the
concretely injective digest `unaryEnc` and an empty store, the roundtrip
theorem applies with every hypothesis discharged by evaluation, so the tree
written from the index reads back to exactly that mapping. -/
theorem write_tree_get_tree_roundtrip_w :
    ∃ tw, write_tree unaryEnc
        [(strB "d/f", strB "o1"), (strB "g", strB "o2")] [] = some tw ∧
      ∃ r, get_tree tw.2
          (maxSegs [(strB "d/f", strB "o1"), (strB "g", strB "o2")] + 1)
          tw.1 [] = some r ∧
        ∀ p, lookupA r p =
          lookupA [(strB "d/f", strB "o1"), (strB "g", strB "o2")] p :=
  write_tree_get_tree_roundtrip unaryEnc
    [(strB "d/f", strB "o1"), (strB "g", strB "o2")] []
    unaryEnc_inj unaryEnc_oidOK unaryEnc_ne_nil (by simp)
    (by decide) (by decide) (by decide)
